import Mathlib

/-!
# Block headers of the chain: RLP codec, hash, sanity check, copies

An embedding of `core/types/block.go`: the header with its BFT fields, its RLP
encoding and decoding, its hash, `SanityCheck`, `CopyHeader` and `NewBlock`, the hash
and size caches of a block and its RLP codec, with the properties the specification
states about them; and a model of the handler of consensus messages, which
`consensus/tendermint/core/handler_test.go` exercises, after the specification.
-/

set_option maxRecDepth 100000

/-! # Byte strings and big-endian integers -/

/-- A byte, `uint8` in the source. -/
abbrev Byte := Fin 256

/-- A byte slice `[]byte` by content; a nil slice and an empty slice both have length 0 and
both are the empty list. -/
abbrev Bytes := List Byte

/-- Conversion `byte(n)`, which keeps the low eight bits. -/
def byteOfNat (n : Nat) : Byte := ⟨n % 256, Nat.mod_lt n (by decide)⟩

/-- Little-endian base-256 digits of `n`, least significant first, none for 0.
The first argument bounds the number of digits produced. -/
def leBytesAux : Nat → Nat → Bytes
  | 0, _ => []
  | fuel + 1, n => if n = 0 then [] else byteOfNat n :: leBytesAux fuel (n / 256)

/-- Minimal big-endian representation of `n` (no leading zero byte, empty for 0):
what `putint` writes for a size and `big.Int.Bytes` returns for a magnitude. -/
def beBytes (n : Nat) : Bytes := (leBytesAux n n).reverse

/-- Big-endian value of a byte string. -/
def beVal (bs : Bytes) : Nat := bs.foldl (fun acc b => acc * 256 + b.val) 0

/-! # RLP -/

namespace rlp

/-- Modelled from the spec: the `rlp` package is not among the source files; a value of
the RLP wire format that the spec names: a byte string or a list of values. -/
inductive Item where
  | str : Bytes → Item
  | list : List Item → Item

/-- Modelled from the spec: the `rlp` package is not among the source files; the two
kinds of value that the first byte of an encoding announces (`rlp.String`, `rlp.List`);
the `rlp.Byte` kind is a string of one byte. -/
inductive Kind where
  | String
  | List
deriving DecidableEq

/-- Modelled from the spec: the `rlp` package is not among the source files; this is
`puthead`, the head of a string (tags 0x80/0xB7) or list (tags 0xC0/0xF7) of `size`
payload bytes, in the RLP wire format the spec names. -/
def puthead (smalltag largetag size : Nat) : Bytes :=
  if size < 56 then [byteOfNat (smalltag + size)]
  else byteOfNat (largetag + (beBytes size).length) :: beBytes size

/-- Modelled from the spec: the `rlp` package is not among the source files; encoding of
a byte string (`writeBytes`): a single byte below 0x80 is its own encoding. -/
def encodeBytes (b : Bytes) : Bytes :=
  match b with
  | [x] => if x.val ≤ 0x7F then [x] else puthead 0x80 0xB7 1 ++ [x]
  | _ => puthead 0x80 0xB7 b.length ++ b

mutual
/-- Modelled from the spec: the `rlp` package is not among the source files; the bytes
of an RLP value. -/
def Item.encode : Item → Bytes
  | .str b => encodeBytes b
  | .list xs => puthead 0xC0 0xF7 (Item.encodeList xs).length ++ Item.encodeList xs
/-- Modelled from the spec: the `rlp` package is not among the source files; the
concatenated encodings of the elements of a list, its payload. -/
def Item.encodeList : List Item → Bytes
  | [] => []
  | x :: xs => x.encode ++ Item.encodeList xs
end

/-- Modelled from the spec: the `rlp` package is not among the source files; `readUint`
for the size of a long string or list: `n` big-endian bytes without a leading zero. -/
def readSize (n : Nat) (r : Bytes) : Option (Nat × Bytes) :=
  if r.length < n then none
  else
    match r.take n with
    | [] => some (0, r.drop n)
    | b :: bs =>
      if 1 < n ∧ b.val = 0 then none
      else some (beVal (b :: bs), r.drop n)

/-- Modelled from the spec: the `rlp` package is not among the source files; the next
`size` bytes of the input as the payload of a value of kind `k`, and the rest of the input; fails when the input is shorter. A one-byte string below 0x80 in the
long form is rejected (`ErrCanonSize`), as every string reader of the decoder does. -/
def takePayload (k : Kind) (size : Nat) (r : Bytes) : Option (Kind × Bytes × Bytes) :=
  if r.length < size then none
  else
    match k, r.take size with
    | .String, [x] => if x.val < 128 then none else some (k, [x], r.drop size)
    | _, p => some (k, p, r.drop size)

/-- Modelled from the spec: the `rlp` package is not among the source files;
`Stream.readKind` followed by the read of the payload: kind, payload and remaining input
of the first value of the input. -/
def splitItem : Bytes → Option (Kind × Bytes × Bytes)
  | [] => none
  | b :: r =>
    if b.val < 0x80 then some (.String, [b], r)
    else if b.val < 0xB8 then takePayload .String (b.val - 0x80) r
    else if b.val < 0xC0 then
      match readSize (b.val - 0xB7) r with
      | none => none
      | some (size, r1) => if size < 56 then none else takePayload .String size r1
    else if b.val < 0xF8 then takePayload .List (b.val - 0xC0) r
    else
      match readSize (b.val - 0xF7) r with
      | none => none
      | some (size, r1) => if size < 56 then none else takePayload .List size r1

mutual
/-- Modelled from the spec: the `rlp` package is not among the source files; decoding of
the first value of the input with a bound on the nesting and the number of elements
visited; returns the value and the remaining input. -/
def decodeAux : Nat → Bytes → Option (Item × Bytes)
  | 0, _ => none
  | fuel + 1, bs =>
    match splitItem bs with
    | none => none
    | some (.String, p, r) => some (.str p, r)
    | some (.List, p, r) =>
      match decodeListAux fuel p with
      | none => none
      | some xs => some (.list xs, r)
/-- Modelled from the spec: the `rlp` package is not among the source files; decoding of
a list payload into its elements, until the payload is used up. -/
def decodeListAux : Nat → Bytes → Option (List Item)
  | 0, _ => none
  | fuel + 1, bs =>
    match bs with
    | [] => some []
    | _ :: _ =>
      match decodeAux fuel bs with
      | none => none
      | some (x, r) =>
        match decodeListAux fuel r with
        | none => none
        | some xs => some (x :: xs)
end

/-- Modelled from the spec: the `rlp` package is not among the source files; decoding of
the first value of a stream (`Stream.Decode`), with the rest of the stream. The bound
`2 * length + 1` is never what makes it fail (`rlp.decodeAux_fuel`): every value takes
at least one byte. -/
def decode (bs : Bytes) : Option (Item × Bytes) := decodeAux (2 * bs.length + 1) bs

/-- Modelled from the spec: the `rlp` package is not among the source files;
`rlp.DecodeBytes`: the input is exactly one value, trailing bytes are an error. -/
def DecodeBytes (bs : Bytes) : Option Item :=
  match decode bs with
  | some (x, []) => some x
  | _ => none

mutual
/-- Number of decoding steps the decoder needs for a value. -/
def Item.need : Item → Nat
  | .str _ => 1
  | .list xs => 1 + Item.needList xs
/-- Number of decoding steps the decoder needs for the elements of a list. -/
def Item.needList : List Item → Nat
  | [] => 1
  | x :: xs => 1 + max x.need (Item.needList xs)
end
end rlp

/-! # Fixed-size values -/

/-- A byte array `[n]byte`. -/
abbrev FixedBytes (n : Nat) := {l : Bytes // l.length = n}

/-- The zero value of `[n]byte`. -/
def FixedBytes.zero (n : Nat) : FixedBytes n := ⟨List.replicate n 0, List.length_replicate n 0⟩

namespace common
/-- The type `common.Hash`, 32 bytes. -/
abbrev Hash := FixedBytes 32
/-- The type `common.Address`, 20 bytes. -/
abbrev Address := FixedBytes 20
end common

/-- The type `types.Bloom`, 256 bytes. -/
abbrev Bloom := FixedBytes 256

/-- The type `BlockNonce`, 8 bytes. -/
abbrev BlockNonce := FixedBytes 8

/-- A `uint64`. -/
abbrev U64 := Fin (2 ^ 64)

/-- A `*big.Int`: `none` is the nil pointer, `some v` points to the integer `v`. -/
abbrev BigIntPtr := Option Int

/-! # Typed RLP values -/

namespace rlp

/-- Modelled from the spec: the `rlp` package is not among the source files; a `uint64`
is the string of its minimal big-endian bytes (`writeUint`). -/
def encodeUint (i : U64) : Item := .str (beBytes i.val)

/-- Modelled from the spec: the `rlp` package is not among the source files; a
`*big.Int` (`writeBigIntPtr`): nil is the empty string, a negative integer is an error,
any other the string of its minimal big-endian bytes. -/
def encodeBigInt : BigIntPtr → Option Item
  | none => some (.str [])
  | some i => if i < 0 then none else some (.str (beBytes i.toNat))

/-- Modelled from the spec: the `rlp` package is not among the source files; a `uint64`
is read from a string of at most 8 bytes without a leading zero (`Stream.uint`). -/
def decodeUint64 : Item → Option U64
  | .str [] => some 0
  | .str (b :: bs) =>
    if b.val = 0 then none
    else if 8 < (b :: bs).length then none
    else some ⟨beVal (b :: bs) % 2 ^ 64, Nat.mod_lt _ (by decide)⟩
  | .list _ => none

/-- Modelled from the spec: the `rlp` package is not among the source files; a big
integer is read from a string without a leading zero (`decodeBigInt`); the pointer
stored is never nil. -/
def decodeBigInt : Item → Option Int
  | .str [] => some 0
  | .str (b :: bs) => if b.val = 0 then none else some (Int.ofNat (beVal (b :: bs)))
  | .list _ => none

/-- Modelled from the spec: the `rlp` package is not among the source files; a byte
array `[n]byte` is read from a string of exactly `n` bytes (`decodeByteArray`). -/
def decodeByteArray (n : Nat) : Item → Option (FixedBytes n)
  | .str p => if h : p.length = n then some ⟨p, h⟩ else none
  | .list _ => none

/-- Modelled from the spec: the `rlp` package is not among the source files; a byte
slice is read from a string (`Stream.Bytes`). -/
def decodeByteSlice : Item → Option Bytes
  | .str p => some p
  | .list _ => none

/-- Modelled from the spec: the `rlp` package is not among the source files; decoding of
the elements of a list one by one, which fails when one of them fails. -/
def decodeElems {α : Type} (f : Item → Option α) : List Item → Option (List α)
  | [] => some []
  | x :: xs =>
    match f x with
    | none => none
    | some a =>
      match decodeElems f xs with
      | none => none
      | some as => some (a :: as)

/-- Modelled from the spec: the `rlp` package is not among the source files; a slice is
read from a list, element by element (`decodeListSlice`). -/
def decodeListSlice {α : Type} (f : Item → Option α) : Item → Option (List α)
  | .str _ => none
  | .list xs => decodeElems f xs

/-- Modelled from the spec: the `rlp` package is not among the source files; encoding of
the elements of a slice one by one, which fails when one of them fails. -/
def encodeElems {α : Type} (f : α → Option Item) : List α → Option (List Item)
  | [] => some []
  | a :: as =>
    match f a with
    | none => none
    | some x =>
      match encodeElems f as with
      | none => none
      | some xs => some (x :: xs)

/-- Modelled from the spec: the `rlp` package is not among the source files; `[][]byte`
is the list of its strings. -/
def encodeSeals (s : List Bytes) : Item := .list (s.map Item.str)

end rlp

/-! # Header -/

/-- A member of the committee. -/
structure CommitteeMember where
  Address : common.Address
  VotingPower : BigIntPtr
deriving DecidableEq

/-- The committee, `[]CommitteeMember`. -/
abbrev Committee := List CommitteeMember

/-- Header of a block. The unexported `committeeMap` and `once` are caches that
no function below reads. -/
structure Header where
  ParentHash : common.Hash
  UncleHash : common.Hash
  Coinbase : common.Address
  Root : common.Hash
  TxHash : common.Hash
  ReceiptHash : common.Hash
  Bloom : Bloom
  Difficulty : BigIntPtr
  Number : BigIntPtr
  GasLimit : U64
  GasUsed : U64
  Time : U64
  Extra : Bytes
  MixDigest : common.Hash
  Nonce : BlockNonce
  Committee : Committee
  ProposerSeal : Bytes
  Round : U64
  CommittedSeals : List Bytes
  PastCommittedSeals : List Bytes
deriving DecidableEq

/-- The ethereum blockchain header, `originalHeader`. -/
structure originalHeader where
  ParentHash : common.Hash
  UncleHash : common.Hash
  Coinbase : common.Address
  Root : common.Hash
  TxHash : common.Hash
  ReceiptHash : common.Hash
  Bloom : Bloom
  Difficulty : BigIntPtr
  Number : BigIntPtr
  GasLimit : U64
  GasUsed : U64
  Time : U64
  Extra : Bytes
  MixDigest : common.Hash
  Nonce : BlockNonce
deriving DecidableEq

/-- The BFT fields that travel in the extra data, `headerExtra`. -/
structure headerExtra where
  Committee : Committee
  ProposerSeal : Bytes
  Round : U64
  CommittedSeals : List Bytes
  PastCommittedSeals : List Bytes
deriving DecidableEq

/-- The zero value `Header{}` that `new(Header)` points to. -/
def Header.zeroValue : Header where
  ParentHash := FixedBytes.zero 32
  UncleHash := FixedBytes.zero 32
  Coinbase := FixedBytes.zero 20
  Root := FixedBytes.zero 32
  TxHash := FixedBytes.zero 32
  ReceiptHash := FixedBytes.zero 32
  Bloom := FixedBytes.zero 256
  Difficulty := none
  Number := none
  GasLimit := 0
  GasUsed := 0
  Time := 0
  Extra := []
  MixDigest := FixedBytes.zero 32
  Nonce := FixedBytes.zero 8
  Committee := []
  ProposerSeal := []
  Round := 0
  CommittedSeals := []
  PastCommittedSeals := []

/-- Modelled from the spec: the `rlp` package is not among the source files; the RLP
value of a struct is the list of its fields: a committee member. -/
def CommitteeMember.toItem (m : CommitteeMember) : Option rlp.Item :=
  match rlp.encodeBigInt m.VotingPower with
  | none => none
  | some v => some (.list [.str m.Address.val, v])

/-- Modelled from the spec: the `rlp` package is not among the source files; a struct is
read from the list of its fields, a list of any other length being an error: a committee
member. -/
def CommitteeMember.fromItem : rlp.Item → Option CommitteeMember
  | .list [a, v] =>
    match rlp.decodeByteArray 20 a, rlp.decodeBigInt v with
    | some addr, some power => some { Address := addr, VotingPower := some power }
    | _, _ => none
  | _ => none

/-- Modelled from the spec: the `rlp` package is not among the source files; the RLP
value of `headerExtra`, the list of its five fields in the order of declaration. -/
def headerExtra.toItem (e : headerExtra) : Option rlp.Item :=
  match rlp.encodeElems CommitteeMember.toItem e.Committee with
  | none => none
  | some c =>
    some (.list [.list c, .str e.ProposerSeal, rlp.encodeUint e.Round,
      rlp.encodeSeals e.CommittedSeals, rlp.encodeSeals e.PastCommittedSeals])

/-- Modelled from the spec: the `rlp` package is not among the source files; the
`headerExtra` read from the list of its five fields; a list of any other length is an
error. -/
def headerExtra.fromItem : rlp.Item → Option headerExtra
  | .list [c, ps, r, cs, pcs] =>
    match rlp.decodeListSlice CommitteeMember.fromItem c, rlp.decodeByteSlice ps,
        rlp.decodeUint64 r, rlp.decodeListSlice rlp.decodeByteSlice cs,
        rlp.decodeListSlice rlp.decodeByteSlice pcs with
    | some c1, some ps1, some r1, some cs1, some pcs1 =>
      some { Committee := c1, ProposerSeal := ps1, Round := r1, CommittedSeals := cs1,
             PastCommittedSeals := pcs1 }
    | _, _, _, _, _ => none
  | _ => none

/-- Modelled from the spec: the `rlp` package is not among the source files; the RLP
value of `originalHeader`, the list of its 15 fields in the order of declaration. -/
def originalHeader.toItem (o : originalHeader) : Option rlp.Item :=
  match rlp.encodeBigInt o.Difficulty, rlp.encodeBigInt o.Number with
  | some d, some n =>
    some (.list [.str o.ParentHash.val, .str o.UncleHash.val, .str o.Coinbase.val,
      .str o.Root.val, .str o.TxHash.val, .str o.ReceiptHash.val, .str o.Bloom.val, d, n,
      rlp.encodeUint o.GasLimit, rlp.encodeUint o.GasUsed, rlp.encodeUint o.Time,
      .str o.Extra, .str o.MixDigest.val, .str o.Nonce.val])
  | _, _ => none

/-- Modelled from the spec: the `rlp` package is not among the source files; the
`originalHeader` read from the list of its 15 fields; a list of any other length is an
error. -/
def originalHeader.fromItem : rlp.Item → Option originalHeader
  | .list [ph, uh, cb, rt, th, rh, bl, d, n, gl, gu, tm, ex, md, nc] =>
    match rlp.decodeByteArray 32 ph, rlp.decodeByteArray 32 uh, rlp.decodeByteArray 20 cb,
        rlp.decodeByteArray 32 rt, rlp.decodeByteArray 32 th, rlp.decodeByteArray 32 rh,
        rlp.decodeByteArray 256 bl, rlp.decodeBigInt d, rlp.decodeBigInt n,
        rlp.decodeUint64 gl, rlp.decodeUint64 gu, rlp.decodeUint64 tm,
        rlp.decodeByteSlice ex, rlp.decodeByteArray 32 md, rlp.decodeByteArray 8 nc with
    | some ph1, some uh1, some cb1, some rt1, some th1, some rh1, some bl1, some d1, some n1,
        some gl1, some gu1, some tm1, some ex1, some md1, some nc1 =>
      some { ParentHash := ph1, UncleHash := uh1, Coinbase := cb1, Root := rt1, TxHash := th1,
             ReceiptHash := rh1, Bloom := bl1, Difficulty := some d1, Number := some n1,
             GasLimit := gl1, GasUsed := gu1, Time := tm1, Extra := ex1, MixDigest := md1,
             Nonce := nc1 }
    | _, _, _, _, _, _, _, _, _, _, _, _, _, _, _ => none
  | _ => none

/-- Bytes `rlp.Encode` writes for an `originalHeader`, none on an encoding error. -/
def originalHeader.encode (o : originalHeader) : Option Bytes :=
  o.toItem.map rlp.Item.encode

/-- Bytes `rlp.EncodeToBytes` returns for a `headerExtra`, none on an encoding error. -/
def headerExtra.encode (e : headerExtra) : Option Bytes :=
  e.toItem.map rlp.Item.encode

/-- The legacy part of a header, `Header.original`. -/
def Header.original (h : Header) : originalHeader where
  ParentHash := h.ParentHash
  UncleHash := h.UncleHash
  Coinbase := h.Coinbase
  Root := h.Root
  TxHash := h.TxHash
  ReceiptHash := h.ReceiptHash
  Bloom := h.Bloom
  Difficulty := h.Difficulty
  Number := h.Number
  GasLimit := h.GasLimit
  GasUsed := h.GasUsed
  Time := h.Time
  Extra := h.Extra
  MixDigest := h.MixDigest
  Nonce := h.Nonce

/-- The method `Header.EncodeRLP`: the bytes written, none when it returns an error. -/
def Header.EncodeRLP (BFTDigest : common.Hash) (h : Header) : Option Bytes :=
  let hExtra : headerExtra :=
    { Committee := h.Committee, ProposerSeal := h.ProposerSeal, Round := h.Round,
      CommittedSeals := h.CommittedSeals, PastCommittedSeals := h.PastCommittedSeals }
  let original := h.original
  if h.MixDigest = BFTDigest then
    match hExtra.encode with
    | none => none
    | some extra => ({ original with Extra := extra }).encode
  else
    ({ original with Extra := h.Extra }).encode

/-- The method `Header.DecodeRLP` on the receiver `h` and the stream `s`: the receiver
after the call, and the rest of the stream or none when an error is returned. -/
def Header.DecodeRLP (BFTDigest : common.Hash) (h : Header) (s : Bytes) :
    Header × Option Bytes :=
  match rlp.decode s with
  | none => (h, none)
  | some (item, rest) =>
    match originalHeader.fromItem item with
    | none => (h, none)
    | some origin =>
      if origin.MixDigest = BFTDigest then
        match (rlp.DecodeBytes origin.Extra).bind headerExtra.fromItem with
        | none => (h, none)
        | some hExtra =>
          ({ h with
              CommittedSeals := hExtra.CommittedSeals
              Committee := hExtra.Committee
              PastCommittedSeals := hExtra.PastCommittedSeals
              ProposerSeal := hExtra.ProposerSeal
              Round := hExtra.Round
              ParentHash := origin.ParentHash
              UncleHash := origin.UncleHash
              Coinbase := origin.Coinbase
              Root := origin.Root
              TxHash := origin.TxHash
              ReceiptHash := origin.ReceiptHash
              Bloom := origin.Bloom
              Difficulty := origin.Difficulty
              Number := origin.Number
              GasLimit := origin.GasLimit
              GasUsed := origin.GasUsed
              Time := origin.Time
              MixDigest := origin.MixDigest
              Nonce := origin.Nonce }, some rest)
      else
        ({ h with
            Extra := origin.Extra
            ParentHash := origin.ParentHash
            UncleHash := origin.UncleHash
            Coinbase := origin.Coinbase
            Root := origin.Root
            TxHash := origin.TxHash
            ReceiptHash := origin.ReceiptHash
            Bloom := origin.Bloom
            Difficulty := origin.Difficulty
            Number := origin.Number
            GasLimit := origin.GasLimit
            GasUsed := origin.GasUsed
            Time := origin.Time
            MixDigest := origin.MixDigest
            Nonce := origin.Nonce }, some rest)

/-- Modelled from the spec: `BFTFilteredHeader` is declared in a file that is not among
the source files. By the spec the BFT hash is taken over a filtered view of the
header with `committed_seals` empty, and with `proposer_seal` empty for the hash that
the proposer signs, the other fields retained. The second argument says whether the
proposer seal is kept in the view: `Header.Hash` passes true, under the comment that
the seal is reserved in the extra data to prove that the block is signed by the
proposer. The view is never nil. -/
def BFTFilteredHeader (h : Header) (keepSeal : Bool) : Option Header :=
  some { h with
          ProposerSeal := if keepSeal then h.ProposerSeal else []
          CommittedSeals := [] }

/-- The function `rlpHash` on a value whose encoding is `enc`: the hasher is reset and
`rlp.Encode` writes into it, nothing when it fails; its error is dropped. -/
def rlpHash (keccak256 : Bytes → common.Hash) (enc : Option Bytes) : common.Hash :=
  match enc with
  | some bs => keccak256 bs
  | none => keccak256 []

/-- The method `Header.Hash`. -/
def Header.Hash (BFTDigest : common.Hash) (keccak256 : Bytes → common.Hash) (h : Header) :
    common.Hash :=
  if h.MixDigest = BFTDigest then
    match BFTFilteredHeader h true with
    | some posHeader => rlpHash keccak256 (posHeader.EncodeRLP BFTDigest)
    | none => rlpHash keccak256 h.original.encode
  else
    rlpHash keccak256 h.original.encode

/-! # Sanity check -/

/-- Number of binary digits of `n`, 0 for 0; the first argument bounds the count. -/
def bitLenAux : Nat → Nat → Nat
  | 0, _ => 0
  | fuel + 1, n => if n = 0 then 0 else bitLenAux fuel (n / 2) + 1

/-- The method `big.Int.BitLen`: the length of the absolute value in bits, 0 for 0. -/
def BitLen (x : Int) : Nat := bitLenAux x.natAbs x.natAbs

/-- The method `big.Int.IsUint64`: the integer is representable as a `uint64`. -/
def IsUint64 (x : Int) : Bool := decide (0 ≤ x ∧ x < 2 ^ 64)

/-- The errors of `Header.SanityCheck`, with the number their message prints. -/
inductive SanityError where
  | tooLargeBlockNumber (bitlen : Nat)
  | tooLargeBlockDifficulty (bitlen : Nat)
  | tooLargeBlockExtradata (size : Nat)
deriving DecidableEq

/-- The last check of `Header.SanityCheck`, of the extra data. -/
def Header.SanityCheck.extra (h : Header) : Option SanityError :=
  if h.Extra.length > 100 * 1024 then some (.tooLargeBlockExtradata h.Extra.length)
  else none

/-- The checks of `Header.SanityCheck` after the one of the number: the difficulty
and the extra data. -/
def Header.SanityCheck.rest (h : Header) : Option SanityError :=
  match h.Difficulty with
  | some difficulty =>
    if BitLen difficulty > 80 then some (.tooLargeBlockDifficulty (BitLen difficulty))
    else Header.SanityCheck.extra h
  | none => Header.SanityCheck.extra h

/-- The method `Header.SanityCheck`: the error returned, `none` for nil. -/
def Header.SanityCheck (h : Header) : Option SanityError :=
  match h.Number with
  | some number =>
    if !IsUint64 number then some (.tooLargeBlockNumber (BitLen number))
    else Header.SanityCheck.rest h
  | none => Header.SanityCheck.rest h

/-! # Copies -/

/-- The built-in `make([]byte, n)`: `n` zero bytes. -/
def makeBytes (n : Nat) : Bytes := List.replicate n 0

/-- The built-in `copy(dst, src)`: the content of `dst` afterwards, its first
`min(len(dst), len(src))` elements overwritten with those of `src`. -/
def copy {α : Type} (dst src : List α) : List α := src.take dst.length ++ dst.drop src.length

/-- Copy of a seal list in `CopyHeader`: every entry is copied into a new slice of its
length. -/
def copySeals (seals : List Bytes) : List Bytes :=
  seals.map fun val => copy (makeBytes val.length) val

/-- Copy of the committee in `CopyHeader`; `new(big.Int).Set(val.VotingPower)` panics on
a nil voting power, which is `none`. -/
def copyCommittee : Committee → Option Committee
  | [] => some []
  | val :: rest =>
    match val.VotingPower with
    | none => none
    | some power =>
      match copyCommittee rest with
      | none => none
      | some members => some ({ Address := val.Address, VotingPower := some power } :: members)

/-- The function `CopyHeader` by value: the header returned, `none` when it panics. -/
def CopyHeader (h : Header) : Option Header :=
  let difficulty : Int := match h.Difficulty with
    | some d => d
    | none => 0
  let number : Int := match h.Number with
    | some n => n
    | none => 0
  let extra := if h.Extra.length > 0 then copy (makeBytes h.Extra.length) h.Extra else makeBytes 0
  let committee := if h.Committee.length > 0 then copyCommittee h.Committee else some []
  let proposerSeal :=
    if h.ProposerSeal.length > 0 then copy (makeBytes h.ProposerSeal.length) h.ProposerSeal
    else makeBytes 0
  let committedSeals := if h.CommittedSeals.length > 0 then copySeals h.CommittedSeals else []
  let pastCommittedSeals :=
    if h.PastCommittedSeals.length > 0 then copySeals h.PastCommittedSeals else []
  match committee with
  | none => none
  | some members =>
    some
      { ParentHash := h.ParentHash
        UncleHash := h.UncleHash
        Coinbase := h.Coinbase
        Root := h.Root
        TxHash := h.TxHash
        ReceiptHash := h.ReceiptHash
        Bloom := h.Bloom
        Difficulty := some difficulty
        Number := some number
        GasLimit := h.GasLimit
        GasUsed := h.GasUsed
        Time := h.Time
        Extra := extra
        MixDigest := h.MixDigest
        Nonce := h.Nonce
        Committee := members
        ProposerSeal := proposerSeal
        Round := h.Round
        CommittedSeals := committedSeals
        PastCommittedSeals := pastCommittedSeals }

/-! # Blocks -/

/-- The constant `EmptyRootHash`,
56e81f171bcc55a6ff8345e692c0f86e5b48e01b996cadc001622fb5e363b421. -/
def EmptyRootHash : common.Hash :=
  ⟨[0x56, 0xe8, 0x1f, 0x17, 0x1b, 0xcc, 0x55, 0xa6, 0xff, 0x83, 0x45, 0xe6, 0x92, 0xc0, 0xf8,
    0x6e, 0x5b, 0x48, 0xe0, 0x1b, 0x99, 0x6c, 0xad, 0xc0, 0x01, 0x62, 0x2f, 0xb5, 0xe3, 0x63,
    0xb4, 0x21], rfl⟩

/-- Bytes `rlp.Encode` writes for a list of `originalHeader`, none on an encoding error. -/
def encodeOriginalHeaders (hs : List originalHeader) : Option Bytes :=
  (rlp.encodeElems originalHeader.toItem hs).map fun xs => (rlp.Item.list xs).encode

/-- The variable `EmptyUncleHash`, `rlpHash([]*Header(nil))`: a nil slice is written as
the empty list. -/
def EmptyUncleHash (keccak256 : Bytes → common.Hash) : common.Hash :=
  rlpHash keccak256 (some (rlp.Item.list []).encode)

/-- The function `CalcUncleHash`. -/
def CalcUncleHash (keccak256 : Bytes → common.Hash) (uncles : List Header) : common.Hash :=
  if uncles.length = 0 then EmptyUncleHash keccak256
  else
    let originalUncles := uncles.map Header.original
    rlpHash keccak256 (encodeOriginalHeaders originalUncles)

/-- A block. A transaction pointer `*Transaction` is `Option Tx`, `none` for nil; the
header and uncle pointers are not nil. The caches `hash` and `size` are `none` while
nothing is stored. `ReceivedAt` and `ReceivedFrom`, which no function below touches, are
left out. -/
structure Block (Tx : Type) where
  header : Header
  uncles : List Header
  transactions : List (Option Tx)
  hash : Option common.Hash
  size : Option Nat
  td : BigIntPtr

/-- What the source takes from files that are not among the source files to build a
block: `DeriveSha` on transactions and on receipts, and `CreateBloom`. -/
structure Deriver (Tx Receipt Hasher : Type) where
  DeriveShaTxs : List (Option Tx) → Hasher → common.Hash
  DeriveShaReceipts : List Receipt → Hasher → common.Hash
  CreateBloom : List Receipt → Bloom

/-- Copies of the uncles, element by element; `none` when a `CopyHeader` panics. -/
def copyUncles : List Header → Option (List Header)
  | [] => some []
  | u :: us =>
    match CopyHeader u with
    | none => none
    | some c =>
      match copyUncles us with
      | none => none
      | some cs => some (c :: cs)

/-- The function `NewBlock`; `none` when a `CopyHeader` in it panics. -/
def NewBlock {Tx Receipt Hasher : Type} (keccak256 : Bytes → common.Hash)
    (ext : Deriver Tx Receipt Hasher) (header : Header) (txs : List (Option Tx))
    (uncles : List Header) (receipts : List Receipt) (hasher : Hasher) :
    Option (Block Tx) :=
  match CopyHeader header with
  | none => none
  | some cpy =>
    let b : Block Tx :=
      { header := cpy, uncles := [], transactions := [], hash := none, size := none,
        td := some 0 }
    let b : Block Tx :=
      if txs.length = 0 then
        { b with header := { b.header with TxHash := EmptyRootHash } }
      else
        { b with
            header := { b.header with TxHash := ext.DeriveShaTxs txs hasher }
            transactions := copy (List.replicate txs.length none) txs }
    let b : Block Tx :=
      if receipts.length = 0 then
        { b with header := { b.header with ReceiptHash := EmptyRootHash } }
      else
        { b with
            header := { b.header with
              ReceiptHash := ext.DeriveShaReceipts receipts hasher
              Bloom := ext.CreateBloom receipts } }
    if uncles.length = 0 then
      some { b with header := { b.header with UncleHash := EmptyUncleHash keccak256 } }
    else
      match copyUncles uncles with
      | none => none
      | some us =>
        some { b with
                header := { b.header with UncleHash := CalcUncleHash keccak256 uncles }
                uncles := us }

/-! # Concrete values for the examples -/

/-- A digest that plays the BFT sentinel in the concrete examples; every general
statement below holds for each value of the sentinel. -/
def exampleDigest : common.Hash :=
  ⟨[0x63, 0x74, 0x69, 0x63, 0x61, 0x6c, 0x20, 0x62, 0x79, 0x7a, 0x61, 0x6e, 0x74, 0x69, 0x6e,
    0x65, 0x20, 0x66, 0x61, 0x75, 0x6c, 0x74, 0x20, 0x74, 0x6f, 0x6c, 0x65, 0x72, 0x61, 0x6e,
    0x63, 0x65], rfl⟩

/-- A stand-in for keccak256 in the concrete examples: the first 32 bytes of the input,
padded with zeros; every general statement below holds for each hash function. -/
def exampleKeccak (bs : Bytes) : common.Hash :=
  ⟨(bs ++ List.replicate 32 0).take 32, by simp⟩

/-- A BFT header with a non-empty extra data. -/
def exampleBFTHeader : Header :=
  { Header.zeroValue with
      MixDigest := exampleDigest, Extra := [1], Difficulty := some 0, Number := some 0 }

/-- A header whose mix digest is not the sentinel, with BFT fields set. -/
def exampleLegacyHeader : Header :=
  { Header.zeroValue with
      Extra := [1, 2], Difficulty := some 5, Number := some 7, ProposerSeal := [9],
      Round := 3, CommittedSeals := [[4]] }

/-- The address 0x0000000000000000000000000000000000000001. -/
def exampleAddress : common.Address :=
  ⟨[0, 0, 0, 0, 0, 0, 0, 0, 0, 0, 0, 0, 0, 0, 0, 0, 0, 0, 0, 1], rfl⟩

/-- A header with a committee of one member and every pointer set. -/
def exampleFullHeader : Header :=
  { Header.zeroValue with
      MixDigest := exampleDigest, Extra := [1, 2], Difficulty := some 5, Number := some 7,
      Committee := [{ Address := exampleAddress, VotingPower := some 1 }],
      ProposerSeal := [9], Round := 3, CommittedSeals := [[4], []],
      PastCommittedSeals := [[6, 7]] }

/-! # The wire format in the words of the specification -/

/-- The BFT extension record of the specification,
`[committee, proposer_seal, round, committed_seals, past_committed_seals]`, as an RLP
value; a committee member is the list of its address and its voting power. There is
none when a voting power is negative. -/
def specExtensionRecord (h : Header) : Option rlp.Item :=
  match rlp.encodeElems
      (fun m : CommitteeMember =>
        (rlp.encodeBigInt m.VotingPower).map fun v => rlp.Item.list [.str m.Address.val, v])
      h.Committee with
  | none => none
  | some members =>
    some (.list [.list members, .str h.ProposerSeal, .str (beBytes h.Round.val),
      .list (h.CommittedSeals.map .str), .list (h.PastCommittedSeals.map .str)])

/-- The wire format of a BFT header in the words of the specification: the RLP list of
the 15 legacy fields in the legacy order, the extra field being the RLP encoding of the
extension record. -/
def specBFTWire (h : Header) : Option Bytes :=
  match specExtensionRecord h, rlp.encodeBigInt h.Difficulty, rlp.encodeBigInt h.Number with
  | some record, some difficulty, some number =>
    some (rlp.Item.list
      [.str h.ParentHash.val, .str h.UncleHash.val, .str h.Coinbase.val, .str h.Root.val,
       .str h.TxHash.val, .str h.ReceiptHash.val, .str h.Bloom.val, difficulty, number,
       .str (beBytes h.GasLimit.val), .str (beBytes h.GasUsed.val), .str (beBytes h.Time.val),
       .str record.encode, .str h.MixDigest.val, .str h.Nonce.val]).encode
  | _, _, _ => none

/-- A bloom filter with every byte 0xff. -/
def exampleBloom : Bloom := ⟨List.replicate 256 255, List.length_replicate 256 255⟩

/-- A header with a committee member whose voting power is nil. -/
def exampleNilPowerHeader : Header :=
  { Header.zeroValue with Committee := [{ Address := exampleAddress, VotingPower := none }] }

/-! # Headers in memory

`CopyHeader` once more, on a store of the objects that headers point to, to state what a
header and its copy share. -/

namespace Mem

/-- A slice value that is not nil: the address of the array it points into, the offset
of its first element in the array, and its length. An address is a natural number. -/
structure Slice where
  array : Nat
  off : Nat
  len : Nat
deriving DecidableEq

/-- A `CommitteeMember` in memory; the voting power is a pointer, `none` for nil. -/
structure Member where
  Address : common.Address
  VotingPower : Option Nat
deriving DecidableEq

/-- An object of the store: a `big.Int`, or the array behind a `[]byte`, a `[][]byte`
or a `[]CommitteeMember`. An entry of a `[][]byte` is a slice, `none` for nil. -/
inductive Object where
  | bigInt (value : Int)
  | bytes (data : Bytes)
  | seals (entries : List (Option Slice))
  | members (entries : List Member)
deriving DecidableEq

/-- The store: the object at address `a` is the element of index `a`. -/
abbrev Heap := List Object

/-- A `Header` value in memory: pointers and slices in place of integers and byte
strings; `none` is a nil pointer or a nil slice. -/
structure HeaderRef where
  ParentHash : common.Hash
  UncleHash : common.Hash
  Coinbase : common.Address
  Root : common.Hash
  TxHash : common.Hash
  ReceiptHash : common.Hash
  Bloom : Bloom
  Difficulty : Option Nat
  Number : Option Nat
  GasLimit : U64
  GasUsed : U64
  Time : U64
  Extra : Option Slice
  MixDigest : common.Hash
  Nonce : BlockNonce
  Committee : Option Slice
  ProposerSeal : Option Slice
  Round : U64
  CommittedSeals : Option Slice
  PastCommittedSeals : Option Slice
deriving DecidableEq

/-- The built-in `len` of a slice. -/
def len (s : Option Slice) : Nat :=
  match s with
  | none => 0
  | some s => s.len

/-- Allocation of a new object: the store with the object at a new address, and the
address. -/
def alloc (m : Heap) (o : Object) : Heap × Nat := (m ++ [o], m.length)

/-! ## Reading -/

/-- The part of an array that a slice spans, `none` when it does not lie in the array. -/
def window {α : Type} (s : Slice) (l : List α) : Option (List α) :=
  if s.off + s.len ≤ l.length then some ((l.drop s.off).take s.len) else none

/-- Every element of a list through `f`, `none` when `f` fails on one of them. -/
def traverse {α β : Type} (f : α → Option β) : List α → Option (List β)
  | [] => some []
  | a :: as =>
    match f a with
    | none => none
    | some b =>
      match traverse f as with
      | none => none
      | some bs => some (b :: bs)

/-- The integer a `*big.Int` points to; the outer `none` is a pointer to no `big.Int`. -/
def loadBigInt (m : Heap) (p : Option Nat) : Option BigIntPtr :=
  match p with
  | none => some none
  | some a =>
    match m[a]? with
    | some (.bigInt v) => some (some v)
    | _ => none

/-- The content of a `[]byte`; `none` is a slice into no byte array. -/
def loadBytes (m : Heap) (s : Option Slice) : Option Bytes :=
  match s with
  | none => some []
  | some s =>
    match m[s.array]? with
    | some (.bytes data) => window s data
    | _ => none

/-- The entries of a `[][]byte`, each a slice. -/
def sealEntries (m : Heap) (s : Option Slice) : Option (List (Option Slice)) :=
  match s with
  | none => some []
  | some s =>
    match m[s.array]? with
    | some (.seals entries) => window s entries
    | _ => none

/-- The entries of a `[]CommitteeMember`. -/
def memberEntries (m : Heap) (s : Option Slice) : Option (List Member) :=
  match s with
  | none => some []
  | some s =>
    match m[s.array]? with
    | some (.members entries) => window s entries
    | _ => none

/-- The content of a `[][]byte`. -/
def loadSeals (m : Heap) (s : Option Slice) : Option (List Bytes) :=
  match sealEntries m s with
  | none => none
  | some entries => traverse (loadBytes m) entries

/-- A committee member with its voting power read from the store. -/
def loadMember (m : Heap) (e : Member) : Option CommitteeMember :=
  match loadBigInt m e.VotingPower with
  | none => none
  | some power => some { Address := e.Address, VotingPower := power }

/-- The content of a `[]CommitteeMember`. -/
def loadCommittee (m : Heap) (s : Option Slice) : Option Committee :=
  match memberEntries m s with
  | none => none
  | some entries => traverse (loadMember m) entries

/-- The header a `HeaderRef` stands for in a store: every pointer and slice replaced by
what it points to; `none` when one of them points to no object of its type. -/
def load (m : Heap) (h : HeaderRef) : Option Header :=
  match loadBigInt m h.Difficulty, loadBigInt m h.Number, loadBytes m h.Extra,
      loadCommittee m h.Committee, loadBytes m h.ProposerSeal, loadSeals m h.CommittedSeals,
      loadSeals m h.PastCommittedSeals with
  | some difficulty, some number, some extra, some committee, some proposerSeal,
      some committedSeals, some pastCommittedSeals =>
    some
      { ParentHash := h.ParentHash
        UncleHash := h.UncleHash
        Coinbase := h.Coinbase
        Root := h.Root
        TxHash := h.TxHash
        ReceiptHash := h.ReceiptHash
        Bloom := h.Bloom
        Difficulty := difficulty
        Number := number
        GasLimit := h.GasLimit
        GasUsed := h.GasUsed
        Time := h.Time
        Extra := extra
        MixDigest := h.MixDigest
        Nonce := h.Nonce
        Committee := committee
        ProposerSeal := proposerSeal
        Round := h.Round
        CommittedSeals := committedSeals
        PastCommittedSeals := pastCommittedSeals }
  | _, _, _, _, _, _, _ => none

/-! ## Reachable objects -/

/-- The address a pointer holds. -/
def ptrAddrs (p : Option Nat) : List Nat :=
  match p with
  | none => []
  | some a => [a]

/-- The array a slice points into. -/
def sliceAddrs (s : Option Slice) : List Nat :=
  match s with
  | none => []
  | some s => [s.array]

/-- The addresses of the objects reachable from a `[][]byte`: its array and the arrays
of its entries. -/
def sealsAddrs (m : Heap) (s : Option Slice) : List Nat :=
  sliceAddrs s ++ (((sealEntries m s).getD []).map sliceAddrs).flatten

/-- The addresses of the objects reachable from a `[]CommitteeMember`: its array and
the voting powers of its entries. -/
def committeeAddrs (m : Heap) (s : Option Slice) : List Nat :=
  sliceAddrs s ++ (((memberEntries m s).getD []).map fun e => ptrAddrs e.VotingPower).flatten

/-- The addresses of all objects reachable from a header: its mutable substructure. -/
def reach (m : Heap) (h : HeaderRef) : List Nat :=
  ptrAddrs h.Difficulty ++ ptrAddrs h.Number ++ sliceAddrs h.Extra
    ++ committeeAddrs m h.Committee ++ sliceAddrs h.ProposerSeal
    ++ sealsAddrs m h.CommittedSeals ++ sealsAddrs m h.PastCommittedSeals

/-! ## Writing -/

/-- The assignment `s[i] = v` on a `[]byte`; when it panics (nil slice, index out of
range) nothing is written. -/
def storeByte (m : Heap) (s : Option Slice) (i : Nat) (v : Byte) : Heap :=
  match s with
  | none => m
  | some s =>
    if i < s.len then
      match m[s.array]? with
      | some (.bytes data) => m.set s.array (.bytes (data.set (s.off + i) v))
      | _ => m
    else m

/-- The assignment `s[i] = e` on a `[][]byte`; when it panics nothing is written. -/
def storeSeal (m : Heap) (s : Option Slice) (i : Nat) (e : Option Slice) : Heap :=
  match s with
  | none => m
  | some s =>
    if i < s.len then
      match m[s.array]? with
      | some (.seals entries) => m.set s.array (.seals (entries.set (s.off + i) e))
      | _ => m
    else m

/-- The assignment `s[i] = e` on a `[]CommitteeMember`; when it panics nothing is
written. -/
def storeMember (m : Heap) (s : Option Slice) (i : Nat) (e : Member) : Heap :=
  match s with
  | none => m
  | some s =>
    if i < s.len then
      match m[s.array]? with
      | some (.members entries) => m.set s.array (.members (entries.set (s.off + i) e))
      | _ => m
    else m

/-- A change of a `big.Int` in place, such as `p.SetInt64(v)`; when it panics (nil
pointer) nothing is written. -/
def storeBigInt (m : Heap) (p : Option Nat) (v : Int) : Heap :=
  match p with
  | none => m
  | some a =>
    match m[a]? with
    | some (.bigInt _) => m.set a (.bigInt v)
    | _ => m

/-- The writes through a header that the copy is to be protected from. -/
inductive Mutation where
  | extraByte (i : Nat) (v : Byte)
  | proposerSealByte (i : Nat) (v : Byte)
  | committedSealByte (j i : Nat) (v : Byte)
  | pastCommittedSealByte (j i : Nat) (v : Byte)
  | committedSealEntry (j : Nat) (e : Option Slice)
  | pastCommittedSealEntry (j : Nat) (e : Option Slice)
  | committeeEntry (j : Nat) (e : Member)
  | difficulty (v : Int)
  | number (v : Int)
  | votingPower (j : Nat) (v : Int)

/-- The entry of index `j` of a list of slices, nil when there is none. -/
def entryAt (entries : Option (List (Option Slice))) (j : Nat) : Option Slice :=
  match (entries.getD [])[j]? with
  | some e => e
  | none => none

/-- The voting power pointer of the entry of index `j`, nil when there is none. -/
def powerAt (entries : Option (List Member)) (j : Nat) : Option Nat :=
  match (entries.getD [])[j]? with
  | some e => e.VotingPower
  | none => none

/-- The store after a write through the header `h`. -/
def mutate (m : Heap) (h : HeaderRef) : Mutation → Heap
  | .extraByte i v => storeByte m h.Extra i v
  | .proposerSealByte i v => storeByte m h.ProposerSeal i v
  | .committedSealByte j i v => storeByte m (entryAt (sealEntries m h.CommittedSeals) j) i v
  | .pastCommittedSealByte j i v =>
    storeByte m (entryAt (sealEntries m h.PastCommittedSeals) j) i v
  | .committedSealEntry j e => storeSeal m h.CommittedSeals j e
  | .pastCommittedSealEntry j e => storeSeal m h.PastCommittedSeals j e
  | .committeeEntry j e => storeMember m h.Committee j e
  | .difficulty v => storeBigInt m h.Difficulty v
  | .number v => storeBigInt m h.Number v
  | .votingPower j v => storeBigInt m (powerAt (memberEntries m h.Committee) j) v

/-! ## CopyHeader -/

/-- The built-in `make([]byte, n)`: a new array of `n` zero bytes and the slice that spans it. -/
def makeByteSlice (m : Heap) (n : Nat) : Heap × Slice :=
  ((alloc m (.bytes (List.replicate n 0))).1, { array := m.length, off := 0, len := n })

/-- The built-in `make([][]byte, n)`: a new array of `n` nil slices and the slice that spans it. -/
def makeSealSlice (m : Heap) (n : Nat) : Heap × Slice :=
  ((alloc m (.seals (List.replicate n none))).1, { array := m.length, off := 0, len := n })

/-- The built-in `make([]CommitteeMember, n)`: a new array of `n` zero members and the slice that
spans it. -/
def makeMemberSlice (m : Heap) (n : Nat) : Heap × Slice :=
  ((alloc m (.members (List.replicate n
      { Address := FixedBytes.zero 20, VotingPower := none }))).1,
    { array := m.length, off := 0, len := n })

/-- The content of an array after new content is written into the window of a slice. -/
def splice {α : Type} (s : Slice) (l new : List α) : List α :=
  l.take s.off ++ new ++ l.drop (s.off + s.len)

/-- The built-in `copy(dst, src)` on byte slices; `none` when a slice points into no
byte array. -/
def copyBytes (m : Heap) (dst : Slice) (src : Option Slice) : Option Heap :=
  match loadBytes m src, m[dst.array]? with
  | some data, some (.bytes d) =>
    match window dst d with
    | none => none
    | some w => some (m.set dst.array (.bytes (splice dst d (copy w data))))
  | _, _ => none

/-- The statement `z.Set(x)` of `big.Int`; `none` when it panics, on a nil `x`. -/
def setBigInt (m : Heap) (z : Nat) (x : Option Nat) : Option Heap :=
  match x with
  | none => none
  | some a =>
    match m[a]?, m[z]? with
    | some (.bigInt v), some (.bigInt _) => some (m.set z (.bigInt v))
    | _, _ => none

/-- The copy of `Difficulty` and of `Number`: `big.NewInt(0)`, then `Set` when the
pointer of the header is not nil. -/
def copyBigInt (m : Heap) (p : Option Nat) : Option (Heap × Nat) :=
  let (m1, z) := alloc m (.bigInt 0)
  match p with
  | some _ =>
    match setBigInt m1 z p with
    | none => none
    | some m2 => some (m2, z)
  | none => some (m1, z)

/-- The copy of `Extra` and of `ProposerSeal`: `make([]byte, 0)`, replaced when the
slice of the header is not empty by a new slice of its length that it is copied to. -/
def copyByteSlice (m : Heap) (src : Option Slice) : Option (Heap × Slice) :=
  let (m1, extra) := makeByteSlice m 0
  if len src > 0 then
    let (m2, extra) := makeByteSlice m1 (len src)
    match copyBytes m2 extra src with
    | none => none
    | some m3 => some (m3, extra)
  else some (m1, extra)

/-- The loop over the entries `i, i+1, ...` of the seals of the header, `k` of them:
`dst[i] = make([]byte, len(val))` and `copy(dst[i], val)`. -/
def copySealLoop (src : Option Slice) (dst : Slice) : Nat → Nat → Heap → Option Heap
  | 0, _, m => some m
  | k + 1, i, m =>
    match (sealEntries m src).bind fun entries => entries[i]? with
    | none => none
    | some val =>
      let (m1, s) := makeByteSlice m (len val)
      let m2 := storeSeal m1 (some dst) i (some s)
      match copyBytes m2 s val with
      | none => none
      | some m3 => copySealLoop src dst k (i + 1) m3

/-- The copy of `CommittedSeals` and of `PastCommittedSeals`. -/
def copySealSlice (m : Heap) (src : Option Slice) : Option (Heap × Slice) :=
  let (m1, seals) := makeSealSlice m 0
  if len src > 0 then
    let (m2, seals) := makeSealSlice m1 (len src)
    match copySealLoop src seals (len src) 0 m2 with
    | none => none
    | some m3 => some (m3, seals)
  else some (m1, seals)

/-- The loop over the entries `i, i+1, ...` of the committee of the header, `k` of
them: `dst[i] = CommitteeMember{val.Address, new(big.Int).Set(val.VotingPower)}`. -/
def copyMemberLoop (src : Option Slice) (dst : Slice) : Nat → Nat → Heap → Option Heap
  | 0, _, m => some m
  | k + 1, i, m =>
    match (memberEntries m src).bind fun entries => entries[i]? with
    | none => none
    | some val =>
      let (m1, z) := alloc m (.bigInt 0)
      match setBigInt m1 z val.VotingPower with
      | none => none
      | some m2 =>
        let m3 := storeMember m2 (some dst) i { Address := val.Address, VotingPower := some z }
        copyMemberLoop src dst k (i + 1) m3

/-- The copy of `Committee`. -/
def copyMemberSlice (m : Heap) (src : Option Slice) : Option (Heap × Slice) :=
  let (m1, committee) := makeMemberSlice m 0
  if len src > 0 then
    let (m2, committee) := makeMemberSlice m1 (len src)
    match copyMemberLoop src committee (len src) 0 m2 with
    | none => none
    | some m3 => some (m3, committee)
  else some (m1, committee)

/-- The function `CopyHeader` in memory: the store after the call and the header returned, `none`
when it panics. -/
def CopyHeader (m : Heap) (h : HeaderRef) : Option (Heap × HeaderRef) :=
  match copyBigInt m h.Difficulty with
  | none => none
  | some (m1, difficulty) =>
  match copyBigInt m1 h.Number with
  | none => none
  | some (m2, number) =>
  match copyByteSlice m2 h.Extra with
  | none => none
  | some (m3, extra) =>
  match copyMemberSlice m3 h.Committee with
  | none => none
  | some (m4, committee) =>
  match copyByteSlice m4 h.ProposerSeal with
  | none => none
  | some (m5, proposerSeal) =>
  match copySealSlice m5 h.CommittedSeals with
  | none => none
  | some (m6, committedSeals) =>
  match copySealSlice m6 h.PastCommittedSeals with
  | none => none
  | some (m7, pastCommittedSeals) =>
    some (m7,
      { ParentHash := h.ParentHash
        UncleHash := h.UncleHash
        Coinbase := h.Coinbase
        Root := h.Root
        TxHash := h.TxHash
        ReceiptHash := h.ReceiptHash
        Bloom := h.Bloom
        Difficulty := some difficulty
        Number := some number
        GasLimit := h.GasLimit
        GasUsed := h.GasUsed
        Time := h.Time
        Extra := some extra
        MixDigest := h.MixDigest
        Nonce := h.Nonce
        Committee := some committee
        ProposerSeal := some proposerSeal
        Round := h.Round
        CommittedSeals := some committedSeals
        PastCommittedSeals := some pastCommittedSeals })

/-- The pointers an object holds are all at `n` or above. -/
def Object.fresh (n : Nat) : Object → Prop
  | .bigInt _ => True
  | .bytes _ => True
  | .seals entries => ∀ s ∈ entries, ∀ a ∈ sliceAddrs s, n ≤ a
  | .members entries => ∀ e ∈ entries, ∀ a ∈ ptrAddrs e.VotingPower, n ≤ a

/-- The store `m` comes from a store whose first `n` objects were `m0` by allocations
and by writes to objects at `n` or above, which point to objects at `n` or above only. -/
def Grown (n : Nat) (m0 m : Heap) : Prop :=
  n ≤ m.length ∧ (∀ a, a < n → m[a]? = m0[a]?) ∧
    ∀ a o, n ≤ a → m[a]? = some o → o.fresh n

/-- The store `m1` has every object of `m` as it is in `m`, at its address. -/
def Extends (m m1 : Heap) : Prop :=
  m.length ≤ m1.length ∧ ∀ a, a < m.length → m1[a]? = m[a]?

end Mem

/-- A store with the objects of a header: two integers, an extra data, a committee of
one member with its voting power, a proposer seal and a list of two seals. -/
def exampleHeap : Mem.Heap :=
  [.bigInt 5, .bigInt 7, .bytes [1, 2], .bigInt 1,
   .members [{ Address := exampleAddress, VotingPower := some 3 }],
   .bytes [9], .bytes [4, 6], .seals [some { array := 6, off := 0, len := 1 }, none]]

/-- A header in `exampleHeap`. -/
def exampleHeaderRef : Mem.HeaderRef :=
  { ParentHash := FixedBytes.zero 32
    UncleHash := FixedBytes.zero 32
    Coinbase := FixedBytes.zero 20
    Root := FixedBytes.zero 32
    TxHash := FixedBytes.zero 32
    ReceiptHash := FixedBytes.zero 32
    Bloom := FixedBytes.zero 256
    Difficulty := some 0
    Number := some 1
    GasLimit := 0
    GasUsed := 0
    Time := 0
    Extra := some { array := 2, off := 0, len := 2 }
    MixDigest := exampleDigest
    Nonce := FixedBytes.zero 8
    Committee := some { array := 4, off := 0, len := 1 }
    ProposerSeal := some { array := 5, off := 0, len := 1 }
    Round := 3
    CommittedSeals := some { array := 7, off := 0, len := 2 }
    PastCommittedSeals := none }

/-- The store and the header that `Mem.CopyHeader` returns for `exampleHeaderRef` in
`exampleHeap`. -/
def exampleCopy : Mem.Heap × Mem.HeaderRef :=
  (Mem.CopyHeader exampleHeap exampleHeaderRef).getD ([], exampleHeaderRef)

/-! # Block hash and sealing -/

/-- The method `Block.Hash`: the hash returned and the block after the call, whose cache
holds the hash once it is computed. -/
def Block.Hash {Tx : Type} (BFTDigest : common.Hash) (keccak256 : Bytes → common.Hash)
    (b : Block Tx) : common.Hash × Block Tx :=
  match b.hash with
  | some hash => (hash, b)
  | none =>
    let v := b.header.Hash BFTDigest keccak256
    (v, { b with hash := some v })

/-- The results of `n` calls of `Block.Hash` one after the other, in the order of the
calls, and the block after the last one. -/
def Block.hashCalls {Tx : Type} (BFTDigest : common.Hash) (keccak256 : Bytes → common.Hash) :
    Nat → Block Tx → List common.Hash × Block Tx
  | 0, b => ([], b)
  | n + 1, b =>
    let r := b.Hash BFTDigest keccak256
    let rest := Block.hashCalls BFTDigest keccak256 n r.2
    (r.1 :: rest.1, rest.2)

/-- The method `Block.WithSeal`: a new block with the data of `b` and the header replaced
with a copy of the `Header` value `header`; its caches and `td` are not set. -/
def Block.WithSeal {Tx : Type} (b : Block Tx) (header : Header) : Block Tx :=
  let cpy := header
  { header := cpy, transactions := b.transactions, uncles := b.uncles, hash := none,
    size := none, td := none }

/-- A header whose mix digest is not the sentinel, with nil difficulty and number and
with BFT fields set. -/
def exampleNilLegacyHeader : Header :=
  { Header.zeroValue with Extra := [1, 2], ProposerSeal := [9], Round := 3 }

/-- A block with the header `exampleLegacyHeader`, whose hash cache holds the hash of
that header. -/
def exampleCachedBlock : Block Unit :=
  { header := exampleLegacyHeader, uncles := [exampleFullHeader], transactions := [some ()],
    hash := some (exampleLegacyHeader.Hash exampleDigest exampleKeccak), size := some 7,
    td := some 0 }

/-- A block with the header `exampleFullHeader` whose hash cache holds another hash,
that of `exampleLegacyHeader`. -/
def exampleStaleBlock : Block Unit :=
  { exampleCachedBlock with header := exampleFullHeader }

/-! # Blocks on the wire -/

namespace rlp

/-- Modelled from the spec: the `rlp` package is not among the source files; a list
value whose payload is `payload`: the list head, then the payload. -/
def encodeListOf (payload : Bytes) : Bytes := puthead 0xC0 0xF7 payload.length ++ payload

/-- Modelled from the spec: the `rlp` package is not among the source files; the
encodings of the elements of a slice one after the other, none when one of them fails. -/
def encodeEach {α : Type} (f : α → Option Bytes) : List α → Option Bytes
  | [] => some []
  | a :: as =>
    match f a with
    | none => none
    | some x =>
      match encodeEach f as with
      | none => none
      | some xs => some (x ++ xs)

/-- Modelled from the spec: the `rlp` package is not among the source files; a slice is
written as the list of its elements, each by its own encoder. -/
def encodeSlice {α : Type} (f : α → Option Bytes) (xs : List α) : Option Bytes :=
  (encodeEach f xs).map encodeListOf

/-- Modelled from the spec: the `rlp` package is not among the source files; the
elements of a list payload read one after the other by the decoder `f` of the element
type, until the payload is used up. The first argument bounds the number of elements;
a decoder that takes nothing off a payload that is not empty never ends in the source
and gives none here. -/
def decodeEach {α : Type} (f : Bytes → Option (α × Bytes)) : Nat → Bytes → Option (List α)
  | 0, _ => none
  | _ + 1, [] => some []
  | fuel + 1, b :: bs =>
    match f (b :: bs) with
    | none => none
    | some (a, r) =>
      match decodeEach f fuel r with
      | none => none
      | some as => some (a :: as)

/-- Modelled from the spec: the `rlp` package is not among the source files; a slice is
read from the next value of the stream, which must be a list, element by element;
returns the slice and the rest of the stream. -/
def decodeSlice {α : Type} (f : Bytes → Option (α × Bytes)) (s : Bytes) :
    Option (List α × Bytes) :=
  match splitItem s with
  | some (.List, p, rest) =>
    match decodeEach f (p.length + 1) p with
    | none => none
    | some xs => some (xs, rest)
  | _ => none

/-- Modelled from the spec: the `rlp` package is not among the source files; the size
that `Stream.Kind` reports for the next value of the stream, the number of bytes of its
payload; 0 when there is no value to read. -/
def kindSize (s : Bytes) : Nat :=
  match splitItem s with
  | some (_, p, _) => p.length
  | none => 0

/-- Modelled from the spec: the `rlp` package is not among the source files;
`rlp.ListSize`, the encoded size of a list with the given content size: the size of
the head plus the content size, in a `uint64`. -/
def ListSize (contentSize : Nat) : Nat :=
  ((puthead 0xC0 0xF7 contentSize).length + contentSize) % 2 ^ 64

end rlp

/-- The RLP codec of a transaction pointer `*Transaction`; `Transaction` is declared in
a file that is not among the source files. `EncodeRLP` is what `rlp.Encode` writes for
the pointer, none on an error; `DecodeRLP` reads a pointer off the front of a stream and
returns it with the rest of the stream, none on an error. -/
structure TxCodec (Tx : Type) where
  EncodeRLP : Option Tx → Option Bytes
  DecodeRLP : Bytes → Option (Option Tx × Bytes)

/-- The decoder of the codec accepts canonical encodings only: what it reads off a
stream is what the encoder writes for the pointer read. -/
def TxCodec.Canonical {Tx : Type} (codec : TxCodec Tx) : Prop :=
  ∀ (s : Bytes) (tx : Option Tx) (rest : Bytes),
    codec.DecodeRLP s = some (tx, rest) → ∃ bs, codec.EncodeRLP tx = some bs ∧ s = bs ++ rest

/-- A slice of header pointers, `[]*Header`, none of them nil. -/
abbrev Headers := List Header

/-- The "external" block encoding, `extblock`. -/
structure extblock (Tx : Type) where
  Header : Header
  Txs : List (Option Tx)
  Uncles : Headers

/-- Decoding of a `*Header` element: a new header is allocated and its `DecodeRLP` reads
the next value of the stream. -/
def decodeHeaderPtr (BFTDigest : common.Hash) (s : Bytes) : Option (Header × Bytes) :=
  match Header.DecodeRLP BFTDigest Header.zeroValue s with
  | (h, some rest) => some (h, rest)
  | (_, none) => none

/-- Bytes `rlp.Encode` writes for an `extblock`: the list of its three fields, the
header by `Header.EncodeRLP`, the transactions and the uncles as lists; none on an
encoding error. -/
def extblock.encode {Tx : Type} (codec : TxCodec Tx) (BFTDigest : common.Hash)
    (eb : extblock Tx) : Option Bytes :=
  match eb.Header.EncodeRLP BFTDigest, rlp.encodeSlice codec.EncodeRLP eb.Txs,
      rlp.encodeSlice (Header.EncodeRLP BFTDigest) eb.Uncles with
  | some h, some txs, some uncles => some (rlp.encodeListOf (h ++ txs ++ uncles))
  | _, _, _ => none

/-- Decoding of an `extblock` from the next value of a stream (`Stream.Decode`): the
value must be a list of exactly the three fields; returns the struct and the rest of
the stream, none on an error. -/
def extblock.decode {Tx : Type} (codec : TxCodec Tx) (BFTDigest : common.Hash) (s : Bytes) :
    Option (extblock Tx × Bytes) :=
  match rlp.splitItem s with
  | some (.List, p, rest) =>
    match decodeHeaderPtr BFTDigest p with
    | none => none
    | some (h, r1) =>
      match rlp.decodeSlice codec.DecodeRLP r1 with
      | none => none
      | some (txs, r2) =>
        match rlp.decodeSlice (decodeHeaderPtr BFTDigest) r2 with
        | some (uncles, []) => some ({ Header := h, Txs := txs, Uncles := uncles }, rest)
        | _ => none
  | _ => none

/-- The method `Block.EncodeRLP`: the bytes written, none when it returns an error. -/
def Block.EncodeRLP {Tx : Type} (codec : TxCodec Tx) (BFTDigest : common.Hash)
    (b : Block Tx) : Option Bytes :=
  extblock.encode codec BFTDigest
    { Header := b.header, Txs := b.transactions, Uncles := b.uncles }

/-- The method `Block.DecodeRLP` on the receiver `b` and the stream `s`: the receiver
after the call, and the rest of the stream or none when an error is returned. A
`common.StorageSize` is a `float64` in the source and a natural number here; a count
below 2^53 is the same in both. -/
def Block.DecodeRLP {Tx : Type} (codec : TxCodec Tx) (BFTDigest : common.Hash)
    (b : Block Tx) (s : Bytes) : Block Tx × Option Bytes :=
  let size := rlp.kindSize s
  match extblock.decode codec BFTDigest s with
  | none => (b, none)
  | some (eb, rest) =>
    ({ b with
        header := eb.Header
        uncles := eb.Uncles
        transactions := eb.Txs
        size := some (rlp.ListSize size) }, some rest)

/-- The method `writeCounter.Write`: the counter after the write. -/
def writeCounter.Write (c : Nat) (b : Bytes) : Nat := c + b.length

/-- The method `Block.Size`: the size returned and the block after the call. The
encoder writes the encoding of the block to the counter, taken here as one write, and
writes nothing when the encoding fails; its error is dropped. -/
def Block.Size {Tx : Type} (codec : TxCodec Tx) (BFTDigest : common.Hash) (b : Block Tx) :
    Nat × Block Tx :=
  match b.size with
  | some size => (size, b)
  | none =>
    let c : Nat := 0
    let c :=
      match b.EncodeRLP codec BFTDigest with
      | some bs => writeCounter.Write c bs
      | none => c
    (c, { b with size := some c })

/-- A stand-in for the codec of transactions in the concrete examples: a transaction is
a byte string and travels as an RLP string, a nil pointer as the empty list. -/
def exampleTxCodec : TxCodec Bytes where
  EncodeRLP := fun tx =>
    match tx with
    | some bs => some (rlp.encodeBytes bs)
    | none => some [0xC0]
  DecodeRLP := fun s =>
    match rlp.splitItem s with
    | some (.String, p, rest) => some (some p, rest)
    | _ => none

/-- A block with a BFT header, one transaction and one uncle, and empty caches. -/
def exampleWireBlock : Block Bytes :=
  { header := exampleFullHeader, uncles := [exampleLegacyHeader],
    transactions := [some [1, 2, 3]], hash := none, size := none, td := none }

/-- The encoding of `exampleWireBlock` followed by two more bytes of the stream. -/
def exampleWire : Bytes :=
  (exampleWireBlock.EncodeRLP exampleTxCodec exampleDigest).getD [] ++ [7, 7]

/-- A block that nothing was stored in. -/
def Block.zeroValue (Tx : Type) : Block Tx :=
  { header := Header.zeroValue, uncles := [], transactions := [], hash := none,
    size := none, td := none }

/-! # The handler of consensus messages -/

namespace tendermint

/-- Modelled from the spec: the type `Step` of package `core` is declared in a file that
is not among the source files; the spec gives the steps of a round,
`step ∈ {PROPOSE, PREVOTE, PRECOMMIT}`. -/
inductive Step where
  | propose
  | prevote
  | precommit
deriving DecidableEq

/-- Modelled from the spec: the order of the steps is declared in a file that is not
among the source files; by the spec it is `PROPOSE<PREVOTE<PRECOMMIT`. -/
def Step.rank : Step → Nat
  | .propose => 0
  | .prevote => 1
  | .precommit => 2

/-- Modelled from the spec: the message codes are declared in a file that is not among
the source files; by the spec `code ∈ {PROPOSAL, PREVOTE, PRECOMMIT}`. -/
inductive MsgCode where
  | msgProposal
  | msgPrevote
  | msgPrecommit
deriving DecidableEq

/-- Modelled from the spec: the conversion of a message code to a step is declared in a
file that is not among the source files; a proposal is a message of the step PROPOSE, a
prevote of PREVOTE and a precommit of PRECOMMIT. -/
def MsgCode.step : MsgCode → Step
  | .msgProposal => .propose
  | .msgPrevote => .prevote
  | .msgPrecommit => .precommit

/-- Modelled from the spec: the error values of the handler are declared in a file that
is not among the source files; these are the kinds `INVALID_MESSAGE`, `OLD_HEIGHT`,
`OLD_ROUND`, `FUTURE_HEIGHT`, `FUTURE_ROUND` and `FUTURE_STEP` of the spec, under the
names the test file uses for them. -/
inductive HandlerError where
  | errInvalidMessage
  | errOldHeightMessage
  | errOldRoundMessage
  | errFutureHeightMessage
  | errFutureRoundMessage
  | errFutureStepMessage
deriving DecidableEq

/-- Modelled from the spec: the type `Message` is declared in a file that is not among
the source files; a message with its payload decoded: the code, the round and height
of the vote or proposal, the hash voted for or proposed (`none` for nil), the valid
round of a proposal, the sender, the committed seal and the signature. -/
structure Message where
  Code : MsgCode
  Round : Int
  Height : Nat
  Value : Option common.Hash
  ValidRound : Int
  Address : common.Address
  CommittedSeal : Bytes
  Signature : Bytes
deriving DecidableEq

/-- Modelled from the spec: the vote set of a round is declared in a file that is not
among the source files; by the spec `RoundMessages` holds the proposal, the prevotes
and the precommits of one `(height, round)`. -/
structure RoundMessages where
  proposal : Option Message
  prevotes : List Message
  precommits : List Message
deriving DecidableEq

/-- Modelled from the spec: the vote set of a round is declared in a file that is not
among the source files; the vote set of a round before any message. -/
def RoundMessages.empty : RoundMessages := { proposal := none, prevotes := [], precommits := [] }

/-- Modelled from the spec: the vote set is declared in a file that is not among the
source files; a vote is added to the votes of a step; a second send of the same vote by
the same sender changes nothing, a conflicting vote is retained. -/
def addVote (votes : List Message) (m : Message) : List Message :=
  if votes.any (fun v => decide (v.Address = m.Address ∧ v.Value = m.Value)) then votes
  else votes ++ [m]

/-- Modelled from the spec: the vote set is declared in a file that is not among the
source files; `add_prevote`. -/
def RoundMessages.add_prevote (rm : RoundMessages) (m : Message) : RoundMessages :=
  { rm with prevotes := addVote rm.prevotes m }

/-- Modelled from the spec: the vote set is declared in a file that is not among the
source files; `add_precommit`. -/
def RoundMessages.add_precommit (rm : RoundMessages) (m : Message) : RoundMessages :=
  { rm with precommits := addVote rm.precommits m }

/-- Modelled from the spec: the committee set is declared in a file that is not among
the source files; the voting power of a member, a non-negative integer. -/
def memberPower (m : CommitteeMember) : Nat := (m.VotingPower.getD 0).toNat

/-- Modelled from the spec: the committee set is declared in a file that is not among
the source files; the voting power of the member with the address `a`, 0 when there is
no such member. -/
def powerOf (committee : Committee) (a : common.Address) : Nat :=
  match committee.find? (fun m => decide (m.Address = a)) with
  | some m => memberPower m
  | none => 0

/-- Modelled from the spec: the committee set is declared in a file that is not among
the source files; the total voting power of the committee. -/
def totalPower (committee : Committee) : Nat := (committee.map memberPower).sum

/-- Modelled from the spec: the vote set is declared in a file that is not among the
source files; the power of the votes for `value` among the votes of a step; the first
vote of a sender is the one that counts. -/
def votePower (committee : Committee) (votes : List Message) (value : Option common.Hash) :
    Nat :=
  (committee.map fun m =>
    match votes.find? (fun v => decide (v.Address = m.Address)) with
    | some v => if v.Value = value then memberPower m else 0
    | none => 0).sum

/-- Modelled from the spec: the quorum predicate is declared in a file that is not
among the source files; by the spec a quorum is a voting power strictly greater than
2/3 of the total of the committee. -/
def isQuorum (committee : Committee) (power : Nat) : Bool :=
  decide (2 * totalPower committee < 3 * power)

/-- Modelled from the spec: the f+1 predicate is declared in a file that is not among
the source files; by the spec F+1 is a voting power strictly greater than 1/3 of the
total of the committee. -/
def isFPlusOne (committee : Committee) (power : Nat) : Bool :=
  decide (totalPower committee < 3 * power)

/-- Modelled from the spec: the struct `core` is declared in a file that is not among
the source files; the state of the engine for the height it decides, with the fields
that the spec lists, under the names the test file gives them. A map is a function
from its keys, with the empty slice or vote set where the map has no entry. -/
structure Engine where
  address : common.Address
  height : Nat
  round : Int
  step : Step
  committee : Committee
  messages : Int → RoundMessages
  lockedRound : Int
  lockedValue : Option common.Hash
  validRound : Int
  validValue : Option common.Hash
  backlogs : common.Address → List Message
  backlogUnchecked : Nat → List Message
  futureRoundChange : Int → List (common.Address × Nat)

/-- Modelled from the spec: the verifications of signatures belong to the backend and
the message model, which are not among the source files; whether the signature of a
message recovers to the address of its sender, and whether the committed seal of a
precommit is a valid signature by its sender. -/
structure Verifier where
  verifySignature : Message → Bool
  verifyCommittedSeal : Message → Bool

/-- Modelled from the spec: `checkMessage` is declared in a file that is not among the
source files; the message precondition check of the spec: `none` for an on-time
message, or `FUTURE_HEIGHT`, `OLD_HEIGHT`, `FUTURE_ROUND`, `OLD_ROUND`, or `FUTURE_STEP`
when height and round are those of the engine and the step is ahead. -/
def Engine.checkMessage (c : Engine) (round : Int) (height : Nat) (step : Step) :
    Option HandlerError :=
  if c.height < height then some .errFutureHeightMessage
  else if height < c.height then some .errOldHeightMessage
  else if c.round < round then some .errFutureRoundMessage
  else if round < c.round then some .errOldRoundMessage
  else if c.step.rank < step.rank then some .errFutureStepMessage
  else none

/-- Modelled from the spec: the backlog is declared in a file that is not among the
source files; whether `m` comes before `x` in the order of a queue of a sender, first
by round then by step. -/
def Message.before (m x : Message) : Bool :=
  decide (m.Round < x.Round ∨ (m.Round = x.Round ∧ m.Code.step.rank < x.Code.step.rank))

/-- Modelled from the spec: the backlog is declared in a file that is not among the
source files; a message is put into the queue of a sender behind the messages that do
not come after it. -/
def insertBacklog (m : Message) : List Message → List Message
  | [] => [m]
  | x :: xs => if m.before x then m :: x :: xs else x :: insertBacklog m xs

/-- Modelled from the spec: `storeBacklog` is declared in a file that is not among the
source files; the message is stashed in `backlogs` under its sender. -/
def Engine.storeBacklog (c : Engine) (msg : Message) : Engine :=
  { c with
      backlogs := Function.update c.backlogs msg.Address
        (insertBacklog msg (c.backlogs msg.Address)) }

/-- Modelled from the spec: `storeUncheckedBacklog` is declared in a file that is not
among the source files; the message is stashed in `backlog_unchecked` under its
height, at the end of the queue of that height. -/
def Engine.storeUncheckedBacklog (c : Engine) (msg : Message) : Engine :=
  { c with
      backlogUnchecked := Function.update c.backlogUnchecked msg.Height
        (c.backlogUnchecked msg.Height ++ [msg]) }

/-- Modelled from the spec: `future_round_change` is kept by code that is not among the
source files; the power of a sender is set in the map of a round. -/
def setPower (a : common.Address) (power : Nat) :
    List (common.Address × Nat) → List (common.Address × Nat)
  | [] => [(a, power)]
  | (b, p) :: rest => if b = a then (a, power) :: rest else (b, p) :: setPower a power rest

/-- Modelled from the spec: the start of a round is declared in a file that is not
among the source files; the engine enters the round at the step PROPOSE. -/
def Engine.startRound (c : Engine) (round : Int) : Engine :=
  { c with round := round, step := .propose }

/-- Modelled from the spec: round skipping is declared in a file that is not among the
source files; the sender of a message of a later round is recorded with its power in
`future_round_change`, and when the senders recorded for that round hold f+1 of the
power the engine jumps to that round. -/
def Engine.roundSkip (c : Engine) (msg : Message) : Engine :=
  let senders := setPower msg.Address (powerOf c.committee msg.Address)
    (c.futureRoundChange msg.Round)
  let c1 := { c with futureRoundChange := Function.update c.futureRoundChange msg.Round senders }
  if isFPlusOne c.committee (senders.map Prod.snd).sum then c1.startRound msg.Round else c1

/-- Modelled from the spec: the handlers of the three kinds of message are declared in
files that are not among the source files; an on-time message updates the vote set of
its round: the first proposal of the round is kept, a prevote is added, and a precommit
is added when its committed seal is valid and is an `INVALID_MESSAGE` otherwise. The
transitions that a quorum then causes belong to the state machine, not to this
function. -/
def Engine.process (v : Verifier) (c : Engine) (msg : Message) :
    Engine × Option HandlerError :=
  let rm := c.messages msg.Round
  match msg.Code with
  | .msgProposal =>
    match rm.proposal with
    | some _ => (c, none)
    | none =>
      let rm1 := { rm with proposal := some msg }
      ({ c with messages := Function.update c.messages msg.Round rm1 }, none)
  | .msgPrevote =>
    ({ c with messages := Function.update c.messages msg.Round (rm.add_prevote msg) }, none)
  | .msgPrecommit =>
    if v.verifyCommittedSeal msg then
      ({ c with messages := Function.update c.messages msg.Round (rm.add_precommit msg) },
        none)
    else (c, some .errInvalidMessage)

/-- The outcome of a call of a handler: it returns, with the state of the engine after
the call and the error returned (`none` for a nil error), or it panics. -/
inductive Outcome where
  | returned (c : Engine) (err : Option HandlerError)
  | panicked

/-- The error of an outcome: `some err` when the handler returned `err`, `none` when it
panicked. -/
def Outcome.err : Outcome → Option (Option HandlerError)
  | .returned _ err => some err
  | .panicked => none

/-- The engine after a call that returned, `none` after a panic. -/
def Outcome.engine : Outcome → Option Engine
  | .returned c _ => some c
  | .panicked => none

/-- Modelled from the spec: `handleCheckedMsg` is declared in a file that is not among
the source files. By the spec the precondition check decides: an on-time message is
processed now; a `FUTURE_ROUND` or `FUTURE_STEP` message is stashed in `backlogs`, the
first with the accounting for round skipping; an `OLD_HEIGHT` message is dropped; of
the `OLD_ROUND` messages a precommit with a valid seal is aggregated into the vote set
of its round and the others are dropped; and on `FUTURE_HEIGHT` this code path of the
source panics, as the design notes of the spec say and the test file expects. -/
def Engine.handleCheckedMsg (v : Verifier) (c : Engine) (msg : Message) : Outcome :=
  match c.checkMessage msg.Round msg.Height msg.Code.step with
  | none =>
    let r := c.process v msg
    .returned r.1 r.2
  | some .errFutureHeightMessage => .panicked
  | some .errFutureRoundMessage =>
    .returned ((c.storeBacklog msg).roundSkip msg) (some .errFutureRoundMessage)
  | some .errFutureStepMessage =>
    .returned (c.storeBacklog msg) (some .errFutureStepMessage)
  | some .errOldRoundMessage =>
    if msg.Code = .msgPrecommit ∧ v.verifyCommittedSeal msg = true then
      let rm := (c.messages msg.Round).add_precommit msg
      .returned { c with messages := Function.update c.messages msg.Round rm }
        (some .errOldRoundMessage)
    else .returned c (some .errOldRoundMessage)
  | some err => .returned c (some err)

/-- Modelled from the spec: `handleMsg` is declared in a file that is not among the
source files. By the spec the validation steps come in this order: the height of the
message against the height of the engine, a message of a later height being buffered
in `backlog_unchecked` and one of an earlier height dropped; then the sender must be a
member of the committee and the signature must recover to its address, or the message
is an `INVALID_MESSAGE`; then the message is handled as a checked one. -/
def Engine.handleMsg (v : Verifier) (c : Engine) (msg : Message) : Outcome :=
  if c.height < msg.Height then
    .returned (c.storeUncheckedBacklog msg) (some .errFutureHeightMessage)
  else if msg.Height < c.height then
    .returned c (some .errOldHeightMessage)
  else if (c.committee.any fun m => decide (m.Address = msg.Address)) = false then
    .returned c (some .errInvalidMessage)
  else if v.verifySignature msg = false then
    .returned c (some .errInvalidMessage)
  else c.handleCheckedMsg v msg


/-! # The engines and messages of the tests -/

/-- The address with the last byte `n` and zeros before it. -/
def testAddress (n : Byte) : common.Address :=
  ⟨List.replicate 19 0 ++ [n], by simp⟩

/-- The committee of four members of power 1 of the tests, `newTestCommitteeSetWithKeys(4)`,
with stand-ins for the addresses the test draws at random. -/
def testCommittee : Committee :=
  [{ Address := testAddress 1, VotingPower := some 1 },
   { Address := testAddress 2, VotingPower := some 1 },
   { Address := testAddress 3, VotingPower := some 1 },
   { Address := testAddress 4, VotingPower := some 1 }]

/-- The hash `common.BytesToHash([]byte{0x1})`. -/
def testHash : common.Hash := ⟨List.replicate 31 0 ++ [1], by simp⟩

/-- A stand-in for the verifications in the concrete examples: a signature or a seal
is valid when it is the address of the sender. -/
def testVerifier : Verifier where
  verifySignature := fun m => decide (m.Signature = m.Address.val)
  verifyCommittedSeal := fun m => decide (m.CommittedSeal = m.Address.val)

/-- The message `createPrevote(round, height)` of `TestHandleCheckedMessage`, from the
member of index 1. -/
def createPrevote (round : Int) (height : Nat) : Message :=
  { Code := .msgPrevote, Round := round, Height := height, Value := some testHash,
    ValidRound := 0, Address := testAddress 2, CommittedSeal := [], Signature := [] }

/-- The message `createPrecommit(round, height)` of `TestHandleCheckedMessage`, from the
member of index 1, with a committed seal that `testVerifier` accepts. -/
def createPrecommit (round : Int) (height : Nat) : Message :=
  { Code := .msgPrecommit, Round := round, Height := height, Value := some testHash,
    ValidRound := 0, Address := testAddress 2, CommittedSeal := (testAddress 2).val,
    Signature := [] }

/-- The engine that `TestHandleCheckedMessage` builds for a case: the validator of index
0 at the given round, height and step, with empty backlogs and vote sets. -/
def testEngine (round : Int) (height : Nat) (step : Step) : Engine :=
  { address := testAddress 1, height := height, round := round, step := step,
    committee := testCommittee, messages := fun _ => RoundMessages.empty,
    lockedRound := -1, lockedValue := none, validRound := -1, validValue := none,
    backlogs := fun _ => [], backlogUnchecked := fun _ => [],
    futureRoundChange := fun _ => [] }

/-- The message of the subtests of `TestHandleMsg`: a prevote of round 2, from the zero
address. -/
def testVote (height : Nat) : Message :=
  { Code := .msgPrevote, Round := 2, Height := height, Value := some testHash,
    ValidRound := 0, Address := FixedBytes.zero 20, CommittedSeal := [], Signature := [] }

/-- The engine of the subtests of `TestHandleMsg`: step propose, round 1, height 2, no
committee. -/
def testCore : Engine :=
  { address := testAddress 0x90, height := 2, round := 1, step := .propose,
    committee := [], messages := fun _ => RoundMessages.empty,
    lockedRound := -1, lockedValue := none, validRound := -1, validValue := none,
    backlogs := fun _ => [], backlogUnchecked := fun _ => [],
    futureRoundChange := fun _ => [] }

end tendermint

/-! # Nonces -/

/-- The conversion `uint64(n)`, which keeps the low 64 bits. -/
def uint64 (n : Nat) : U64 := ⟨n % 2 ^ 64, Nat.mod_lt n (by decide)⟩

/-- The function `binary.BigEndian.PutUint64` on a slice `b` of at least eight bytes:
the content of the slice after the call, `b[0] = byte(v >> 56)` to `b[7] = byte(v)`.
On a shorter slice the source panics; a nonce has eight bytes. -/
def binary.BigEndian.PutUint64 (b : Bytes) (v : U64) : Bytes :=
  [byteOfNat (v.val >>> 56), byteOfNat (v.val >>> 48), byteOfNat (v.val >>> 40),
    byteOfNat (v.val >>> 32), byteOfNat (v.val >>> 24), byteOfNat (v.val >>> 16),
    byteOfNat (v.val >>> 8), byteOfNat v.val] ++ b.drop 8

/-- The function `binary.BigEndian.Uint64` on a slice `b` of at least eight bytes:
`uint64(b[7]) | uint64(b[6])<<8 | ... | uint64(b[0])<<56`. On a shorter slice the
source panics; a nonce has eight bytes. -/
def binary.BigEndian.Uint64 (b : Bytes) : U64 :=
  uint64 ((b.getD 7 0).val ||| (b.getD 6 0).val <<< 8 ||| (b.getD 5 0).val <<< 16 |||
    (b.getD 4 0).val <<< 24 ||| (b.getD 3 0).val <<< 32 ||| (b.getD 2 0).val <<< 40 |||
    (b.getD 1 0).val <<< 48 ||| (b.getD 0 0).val <<< 56)

/-- The function `EncodeNonce`. -/
def EncodeNonce (i : U64) : BlockNonce :=
  let n : BlockNonce := FixedBytes.zero 8
  ⟨binary.BigEndian.PutUint64 n.val i, rfl⟩

/-- The method `BlockNonce.Uint64`. -/
def BlockNonce.Uint64 (n : BlockNonce) : U64 := binary.BigEndian.Uint64 n.val

/-- The method `Block.Nonce`. -/
def Block.Nonce {Tx : Type} (b : Block Tx) : U64 := binary.BigEndian.Uint64 b.header.Nonce.val

/-! # Accessors -/

/-- The method `Header.EmptyBody`. -/
def Header.EmptyBody (keccak256 : Bytes → common.Hash) (h : Header) : Bool :=
  h.TxHash = EmptyRootHash && h.UncleHash = EmptyUncleHash keccak256

/-- The method `Header.EmptyReceipts`. -/
def Header.EmptyReceipts (h : Header) : Bool :=
  h.ReceiptHash = EmptyRootHash

/-- The method `Block.Header`, named `HeaderCopy` here to keep `Header` for the type: a
copy of the header of the block, `none` when `CopyHeader` panics. -/
def Block.HeaderCopy {Tx : Type} (b : Block Tx) : Option Header := CopyHeader b.header

/-- A header in memory whose pointers and slices are all nil. -/
def exampleNilHeaderRef : Mem.HeaderRef :=
  { ParentHash := FixedBytes.zero 32
    UncleHash := FixedBytes.zero 32
    Coinbase := FixedBytes.zero 20
    Root := FixedBytes.zero 32
    TxHash := FixedBytes.zero 32
    ReceiptHash := FixedBytes.zero 32
    Bloom := FixedBytes.zero 256
    Difficulty := none
    Number := none
    GasLimit := 0
    GasUsed := 0
    Time := 0
    Extra := none
    MixDigest := FixedBytes.zero 32
    Nonce := FixedBytes.zero 8
    Committee := none
    ProposerSeal := none
    Round := 0
    CommittedSeals := none
    PastCommittedSeals := none }

/-- The nonce with the bytes 1 to 8. -/
def exampleNonce : BlockNonce := ⟨[1, 2, 3, 4, 5, 6, 7, 8], rfl⟩

/-- A BFT header with a nil difficulty and a nil number. -/
def exampleNilBFTHeader : Header :=
  { Header.zeroValue with
      MixDigest := exampleDigest, Extra := [1, 2],
      Committee := [{ Address := exampleAddress, VotingPower := some 1 }],
      ProposerSeal := [9], Round := 3, CommittedSeals := [[4], []] }

/-- A stand-in for the functions `DeriveSha` and `CreateBloom` in the concrete examples,
on transactions and receipts that hold nothing. -/
def exampleDeriver : Deriver Unit Unit Unit where
  DeriveShaTxs := fun _ _ => FixedBytes.zero 32
  DeriveShaReceipts := fun _ _ => FixedBytes.zero 32
  CreateBloom := fun _ => FixedBytes.zero 256

/-! # Theorems -/

/-! # Big-endian integers -/

theorem byteOfNat_val (n : Nat) : (byteOfNat n).val = n % 256 := rfl

theorem byteOfNat_val_of_lt {n : Nat} (h : n < 256) : (byteOfNat n).val = n := by
  simp [byteOfNat, Nat.mod_eq_of_lt h]

theorem byteOfNat_eq (b : Byte) : byteOfNat b.val = b := by
  apply Fin.ext
  simp [byteOfNat, Nat.mod_eq_of_lt b.isLt]

theorem beVal_append_singleton (l : Bytes) (b : Byte) :
    beVal (l ++ [b]) = beVal l * 256 + b.val := by
  simp [beVal, List.foldl_append]

theorem beVal_nil : beVal [] = 0 := rfl

theorem leBytesAux_zero (fuel : Nat) : leBytesAux fuel 0 = [] := by
  cases fuel <;> simp [leBytesAux]

theorem beVal_reverse_leBytesAux (fuel n : Nat) (h : n ≤ fuel) :
    beVal (leBytesAux fuel n).reverse = n := by
  induction fuel generalizing n with
  | zero =>
    have : n = 0 := by omega
    subst this
    simp [leBytesAux, beVal]
  | succ f ih =>
    by_cases h0 : n = 0
    · subst h0
      simp [leBytesAux, beVal]
    · have hd : n / 256 ≤ f := by omega
      simp only [leBytesAux, h0, if_false, List.reverse_cons]
      rw [beVal_append_singleton, ih _ hd, byteOfNat_val]
      omega

theorem beVal_beBytes (n : Nat) : beVal (beBytes n) = n :=
  beVal_reverse_leBytesAux n n (Nat.le_refl n)

theorem leBytesAux_getLast (fuel n : Nat) (h : n ≤ fuel) (b : Byte)
    (hb : (leBytesAux fuel n).getLast? = some b) : b.val ≠ 0 := by
  induction fuel generalizing n with
  | zero => simp [leBytesAux] at hb
  | succ f ih =>
    by_cases h0 : n = 0
    · subst h0
      simp [leBytesAux] at hb
    · have hd : n / 256 ≤ f := by omega
      simp only [leBytesAux, h0, if_false] at hb
      by_cases hq : n / 256 = 0
      · rw [hq, leBytesAux_zero] at hb
        simp at hb
        subst hb
        rw [byteOfNat_val]
        omega
      · cases hrec : leBytesAux f (n / 256) with
        | nil =>
          cases f with
          | zero => omega
          | succ g => simp [leBytesAux, hq] at hrec
        | cons c cs =>
          rw [hrec, List.getLast?_cons_cons] at hb
          exact ih _ hd (by rw [hrec]; exact hb)

theorem beBytes_head_ne_zero (n : Nat) (b : Byte) (bs : Bytes) (h : beBytes n = b :: bs) :
    b.val ≠ 0 := by
  apply leBytesAux_getLast n n (Nat.le_refl n) b
  have h2 : (leBytesAux n n) = (b :: bs).reverse := by
    rw [← h, beBytes, List.reverse_reverse]
  rw [h2, List.getLast?_reverse]
  rfl

theorem leBytesAux_length_le (fuel n k : Nat) (h : n < 256 ^ k) :
    (leBytesAux fuel n).length ≤ k := by
  induction fuel generalizing n k with
  | zero => simp [leBytesAux]
  | succ f ih =>
    by_cases h0 : n = 0
    · simp [leBytesAux, h0]
    · simp only [leBytesAux, h0, if_false, List.length_cons]
      cases k with
      | zero => simp at h; omega
      | succ j =>
        have : n / 256 < 256 ^ j := by
          rw [Nat.div_lt_iff_lt_mul (by decide)]
          rw [pow_succ] at h
          exact h
        have := ih _ _ this
        omega

theorem beBytes_length_le (n k : Nat) (h : n < 256 ^ k) : (beBytes n).length ≤ k := by
  simp only [beBytes, List.length_reverse]
  exact leBytesAux_length_le n n k h

theorem beBytes_length_pos (n : Nat) (h : 0 < n) : 0 < (beBytes n).length := by
  simp only [beBytes, List.length_reverse]
  cases n with
  | zero => omega
  | succ m => simp [leBytesAux]

theorem beBytes_zero : beBytes 0 = [] := rfl

namespace rlp

theorem puthead_length_pos (s l n : Nat) : 0 < (puthead s l n).length := by
  unfold puthead; split <;> simp

theorem encodeBytes_length_pos (b : Bytes) : 0 < (encodeBytes b).length := by
  unfold encodeBytes
  split
  · split <;> simp [puthead]
  · simp only [List.length_append]
    have := puthead_length_pos 0x80 0xB7 b.length
    omega

theorem encodeBytes_length_ge (b : Bytes) : b.length ≤ (encodeBytes b).length := by
  unfold encodeBytes
  split
  · split <;> simp [puthead]
  · simp

theorem Item.encode_length_pos (t : Item) : 0 < t.encode.length := by
  cases t with
  | str b => simpa [Item.encode] using encodeBytes_length_pos b
  | list xs =>
    simp only [Item.encode, List.length_append]
    have := puthead_length_pos 0xC0 0xF7 (Item.encodeList xs).length
    omega

theorem Item.encode_list_length_ge (xs : List Item) :
    (Item.encodeList xs).length < (Item.list xs).encode.length := by
  simp only [Item.encode, List.length_append]
  have := puthead_length_pos 0xC0 0xF7 (Item.encodeList xs).length
  omega

theorem takePayload_append (k : Kind) (p rest : Bytes)
    (h : k = .String → ∀ x, p = [x] → 128 ≤ x.val) :
    takePayload k p.length (p ++ rest) = some (k, p, rest) := by
  unfold takePayload
  have h1 : ¬ (p ++ rest).length < p.length := by simp
  rw [if_neg h1]
  have h2 : (p ++ rest).take p.length = p := by simp
  have h3 : (p ++ rest).drop p.length = rest := by simp
  rw [h2, h3]
  split
  · rename_i x
    have := h rfl x rfl
    rw [if_neg (by omega)]
  · rfl

theorem splitItem_long (largetag : Nat) (k : Kind) (p rest : Bytes)
    (hlt : largetag = 0xB7 ∧ k = .String ∨ largetag = 0xF7 ∧ k = .List)
    (h56 : 56 ≤ p.length) (hsz : p.length < 2 ^ 64) :
    splitItem ((byteOfNat (largetag + (beBytes p.length).length) :: beBytes p.length) ++ p ++ rest)
      = some (k, p, rest) := by
  have hL1 : 0 < (beBytes p.length).length := beBytes_length_pos _ (by omega)
  have hL8 : (beBytes p.length).length ≤ 8 := beBytes_length_le _ 8 (by
    have : (256 : Nat) ^ 8 = 2 ^ 64 := by norm_num
    omega)
  have hrs : readSize (beBytes p.length).length (beBytes p.length ++ (p ++ rest))
      = some (p.length, p ++ rest) := by
    unfold readSize
    rw [if_neg (by simp)]
    have h2 : (beBytes p.length ++ (p ++ rest)).take (beBytes p.length).length
        = beBytes p.length := by simp
    have h3 : (beBytes p.length ++ (p ++ rest)).drop (beBytes p.length).length
        = p ++ rest := by simp
    rw [h2, h3]
    cases hb : beBytes p.length with
    | nil => rw [hb] at hL1; simp at hL1
    | cons b bs =>
      have hne := beBytes_head_ne_zero _ b bs hb
      simp only
      rw [if_neg (by intro hc; exact hne hc.2), ← hb, beVal_beBytes]
  have htp : takePayload k p.length (p ++ rest) = some (k, p, rest) :=
    takePayload_append k p rest (by
      intro _ x hx
      rw [hx] at h56
      simp at h56)
  rcases hlt with ⟨h1, h2⟩ | ⟨h1, h2⟩
  · subst h1 h2
    have hv : (byteOfNat (0xB7 + (beBytes p.length).length)).val
        = 0xB7 + (beBytes p.length).length := byteOfNat_val_of_lt (by omega)
    simp only [List.cons_append, List.append_assoc, splitItem, hv]
    rw [if_neg (by omega), if_neg (by omega), if_pos (by omega)]
    have : 0xB7 + (beBytes p.length).length - 0xB7 = (beBytes p.length).length := by omega
    rw [this, hrs]
    simp only
    rw [if_neg (by omega), htp]
  · subst h1 h2
    have hv : (byteOfNat (0xF7 + (beBytes p.length).length)).val
        = 0xF7 + (beBytes p.length).length := byteOfNat_val_of_lt (by omega)
    simp only [List.cons_append, List.append_assoc, splitItem, hv]
    rw [if_neg (by omega), if_neg (by omega), if_neg (by omega), if_neg (by omega)]
    have : 0xF7 + (beBytes p.length).length - 0xF7 = (beBytes p.length).length := by omega
    rw [this, hrs]
    simp only
    rw [if_neg (by omega), htp]

theorem splitItem_encodeBytes (b rest : Bytes) (hsz : b.length < 2 ^ 64) :
    splitItem (encodeBytes b ++ rest) = some (.String, b, rest) := by
  have general : (∀ x, b = [x] → 128 ≤ x.val) →
      splitItem (puthead 0x80 0xB7 b.length ++ b ++ rest) = some (.String, b, rest) := by
    intro hx
    unfold puthead
    by_cases h56 : b.length < 56
    · rw [if_pos h56]
      have hv : (byteOfNat (0x80 + b.length)).val = 0x80 + b.length :=
        byteOfNat_val_of_lt (by omega)
      simp only [List.cons_append, List.nil_append, splitItem, hv]
      rw [if_neg (by omega), if_pos (by omega)]
      have : 0x80 + b.length - 0x80 = b.length := by omega
      rw [this]
      exact takePayload_append .String b rest (fun _ => hx)
    · rw [if_neg h56]
      exact splitItem_long 0xB7 .String b rest (Or.inl ⟨rfl, rfl⟩) (by omega) hsz
  unfold encodeBytes
  split
  · rename_i x
    by_cases hx : x.val ≤ 0x7F
    · rw [if_pos hx]
      simp only [List.cons_append, List.nil_append, splitItem]
      rw [if_pos (by omega)]
    · rw [if_neg hx]
      exact general (by
        intro y hy
        simp at hy
        subst hy
        omega)
  · rename_i hne
    exact general (by
      intro x hx
      exact absurd hx (hne x))

theorem splitItem_list (p rest : Bytes) (hsz : p.length < 2 ^ 64) :
    splitItem (puthead 0xC0 0xF7 p.length ++ p ++ rest) = some (.List, p, rest) := by
  unfold puthead
  by_cases h56 : p.length < 56
  · rw [if_pos h56]
    have hv : (byteOfNat (0xC0 + p.length)).val = 0xC0 + p.length :=
      byteOfNat_val_of_lt (by omega)
    simp only [List.cons_append, List.nil_append, splitItem, hv]
    rw [if_neg (by omega), if_neg (by omega), if_neg (by omega), if_pos (by omega)]
    have : 0xC0 + p.length - 0xC0 = p.length := by omega
    rw [this]
    exact takePayload_append .List p rest (by intro h; cases h)
  · rw [if_neg h56]
    exact splitItem_long 0xF7 .List p rest (Or.inr ⟨rfl, rfl⟩) (by omega) hsz

mutual
theorem decodeAux_encode : (t : Item) → ∀ (fuel : Nat) (rest : Bytes),
    t.encode.length < 2 ^ 64 → t.need ≤ fuel →
    decodeAux fuel (t.encode ++ rest) = some (t, rest)
  | .str b, fuel, rest, hsz, hf => by
    cases fuel with
    | zero => simp [Item.need] at hf
    | succ f =>
      have hb : b.length < 2 ^ 64 := by
        have := encodeBytes_length_ge b
        simp only [Item.encode] at hsz
        omega
      simp only [Item.encode, decodeAux, splitItem_encodeBytes b rest hb]
  | .list xs, fuel, rest, hsz, hf => by
    cases fuel with
    | zero => simp [Item.need] at hf
    | succ f =>
      have hp : (Item.encodeList xs).length < 2 ^ 64 := by
        have := Item.encode_list_length_ge xs
        omega
      have hn : Item.needList xs ≤ f := by
        simp only [Item.need] at hf
        omega
      simp only [Item.encode, decodeAux, splitItem_list _ rest hp,
        decodeListAux_encodeList xs f hp hn]
theorem decodeListAux_encodeList : (xs : List Item) → ∀ (fuel : Nat),
    (Item.encodeList xs).length < 2 ^ 64 → Item.needList xs ≤ fuel →
    decodeListAux fuel (Item.encodeList xs) = some xs
  | [], fuel, _, hf => by
    cases fuel with
    | zero => simp [Item.needList] at hf
    | succ f => simp [Item.encodeList, decodeListAux]
  | x :: xs, fuel, hsz, hf => by
    cases fuel with
    | zero => simp [Item.needList] at hf
    | succ f =>
      simp only [Item.encodeList, List.length_append] at hsz
      simp only [Item.needList] at hf
      have h1 := decodeAux_encode x f (Item.encodeList xs) (by omega) (by omega)
      have h2 := decodeListAux_encodeList xs f (by omega) (by omega)
      have hpos := Item.encode_length_pos x
      simp only [Item.encodeList]
      cases hx : x.encode ++ Item.encodeList xs with
      | nil =>
        have := congrArg List.length hx
        rw [List.length_append, List.length_nil] at this
        omega
      | cons c cs =>
        simp only [decodeListAux]
        rw [← hx, h1]
        simp only [h2]
end

mutual
theorem Item.need_le : (t : Item) → t.need ≤ 2 * t.encode.length
  | .str b => by
    have := encodeBytes_length_pos b
    simp only [Item.need, Item.encode]
    omega
  | .list xs => by
    have h := Item.needList_le xs
    have := Item.encode_list_length_ge xs
    simp only [Item.need]
    omega
theorem Item.needList_le : (xs : List Item) →
    Item.needList xs ≤ 2 * (Item.encodeList xs).length + 1
  | [] => by simp [Item.needList, Item.encodeList]
  | x :: xs => by
    have h1 := Item.need_le x
    have h2 := Item.needList_le xs
    have := Item.encode_length_pos x
    simp only [Item.needList, Item.encodeList, List.length_append]
    omega
end

/-- Decoding the encoding of a value followed by `rest` gives the value back and leaves
`rest`, for every encoding shorter than 2^64 bytes. -/
theorem decode_encode (t : Item) (rest : Bytes) (hsz : t.encode.length < 2 ^ 64) :
    decode (t.encode ++ rest) = some (t, rest) := by
  unfold decode
  apply decodeAux_encode t _ rest hsz
  have := Item.need_le t
  simp only [List.length_append]
  omega

theorem DecodeBytes_encode (t : Item) (hsz : t.encode.length < 2 ^ 64) :
    DecodeBytes t.encode = some t := by
  have := decode_encode t [] hsz
  simp only [List.append_nil] at this
  simp [DecodeBytes, this]


theorem takePayload_length (k : Kind) (size : Nat) (r : Bytes) (k1 : Kind) (p r1 : Bytes)
    (h : takePayload k size r = some (k1, p, r1)) : p.length + r1.length = r.length := by
  unfold takePayload at h
  split at h
  · cases h
  · rename_i hlen
    have hsum : (r.take size).length + (r.drop size).length = r.length := by
      rw [List.length_take, List.length_drop]
      omega
    split at h
    · rename_i x htake
      split at h
      · cases h
      · simp only [Option.some.injEq, Prod.mk.injEq] at h
        obtain ⟨_, hp, hr⟩ := h
        rw [← hp, ← hr, ← htake]
        exact hsum
    · simp only [Option.some.injEq, Prod.mk.injEq] at h
      obtain ⟨_, hp, hr⟩ := h
      rw [← hp, ← hr]
      exact hsum

theorem readSize_length (n : Nat) (r : Bytes) (size : Nat) (r1 : Bytes)
    (h : readSize n r = some (size, r1)) : r1.length ≤ r.length := by
  unfold readSize at h
  split at h
  · cases h
  · split at h
    · simp only [Option.some.injEq, Prod.mk.injEq] at h
      rw [← h.2, List.length_drop]
      omega
    · split at h
      · cases h
      · simp only [Option.some.injEq, Prod.mk.injEq] at h
        rw [← h.2, List.length_drop]
        omega

/-- The first value of an input takes at least one byte of it. -/
theorem splitItem_length (bs : Bytes) (k : Kind) (p r : Bytes)
    (h : splitItem bs = some (k, p, r)) : r.length < bs.length ∧ p.length < bs.length + 1 ∧
      (k = .List → p.length + r.length < bs.length) := by
  cases bs with
  | nil => simp [splitItem] at h
  | cons b rest =>
    simp only [splitItem] at h
    simp only [List.length_cons]
    split at h
    · simp only [Option.some.injEq, Prod.mk.injEq] at h
      obtain ⟨hk, hp, hr⟩ := h
      rw [← hp, ← hr, ← hk]
      refine ⟨by omega, by simp, by intro hc; cases hc⟩
    · split at h
      · have := takePayload_length _ _ _ _ _ _ h
        refine ⟨by omega, by omega, by intro _; omega⟩
      · split at h
        · split at h
          · cases h
          · rename_i size r1 hrs
            split at h
            · cases h
            · have h1 := readSize_length _ _ _ _ hrs
              have := takePayload_length _ _ _ _ _ _ h
              refine ⟨by omega, by omega, by intro _; omega⟩
        · split at h
          · have := takePayload_length _ _ _ _ _ _ h
            refine ⟨by omega, by omega, by intro _; omega⟩
          · split at h
            · cases h
            · rename_i size r1 hrs
              split at h
              · cases h
              · have h1 := readSize_length _ _ _ _ hrs
                have := takePayload_length _ _ _ _ _ _ h
                refine ⟨by omega, by omega, by intro _; omega⟩

theorem decodeAux_rest_length (fuel : Nat) (bs : Bytes) (x : Item) (r : Bytes)
    (h : decodeAux fuel bs = some (x, r)) : r.length < bs.length := by
  cases fuel with
  | zero => simp [decodeAux] at h
  | succ f =>
    simp only [decodeAux] at h
    split at h
    · cases h
    · rename_i p r1 hsp
      simp only [Option.some.injEq, Prod.mk.injEq] at h
      rw [← h.2]
      exact (splitItem_length _ _ _ _ hsp).1
    · rename_i p r1 hsp
      split at h
      · cases h
      · simp only [Option.some.injEq, Prod.mk.injEq] at h
        rw [← h.2]
        exact (splitItem_length _ _ _ _ hsp).1

/-- The result of the decoder does not depend on the bound once the bound is twice the
length of the input: the bound of `decode` is never what makes it fail. -/
theorem decodeAux_fuel (n : Nat) : ∀ bs : Bytes, bs.length ≤ n →
    (∀ f1 f2, 2 * bs.length ≤ f1 → 2 * bs.length ≤ f2 → decodeAux f1 bs = decodeAux f2 bs) ∧
    (∀ f1 f2, 2 * bs.length + 1 ≤ f1 → 2 * bs.length + 1 ≤ f2 →
      decodeListAux f1 bs = decodeListAux f2 bs) := by
  induction n with
  | zero =>
    intro bs hbs
    have hnil : bs = [] := List.eq_nil_of_length_eq_zero (by omega)
    subst hnil
    constructor
    · intro f1 f2 _ _
      cases f1 <;> cases f2 <;> simp [decodeAux, splitItem]
    · intro f1 f2 h1 h2
      cases f1 with
      | zero => simp at h1
      | succ g1 =>
        cases f2 with
        | zero => simp at h2
        | succ g2 => simp [decodeListAux]
  | succ n ih =>
    intro bs hbs
    have hfirst : ∀ f1 f2, 2 * bs.length ≤ f1 → 2 * bs.length ≤ f2 →
        decodeAux f1 bs = decodeAux f2 bs := by
      intro f1 f2 h1 h2
      cases bs with
      | nil => cases f1 <;> cases f2 <;> simp [decodeAux, splitItem]
      | cons b rest =>
        simp only [List.length_cons] at h1 h2 hbs
        cases f1 with
        | zero => omega
        | succ g1 =>
          cases f2 with
          | zero => omega
          | succ g2 =>
            simp only [decodeAux]
            cases hsp : splitItem (b :: rest) with
            | none => rfl
            | some res =>
              obtain ⟨k, p, r⟩ := res
              cases k with
              | String => rfl
              | List =>
                have hl := (splitItem_length _ _ _ _ hsp).2.2 rfl
                simp only [List.length_cons] at hl
                have := (ih p (by omega)).2 g1 g2 (by omega) (by omega)
                simp only [this]
    refine ⟨hfirst, ?_⟩
    intro f1 f2 h1 h2
    cases f1 with
    | zero => omega
    | succ g1 =>
      cases f2 with
      | zero => omega
      | succ g2 =>
        cases bs with
        | nil => simp [decodeListAux]
        | cons b rest =>
          simp only [decodeListAux]
          have hd := hfirst g1 g2 (by omega) (by omega)
          rw [hd]
          cases hdec : decodeAux g2 (b :: rest) with
          | none => rfl
          | some res =>
            obtain ⟨x, r⟩ := res
            have hr := decodeAux_rest_length _ _ _ _ hdec
            simp only [List.length_cons] at hr hbs h1 h2
            have := (ih r (by omega)).2 g1 g2 (by omega) (by omega)
            simp only [this]

/-- The decoder with any bound of twice the length of the input or more is `decode`. -/
theorem decode_eq_decodeAux (bs : Bytes) (fuel : Nat) (h : 2 * bs.length ≤ fuel) :
    decodeAux fuel bs = decode bs :=
  (decodeAux_fuel bs.length bs (Nat.le_refl _)).1 fuel (2 * bs.length + 1) h (by omega)


theorem beVal_lt (bs : Bytes) : beVal bs < 256 ^ bs.length := by
  induction bs using List.reverseRecOn with
  | nil => simp [beVal]
  | append_singleton l b ih =>
    rw [beVal_append_singleton, List.length_append, List.length_singleton, pow_succ]
    have := b.isLt
    omega

theorem decodeUint64_encodeUint (i : U64) : decodeUint64 (encodeUint i) = some i := by
  unfold encodeUint
  cases hb : beBytes i.val with
  | nil =>
    have := beVal_beBytes i.val
    rw [hb, beVal_nil] at this
    simp only [decodeUint64]
    congr 1
    apply Fin.ext
    exact this
  | cons b bs =>
    have hne := beBytes_head_ne_zero _ b bs hb
    have hlen : (beBytes i.val).length ≤ 8 := beBytes_length_le _ 8 (by
      have : (256 : Nat) ^ 8 = 2 ^ 64 := by norm_num
      have := i.isLt
      omega)
    rw [hb] at hlen
    simp only [decodeUint64]
    rw [if_neg hne, if_neg (by omega)]
    congr 1
    apply Fin.ext
    simp only
    rw [← hb, beVal_beBytes]
    exact Nat.mod_eq_of_lt i.isLt

/-- What a `*big.Int` is read back as: nil is 0. -/
theorem decodeBigInt_encodeBigInt (p : BigIntPtr) (it : Item) (h : encodeBigInt p = some it) :
    decodeBigInt it = some (p.getD 0) := by
  cases p with
  | none =>
    simp only [encodeBigInt, Option.some.injEq] at h
    subst h
    rfl
  | some v =>
    simp only [encodeBigInt] at h
    by_cases hv : v < 0
    · simp [hv] at h
    · rw [if_neg hv, Option.some.injEq] at h
      subst h
      cases hb : beBytes v.toNat with
      | nil =>
        have := beVal_beBytes v.toNat
        rw [hb, beVal_nil] at this
        simp only [decodeBigInt, Option.getD_some, Option.some.injEq]
        omega
      | cons b bs =>
        have hne := beBytes_head_ne_zero _ b bs hb
        simp only [decodeBigInt]
        rw [if_neg hne, ← hb, beVal_beBytes]
        simp only [Option.getD_some, Option.some.injEq, Int.ofNat_eq_coe]
        omega

theorem decodeByteArray_str (n : Nat) (x : FixedBytes n) :
    decodeByteArray n (.str x.val) = some x := by
  simp [decodeByteArray, x.property]

theorem decodeElems_map_str (s : List Bytes) :
    decodeElems decodeByteSlice (s.map Item.str) = some s := by
  induction s with
  | nil => rfl
  | cons a as ih => simp [decodeElems, decodeByteSlice, ih]

theorem decodeListSlice_encodeSeals (s : List Bytes) :
    decodeListSlice decodeByteSlice (encodeSeals s) = some s := by
  simp [decodeListSlice, encodeSeals, decodeElems_map_str]

end rlp

/-- A committee member as it is read back: a nil voting power is 0. -/
theorem CommitteeMember.fromItem_toItem_member (m : CommitteeMember) (it : rlp.Item)
    (h : m.toItem = some it) :
    CommitteeMember.fromItem it
      = some { Address := m.Address, VotingPower := some (m.VotingPower.getD 0) } := by
  unfold CommitteeMember.toItem at h
  cases hv : rlp.encodeBigInt m.VotingPower with
  | none => simp [hv] at h
  | some v =>
    rw [hv] at h
    simp only [Option.some.injEq] at h
    subst h
    simp only [CommitteeMember.fromItem, rlp.decodeByteArray_str,
      rlp.decodeBigInt_encodeBigInt _ _ hv]

theorem Committee.decodeElems_encodeElems (c : Committee) (xs : List rlp.Item)
    (h : rlp.encodeElems CommitteeMember.toItem c = some xs) :
    rlp.decodeElems CommitteeMember.fromItem xs
      = some (c.map fun m =>
          { Address := m.Address, VotingPower := some (m.VotingPower.getD 0) }) := by
  induction c generalizing xs with
  | nil =>
    simp only [rlp.encodeElems, Option.some.injEq] at h
    subst h
    rfl
  | cons m ms ih =>
    simp only [rlp.encodeElems] at h
    cases hm : m.toItem with
    | none => simp [hm] at h
    | some x =>
      cases hms : rlp.encodeElems CommitteeMember.toItem ms with
      | none => simp [hm, hms] at h
      | some ys =>
        simp only [hm, hms, Option.some.injEq] at h
        subst h
        simp only [rlp.decodeElems, CommitteeMember.fromItem_toItem_member m x hm, ih ys hms,
          List.map_cons]

theorem headerExtra.fromItem_toItem_extra (e : headerExtra) (it : rlp.Item) (h : e.toItem = some it) :
    headerExtra.fromItem it
      = some { e with Committee := e.Committee.map fun m =>
          { Address := m.Address, VotingPower := some (m.VotingPower.getD 0) } } := by
  unfold headerExtra.toItem at h
  cases hc : rlp.encodeElems CommitteeMember.toItem e.Committee with
  | none => simp [hc] at h
  | some c =>
    rw [hc] at h
    simp only [Option.some.injEq] at h
    subst h
    simp only [headerExtra.fromItem, rlp.decodeListSlice,
      Committee.decodeElems_encodeElems _ _ hc, rlp.decodeByteSlice,
      rlp.decodeUint64_encodeUint, rlp.encodeSeals, rlp.decodeElems_map_str]

theorem originalHeader.fromItem_toItem_original (o : originalHeader) (it : rlp.Item)
    (h : o.toItem = some it) :
    originalHeader.fromItem it
      = some { o with Difficulty := some (o.Difficulty.getD 0),
                      Number := some (o.Number.getD 0) } := by
  unfold originalHeader.toItem at h
  cases hd : rlp.encodeBigInt o.Difficulty with
  | none => simp [hd] at h
  | some d =>
    cases hn : rlp.encodeBigInt o.Number with
    | none => simp [hd, hn] at h
    | some n =>
      simp only [hd, hn, Option.some.injEq] at h
      subst h
      simp only [originalHeader.fromItem, rlp.decodeByteArray_str,
        rlp.decodeBigInt_encodeBigInt _ _ hd, rlp.decodeBigInt_encodeBigInt _ _ hn,
        rlp.decodeUint64_encodeUint, rlp.decodeByteSlice]

theorem Header.DecodeRLP_EncodeRLP_bft (BFTDigest : common.Hash) (h0 H : Header)
    (bs rest : Bytes) (hmix : H.MixDigest = BFTDigest)
    (henc : H.EncodeRLP BFTDigest = some bs) (hsz : bs.length < 2 ^ 64) :
    Header.DecodeRLP BFTDigest h0 (bs ++ rest)
      = ({ H with
            Extra := h0.Extra
            Difficulty := some (H.Difficulty.getD 0)
            Number := some (H.Number.getD 0)
            Committee := H.Committee.map fun m =>
              { Address := m.Address, VotingPower := some (m.VotingPower.getD 0) } },
         some rest) := by
  simp only [Header.EncodeRLP, hmix, if_true] at henc
  cases he : headerExtra.encode
      { Committee := H.Committee, ProposerSeal := H.ProposerSeal, Round := H.Round,
        CommittedSeals := H.CommittedSeals, PastCommittedSeals := H.PastCommittedSeals } with
  | none => simp [he] at henc
  | some extra =>
    simp only [he] at henc
    simp only [headerExtra.encode, Option.map_eq_some'] at he
    obtain ⟨eItem, heItem, hextra⟩ := he
    simp only [originalHeader.encode, Option.map_eq_some'] at henc
    obtain ⟨oItem, hoItem, hbs⟩ := henc
    have hfrom := originalHeader.fromItem_toItem_original _ _ hoItem
    have hlen : extra.length < 2 ^ 64 := by
      have h1 := rlp.encodeBytes_length_ge extra
      simp only [originalHeader.toItem, Header.original] at hoItem
      cases hd : rlp.encodeBigInt H.Difficulty with
      | none => simp [hd] at hoItem
      | some d =>
        cases hn : rlp.encodeBigInt H.Number with
        | none => simp [hd, hn] at hoItem
        | some n =>
          simp only [hd, hn, Option.some.injEq] at hoItem
          rw [← hbs, ← hoItem] at hsz
          simp only [rlp.Item.encode, rlp.Item.encodeList, List.length_append] at hsz
          omega
    have hdec : rlp.decode (bs ++ rest) = some (oItem, rest) := by
      rw [← hbs]
      exact rlp.decode_encode oItem rest (by rw [hbs]; exact hsz)
    have hex : (rlp.DecodeBytes extra).bind headerExtra.fromItem
        = some { Committee := H.Committee.map fun m =>
                   { Address := m.Address, VotingPower := some (m.VotingPower.getD 0) },
                 ProposerSeal := H.ProposerSeal, Round := H.Round,
                 CommittedSeals := H.CommittedSeals,
                 PastCommittedSeals := H.PastCommittedSeals } := by
      rw [← hextra, rlp.DecodeBytes_encode eItem (by rw [hextra]; exact hlen)]
      simp only [Option.some_bind]
      exact headerExtra.fromItem_toItem_extra _ _ heItem
    simp only [Header.DecodeRLP, hdec, hfrom, Header.original, hmix, if_true, hex]

theorem Header.DecodeRLP_EncodeRLP_legacy (BFTDigest : common.Hash) (h0 H : Header)
    (bs rest : Bytes) (hmix : H.MixDigest ≠ BFTDigest)
    (henc : H.EncodeRLP BFTDigest = some bs) (hsz : bs.length < 2 ^ 64) :
    Header.DecodeRLP BFTDigest h0 (bs ++ rest)
      = ({ H with
            Difficulty := some (H.Difficulty.getD 0)
            Number := some (H.Number.getD 0)
            Committee := h0.Committee
            ProposerSeal := h0.ProposerSeal
            Round := h0.Round
            CommittedSeals := h0.CommittedSeals
            PastCommittedSeals := h0.PastCommittedSeals },
         some rest) := by
  simp only [Header.EncodeRLP, hmix, if_false] at henc
  simp only [originalHeader.encode, Option.map_eq_some'] at henc
  obtain ⟨oItem, hoItem, hbs⟩ := henc
  have hfrom := originalHeader.fromItem_toItem_original _ _ hoItem
  have hdec : rlp.decode (bs ++ rest) = some (oItem, rest) := by
    rw [← hbs]
    exact rlp.decode_encode oItem rest (by rw [hbs]; exact hsz)
  simp only [Header.DecodeRLP, hdec, hfrom, Header.original, hmix, if_false]

/-! # Encoding does not see the difference between nil and 0 -/

theorem rlp.encodeBigInt_getD (p : BigIntPtr) :
    rlp.encodeBigInt (some (p.getD 0)) = rlp.encodeBigInt p := by
  cases p with
  | none => rfl
  | some v => rfl

theorem rlp.encodeElems_map_congr {α : Type} (f : α → Option rlp.Item) (g : α → α)
    (h : ∀ a, f (g a) = f a) (l : List α) :
    rlp.encodeElems f (l.map g) = rlp.encodeElems f l := by
  induction l with
  | nil => rfl
  | cons a as ih => simp only [List.map_cons, rlp.encodeElems, h, ih]

theorem Committee.encodeElems_norm (c : Committee) :
    rlp.encodeElems CommitteeMember.toItem
        (c.map fun m => { Address := m.Address, VotingPower := some (m.VotingPower.getD 0) })
      = rlp.encodeElems CommitteeMember.toItem c := by
  apply rlp.encodeElems_map_congr
  intro m
  simp only [CommitteeMember.toItem, rlp.encodeBigInt_getD]

theorem originalHeader.encode_norm (o : originalHeader) :
    originalHeader.encode
        { o with Difficulty := some (o.Difficulty.getD 0), Number := some (o.Number.getD 0) }
      = o.encode := by
  simp only [originalHeader.encode, originalHeader.toItem, rlp.encodeBigInt_getD]

theorem Header.EncodeRLP_bft_extra (BFTDigest : common.Hash) (h : Header)
    (hmix : h.MixDigest = BFTDigest) (e : Bytes) :
    Header.EncodeRLP BFTDigest { h with Extra := e } = h.EncodeRLP BFTDigest := by
  simp only [Header.EncodeRLP, Header.original, hmix, if_true]

theorem copy_makeBytes (b : Bytes) : copy (makeBytes b.length) b = b := by
  simp [copy, makeBytes]

theorem copySeals_eq (s : List Bytes) : copySeals s = s := by
  induction s with
  | nil => rfl
  | cons a as ih =>
    simp only [copySeals, List.map_cons, copy_makeBytes] at ih ⊢
    rw [ih]

/-! # Bit length -/

theorem bitLenAux_le_iff (fuel n k : Nat) (h : n ≤ fuel) : bitLenAux fuel n ≤ k ↔ n < 2 ^ k := by
  induction fuel generalizing n k with
  | zero =>
    have : n = 0 := by omega
    subst this
    simp [bitLenAux]
  | succ f ih =>
    by_cases h0 : n = 0
    · subst h0
      simp [bitLenAux]
    · simp only [bitLenAux, h0, if_false]
      cases k with
      | zero =>
        simp only [pow_zero, Nat.lt_one_iff]
        constructor
        · intro hc; omega
        · intro hc; exact absurd hc h0
      | succ j =>
        have hd : n / 2 ≤ f := by omega
        rw [Nat.add_le_add_iff_right, ih (n / 2) j hd, pow_succ]
        omega

theorem BitLen_le_iff (x : Int) (k : Nat) : BitLen x ≤ k ↔ x.natAbs < 2 ^ k :=
  bitLenAux_le_iff x.natAbs x.natAbs k (Nat.le_refl _)

/-- C7: `Header.SanityCheck` returns no error exactly when the number is absent or a
`uint64`, the difficulty is absent or of bit length at most 80 (an absolute value below
2^80), and the extra data has at most 102400 bytes; 102400 bytes and bit length 80 are
accepted, 102401 bytes and bit length 81 are rejected. -/
theorem Header.SanityCheck_ok_iff :
    (∀ h : Header, h.SanityCheck = none ↔
      ((∀ n, h.Number = some n → 0 ≤ n ∧ n < 2 ^ 64) ∧
       (∀ d, h.Difficulty = some d → BitLen d ≤ 80 ∧ d.natAbs < 2 ^ 80) ∧
       h.Extra.length ≤ 102400)) ∧
    Header.SanityCheck { Header.zeroValue with Extra := List.replicate 102400 0 } = none ∧
    Header.SanityCheck { Header.zeroValue with Extra := List.replicate 102401 0 }
      = some (.tooLargeBlockExtradata 102401) ∧
    BitLen (2 ^ 80 - 1) = 80 ∧
    Header.SanityCheck { Header.zeroValue with Difficulty := some (2 ^ 80 - 1) } = none ∧
    BitLen (2 ^ 80) = 81 ∧
    Header.SanityCheck { Header.zeroValue with Difficulty := some (2 ^ 80) }
      = some (.tooLargeBlockDifficulty 81) := by
  refine ⟨?_, ?_, ?_, by decide, by decide, by decide, by decide⟩
  · intro h
    have hextra : Header.SanityCheck.extra h = none ↔ h.Extra.length ≤ 102400 := by
      unfold Header.SanityCheck.extra
      by_cases he : h.Extra.length > 100 * 1024
      · rw [if_pos he]
        constructor
        · intro hc; cases hc
        · intro hc; omega
      · rw [if_neg he]
        constructor
        · intro _; omega
        · intro _; rfl
    have hrest : Header.SanityCheck.rest h = none ↔
        ((∀ d, h.Difficulty = some d → BitLen d ≤ 80 ∧ d.natAbs < 2 ^ 80) ∧
          h.Extra.length ≤ 102400) := by
      unfold Header.SanityCheck.rest
      cases hd : h.Difficulty with
      | none =>
        simp only [hextra]
        constructor
        · intro hc
          exact ⟨fun d hd2 => (by cases hd2), hc⟩
        · intro hc; exact hc.2
      | some d =>
        simp only
        by_cases hb : BitLen d > 80
        · rw [if_pos hb]
          constructor
          · intro hc; cases hc
          · intro hc
            have := (hc.1 d rfl).1
            omega
        · rw [if_neg hb, hextra]
          constructor
          · intro hc
            refine ⟨?_, hc⟩
            intro d2 hd2
            cases hd2
            exact ⟨by omega, (BitLen_le_iff d 80).1 (by omega)⟩
          · intro hc; exact hc.2
    unfold Header.SanityCheck
    cases hn : h.Number with
    | none =>
      simp only [hrest]
      constructor
      · intro hc
        exact ⟨fun n hn2 => (by cases hn2), hc⟩
      · intro hc; exact hc.2
    | some n =>
      simp only
      by_cases hu : IsUint64 n = true
      · have hu2 : 0 ≤ n ∧ n < 2 ^ 64 := by simpa [IsUint64] using hu
        simp only [hu, Bool.not_true, Bool.false_eq_true, if_false, hrest]
        constructor
        · intro hc
          refine ⟨?_, hc⟩
          intro n2 hn2
          cases hn2
          exact hu2
        · intro hc; exact hc.2
      · have hu3 : IsUint64 n = false := by simpa using hu
        simp only [hu3, Bool.not_false, if_true]
        constructor
        · intro hc; cases hc
        · intro hc
          have := hc.1 n rfl
          exact absurd (by simpa [IsUint64] using this) hu
  · simp only [Header.SanityCheck, Header.SanityCheck.rest, Header.SanityCheck.extra,
      Header.zeroValue, List.length_replicate]
    decide
  · simp only [Header.SanityCheck, Header.SanityCheck.rest, Header.SanityCheck.extra,
      Header.zeroValue, List.length_replicate]
    decide

/-! # Header codec -/

/-- C1, counterexample: the BFT header `exampleBFTHeader` has the extra data `[1]`; its
encoding decodes, into a fresh header, to a header with an empty extra data. -/
theorem Header.decode_encode_bft_loses_extra :
    exampleBFTHeader.MixDigest = exampleDigest ∧
    exampleBFTHeader.Extra = [1] ∧
    (exampleBFTHeader.EncodeRLP exampleDigest).map
        (Header.DecodeRLP exampleDigest Header.zeroValue)
      = some ({ exampleBFTHeader with Extra := [] }, some []) ∧
    (exampleBFTHeader.EncodeRLP exampleDigest).map
        (Header.DecodeRLP exampleDigest Header.zeroValue)
      ≠ some (exampleBFTHeader, some []) := by
  decide

/-- C1, amended: for a header whose mix digest is the BFT digest and whose encoding
succeeds in fewer than 2^64 bytes, decoding the encoding into a fresh header succeeds,
uses up the input and gives back every field except the extra data, which stays empty;
a nil difficulty, number or voting power is read back as 0. -/
theorem Header.decode_encode_bft (BFTDigest : common.Hash) (H : Header) (bs : Bytes)
    (hmix : H.MixDigest = BFTDigest) (henc : H.EncodeRLP BFTDigest = some bs)
    (hsz : bs.length < 2 ^ 64) :
    Header.DecodeRLP BFTDigest Header.zeroValue bs
      = ({ H with
            Extra := []
            Difficulty := some (H.Difficulty.getD 0)
            Number := some (H.Number.getD 0)
            Committee := H.Committee.map fun m =>
              { Address := m.Address, VotingPower := some (m.VotingPower.getD 0) } },
         some []) := by
  have h := Header.DecodeRLP_EncodeRLP_bft BFTDigest Header.zeroValue H bs [] hmix henc hsz
  rw [List.append_nil] at h
  exact h

/-- C1, witness: the amended statement at `exampleFullHeader`. -/
theorem Header.decode_encode_bft_witness :
    exampleFullHeader.MixDigest = exampleDigest ∧
    exampleFullHeader.EncodeRLP exampleDigest
      = some ((exampleFullHeader.EncodeRLP exampleDigest).getD []) ∧
    ((exampleFullHeader.EncodeRLP exampleDigest).getD []).length < 2 ^ 64 ∧
    Header.DecodeRLP exampleDigest Header.zeroValue
        ((exampleFullHeader.EncodeRLP exampleDigest).getD [])
      = ({ exampleFullHeader with
            Extra := []
            Difficulty := some (exampleFullHeader.Difficulty.getD 0)
            Number := some (exampleFullHeader.Number.getD 0)
            Committee := exampleFullHeader.Committee.map fun m =>
              { Address := m.Address, VotingPower := some (m.VotingPower.getD 0) } },
         some []) :=
  ⟨by decide, by decide, by decide,
    Header.decode_encode_bft exampleDigest exampleFullHeader
      ((exampleFullHeader.EncodeRLP exampleDigest).getD []) (by decide) (by decide)
      (by decide)⟩

/-! # Header hash -/

/-- C2: two headers that agree on every field except `CommittedSeals` have the same
hash, whatever their mix digest. -/
theorem Header.Hash_committedSeals (BFTDigest : common.Hash) (keccak256 : Bytes → common.Hash)
    (H : Header) (seals : List Bytes) :
    Header.Hash BFTDigest keccak256 { H with CommittedSeals := seals }
      = Header.Hash BFTDigest keccak256 H := by
  by_cases hmix : H.MixDigest = BFTDigest
  · simp only [Header.Hash, hmix, if_true, BFTFilteredHeader]
  · simp only [Header.Hash, hmix, if_false, Header.original]

theorem Header.original_encode_eq_EncodeRLP (BFTDigest : common.Hash) (H : Header)
    (hmix : H.MixDigest ≠ BFTDigest) : H.original.encode = H.EncodeRLP BFTDigest := by
  simp only [Header.EncodeRLP, hmix, if_false, Header.original]

theorem Header.EncodeRLP_norm (BFTDigest : common.Hash) (H : Header) :
    Header.EncodeRLP BFTDigest
        { H with
            Difficulty := some (H.Difficulty.getD 0)
            Number := some (H.Number.getD 0)
            Committee := H.Committee.map fun m =>
              { Address := m.Address, VotingPower := some (m.VotingPower.getD 0) } }
      = H.EncodeRLP BFTDigest := by
  simp only [Header.EncodeRLP, Header.original, headerExtra.encode, headerExtra.toItem,
    Committee.encodeElems_norm, originalHeader.encode, originalHeader.toItem,
    rlp.encodeBigInt_getD]

/-- C4: for every header whose encoding succeeds in fewer than 2^64 bytes, decoding the
encoding into a fresh header succeeds, uses up the input, and the decoded header has
the hash of the header, with the BFT mix digest and with any other. -/
theorem Header.Hash_decode_encode (BFTDigest : common.Hash) (keccak256 : Bytes → common.Hash)
    (H : Header) (bs : Bytes) (henc : H.EncodeRLP BFTDigest = some bs)
    (hsz : bs.length < 2 ^ 64) :
    (Header.DecodeRLP BFTDigest Header.zeroValue bs).2 = some [] ∧
    Header.Hash BFTDigest keccak256 (Header.DecodeRLP BFTDigest Header.zeroValue bs).1
      = Header.Hash BFTDigest keccak256 H := by
  by_cases hmix : H.MixDigest = BFTDigest
  · subst hmix
    have h := Header.DecodeRLP_EncodeRLP_bft H.MixDigest Header.zeroValue H bs [] rfl henc hsz
    rw [List.append_nil] at h
    rw [h]
    refine ⟨rfl, ?_⟩
    have h1 := Header.EncodeRLP_norm H.MixDigest { H with CommittedSeals := [] }
    have h2 := Header.EncodeRLP_bft_extra H.MixDigest
      { H with
          CommittedSeals := []
          Difficulty := some (H.Difficulty.getD 0)
          Number := some (H.Number.getD 0)
          Committee := H.Committee.map fun m =>
            { Address := m.Address, VotingPower := some (m.VotingPower.getD 0) } }
      rfl Header.zeroValue.Extra
    simp only at h1 h2
    simp only [Header.Hash, if_true, BFTFilteredHeader, h2, h1]
  · have h := Header.DecodeRLP_EncodeRLP_legacy BFTDigest Header.zeroValue H bs [] hmix henc hsz
    rw [List.append_nil] at h
    rw [h]
    refine ⟨rfl, ?_⟩
    have h1 := originalHeader.encode_norm H.original
    simp only [Header.original] at h1
    simp only [Header.Hash, hmix, if_false, Header.original, h1]

/-- C4, witness: the statement at `exampleFullHeader`, a BFT header. -/
theorem Header.Hash_decode_encode_witness :
    exampleFullHeader.EncodeRLP exampleDigest
      = some ((exampleFullHeader.EncodeRLP exampleDigest).getD []) ∧
    ((exampleFullHeader.EncodeRLP exampleDigest).getD []).length < 2 ^ 64 ∧
    (Header.DecodeRLP exampleDigest Header.zeroValue
        ((exampleFullHeader.EncodeRLP exampleDigest).getD [])).2 = some [] ∧
    Header.Hash exampleDigest exampleKeccak
        (Header.DecodeRLP exampleDigest Header.zeroValue
          ((exampleFullHeader.EncodeRLP exampleDigest).getD [])).1
      = Header.Hash exampleDigest exampleKeccak exampleFullHeader :=
  ⟨by decide, by decide,
    Header.Hash_decode_encode exampleDigest exampleKeccak exampleFullHeader
      ((exampleFullHeader.EncodeRLP exampleDigest).getD []) (by decide) (by decide)⟩

/-- C10: the hash of a header whose mix digest is not the BFT digest is keccak256 of
what `Header.EncodeRLP` writes, the legacy list of 15 fields with the extra data as it
is, and does not depend on the five BFT fields. -/
theorem Header.Hash_legacy (BFTDigest : common.Hash) (keccak256 : Bytes → common.Hash)
    (H : Header) (hmix : H.MixDigest ≠ BFTDigest) :
    Header.Hash BFTDigest keccak256 H = rlpHash keccak256 (H.EncodeRLP BFTDigest) ∧
    (∀ bs, H.EncodeRLP BFTDigest = some bs → Header.Hash BFTDigest keccak256 H = keccak256 bs) ∧
    H.EncodeRLP BFTDigest = H.original.encode ∧
    (∀ (committee : List CommitteeMember) (proposerSeal : Bytes) (round : U64)
        (committedSeals pastCommittedSeals : List Bytes),
      Header.Hash BFTDigest keccak256
          { H with
              Committee := committee
              ProposerSeal := proposerSeal
              Round := round
              CommittedSeals := committedSeals
              PastCommittedSeals := pastCommittedSeals }
        = Header.Hash BFTDigest keccak256 H) := by
  have h1 : Header.Hash BFTDigest keccak256 H = rlpHash keccak256 (H.EncodeRLP BFTDigest) := by
    simp only [Header.Hash, hmix, if_false, Header.original_encode_eq_EncodeRLP BFTDigest H hmix]
  refine ⟨h1, ?_, (Header.original_encode_eq_EncodeRLP BFTDigest H hmix).symm, ?_⟩
  · intro bs hbs
    rw [h1, hbs]
    rfl
  · intro c ps r cs pcs
    simp only [Header.Hash, hmix, if_false, Header.original]

/-- C10, witness: the statement at `exampleLegacyHeader`. -/
theorem Header.Hash_legacy_witness :
    exampleLegacyHeader.MixDigest ≠ exampleDigest ∧
    Header.Hash exampleDigest exampleKeccak exampleLegacyHeader
      = rlpHash exampleKeccak (exampleLegacyHeader.EncodeRLP exampleDigest) :=
  ⟨by decide,
    (Header.Hash_legacy exampleDigest exampleKeccak exampleLegacyHeader (by decide)).1⟩

/-! # CopyHeader -/

theorem copyCommittee_eq (c : Committee) (h : ∀ m ∈ c, m.VotingPower ≠ none) :
    copyCommittee c = some c := by
  induction c with
  | nil => rfl
  | cons m ms ih =>
    have hm := h m (List.mem_cons_self m ms)
    have hms := ih (fun x hx => h x (List.mem_cons_of_mem m hx))
    cases hv : m.VotingPower with
    | none => exact absurd hv hm
    | some v =>
      simp only [copyCommittee, hv, hms]
      congr 2
      cases m
      simp only at hv
      simp only [hv]

/-- C5, counterexample: the zero header has a nil difficulty and a nil number, and its
copy has the difficulty 0 and the number 0. -/
theorem CopyHeader_zeroValue_ne :
    Header.zeroValue.Difficulty = none ∧
    CopyHeader Header.zeroValue
      = some { Header.zeroValue with Difficulty := some 0, Number := some 0 } ∧
    CopyHeader Header.zeroValue ≠ some Header.zeroValue := by
  decide

theorem copyCommittee_field (c : Committee) (hvp : ∀ m ∈ c, m.VotingPower ≠ none) :
    (if c.length > 0 then copyCommittee c else some []) = some c := by
  by_cases hl : c.length > 0
  · rw [if_pos hl]
    exact copyCommittee_eq _ hvp
  · rw [if_neg hl]
    have : c = [] := List.eq_nil_of_length_eq_zero (by omega)
    rw [this]

theorem copyBytes_field (b : Bytes) :
    (if b.length > 0 then copy (makeBytes b.length) b else makeBytes 0) = b := by
  by_cases hl : b.length > 0
  · rw [if_pos hl, copy_makeBytes]
  · rw [if_neg hl]
    have : b = [] := List.eq_nil_of_length_eq_zero (by omega)
    rw [this]
    rfl

theorem copySeals_field (s : List Bytes) : (if s.length > 0 then copySeals s else []) = s := by
  by_cases hl : s.length > 0
  · rw [if_pos hl, copySeals_eq]
  · rw [if_neg hl]
    have : s = [] := List.eq_nil_of_length_eq_zero (by omega)
    rw [this]

/-- On a committee member whose voting power is nil `CopyHeader` panics. -/
theorem CopyHeader_nil_power : CopyHeader exampleNilPowerHeader = none := by
  decide

/-- C5, amended: for a header whose committee members all have a voting power,
`CopyHeader` returns a header equal to it on every field, a nil difficulty and a nil
number having become 0. -/
theorem CopyHeader_eq (H : Header) (hvp : ∀ m ∈ H.Committee, m.VotingPower ≠ none) :
    CopyHeader H
      = some { H with
                Difficulty := some (H.Difficulty.getD 0)
                Number := some (H.Number.getD 0) } := by
  simp only [CopyHeader, copyCommittee_field H.Committee hvp, copyBytes_field,
    copySeals_field]
  cases H.Difficulty <;> cases H.Number <;> rfl

/-- C5, witness: the amended statement at `exampleFullHeader`. -/
theorem CopyHeader_eq_witness :
    (∀ m ∈ exampleFullHeader.Committee, m.VotingPower ≠ none) ∧
    CopyHeader exampleFullHeader
      = some { exampleFullHeader with
                Difficulty := some (exampleFullHeader.Difficulty.getD 0)
                Number := some (exampleFullHeader.Number.getD 0) } :=
  ⟨by decide, CopyHeader_eq exampleFullHeader (by decide)⟩

/-! # Wire format -/

theorem specExtensionRecord_eq (h : Header) :
    specExtensionRecord h
      = headerExtra.toItem
          { Committee := h.Committee, ProposerSeal := h.ProposerSeal, Round := h.Round,
            CommittedSeals := h.CommittedSeals, PastCommittedSeals := h.PastCommittedSeals } := by
  have hf : (fun m : CommitteeMember =>
      (rlp.encodeBigInt m.VotingPower).map fun v => rlp.Item.list [.str m.Address.val, v])
      = CommitteeMember.toItem := by
    funext m
    unfold CommitteeMember.toItem
    cases rlp.encodeBigInt m.VotingPower <;> rfl
  unfold specExtensionRecord headerExtra.toItem
  rw [hf]
  cases rlp.encodeElems CommitteeMember.toItem h.Committee <;> rfl

/-- C8: for a header whose mix digest is the BFT digest, `Header.EncodeRLP` writes the
RLP list of the 15 legacy fields in the legacy order, whose extra field is the RLP
encoding of the list of committee, proposer seal, round, committed seals and past
committed seals; what it writes does not depend on the extra data of the header. -/
theorem Header.EncodeRLP_bft_wire (BFTDigest : common.Hash) (H : Header)
    (hmix : H.MixDigest = BFTDigest) :
    H.EncodeRLP BFTDigest = specBFTWire H ∧
    (∀ e : Bytes, Header.EncodeRLP BFTDigest { H with Extra := e } = H.EncodeRLP BFTDigest) := by
  refine ⟨?_, Header.EncodeRLP_bft_extra BFTDigest H hmix⟩
  simp only [Header.EncodeRLP, hmix, if_true, specBFTWire, specExtensionRecord_eq,
    headerExtra.encode, originalHeader.encode, originalHeader.toItem, Header.original,
    rlp.encodeUint]
  cases headerExtra.toItem
      { Committee := H.Committee, ProposerSeal := H.ProposerSeal, Round := H.Round,
        CommittedSeals := H.CommittedSeals, PastCommittedSeals := H.PastCommittedSeals } with
  | none => rfl
  | some record =>
    cases rlp.encodeBigInt H.Difficulty with
    | none => rfl
    | some d =>
      cases rlp.encodeBigInt H.Number with
      | none => rfl
      | some n => rfl

/-- C8, witness: the statement at `exampleFullHeader`. -/
theorem Header.EncodeRLP_bft_wire_witness :
    exampleFullHeader.MixDigest = exampleDigest ∧
    exampleFullHeader.EncodeRLP exampleDigest = specBFTWire exampleFullHeader ∧
    (specBFTWire exampleFullHeader).isSome = true :=
  ⟨by decide, (Header.EncodeRLP_bft_wire exampleDigest exampleFullHeader (by decide)).1,
    by decide⟩

/-! # NewBlock -/

/-- C9, the code at the failing input: with no receipts `NewBlock` keeps the bloom of
the header it is given, so the zero header and the zero header with another bloom,
which differ in the bloom only, give blocks with different headers; with a receipt the
bloom is the one created from the receipts. -/
theorem NewBlock_keeps_bloom {Tx Receipt Hasher : Type} (keccak256 : Bytes → common.Hash)
    (ext : Deriver Tx Receipt Hasher) (hasher : Hasher) :
    (NewBlock keccak256 ext Header.zeroValue [] [] [] hasher).map (fun b => b.header.Bloom)
      = some Header.zeroValue.Bloom ∧
    (NewBlock keccak256 ext { Header.zeroValue with Bloom := exampleBloom } [] [] []
        hasher).map (fun b => b.header.Bloom)
      = some exampleBloom ∧
    Header.zeroValue.Bloom ≠ exampleBloom ∧
    (NewBlock keccak256 ext Header.zeroValue [] [] [] hasher).map (fun b => b.header)
      ≠ (NewBlock keccak256 ext { Header.zeroValue with Bloom := exampleBloom } [] [] []
          hasher).map (fun b => b.header) ∧
    (∀ (r : Receipt) (rs : List Receipt),
      (NewBlock keccak256 ext { Header.zeroValue with Bloom := exampleBloom } [] []
          (r :: rs) hasher).map (fun b => b.header.Bloom)
        = some (ext.CreateBloom (r :: rs))) := by
  have h1 : (NewBlock keccak256 ext Header.zeroValue [] [] [] hasher).map
      (fun b => b.header.Bloom) = some Header.zeroValue.Bloom := rfl
  have h2 : (NewBlock keccak256 ext { Header.zeroValue with Bloom := exampleBloom } [] [] []
      hasher).map (fun b => b.header.Bloom) = some exampleBloom := rfl
  have h3 : Header.zeroValue.Bloom ≠ exampleBloom := by decide
  refine ⟨h1, h2, h3, ?_, fun r rs => rfl⟩
  intro hc
  have := congrArg (Option.map fun h : Header => h.Bloom) hc
  simp only [Option.map_map] at this
  have h4 : ((fun h : Header => h.Bloom) ∘ fun b : Block Tx => b.header)
      = fun b => b.header.Bloom := rfl
  rw [h4, h1, h2] at this
  exact h3 (Option.some.inj this)

namespace Mem

/-! ## Reading depends on the reachable objects only -/

theorem traverse_congr {α β : Type} (f g : α → Option β) (l : List α)
    (h : ∀ x ∈ l, f x = g x) : traverse f l = traverse g l := by
  induction l with
  | nil => rfl
  | cons a as ih =>
    have ha := h a (List.mem_cons_self a as)
    have has := ih (fun x hx => h x (List.mem_cons_of_mem a hx))
    simp only [traverse, ha, has]

theorem loadBigInt_congr (m1 m2 : Heap) (p : Option Nat)
    (h : ∀ a ∈ ptrAddrs p, m2[a]? = m1[a]?) : loadBigInt m2 p = loadBigInt m1 p := by
  cases p with
  | none => rfl
  | some a =>
    have := h a (by simp [ptrAddrs])
    simp only [loadBigInt, this]

theorem loadBytes_congr (m1 m2 : Heap) (s : Option Slice)
    (h : ∀ a ∈ sliceAddrs s, m2[a]? = m1[a]?) : loadBytes m2 s = loadBytes m1 s := by
  cases s with
  | none => rfl
  | some s =>
    have := h s.array (by simp [sliceAddrs])
    simp only [loadBytes, this]

theorem sealEntries_congr (m1 m2 : Heap) (s : Option Slice)
    (h : ∀ a ∈ sliceAddrs s, m2[a]? = m1[a]?) : sealEntries m2 s = sealEntries m1 s := by
  cases s with
  | none => rfl
  | some s =>
    have := h s.array (by simp [sliceAddrs])
    simp only [sealEntries, this]

theorem memberEntries_congr (m1 m2 : Heap) (s : Option Slice)
    (h : ∀ a ∈ sliceAddrs s, m2[a]? = m1[a]?) : memberEntries m2 s = memberEntries m1 s := by
  cases s with
  | none => rfl
  | some s =>
    have := h s.array (by simp [sliceAddrs])
    simp only [memberEntries, this]

theorem sealsAddrs_congr (m1 m2 : Heap) (s : Option Slice)
    (h : ∀ a ∈ sealsAddrs m1 s, m2[a]? = m1[a]?) : sealsAddrs m2 s = sealsAddrs m1 s := by
  have he := sealEntries_congr m1 m2 s (fun a ha => h a (by simp [sealsAddrs, ha]))
  simp only [sealsAddrs, he]

theorem committeeAddrs_congr (m1 m2 : Heap) (s : Option Slice)
    (h : ∀ a ∈ committeeAddrs m1 s, m2[a]? = m1[a]?) :
    committeeAddrs m2 s = committeeAddrs m1 s := by
  have he := memberEntries_congr m1 m2 s (fun a ha => h a (by simp [committeeAddrs, ha]))
  simp only [committeeAddrs, he]

theorem loadSeals_congr (m1 m2 : Heap) (s : Option Slice)
    (h : ∀ a ∈ sealsAddrs m1 s, m2[a]? = m1[a]?) : loadSeals m2 s = loadSeals m1 s := by
  have he := sealEntries_congr m1 m2 s (fun a ha => h a (by simp [sealsAddrs, ha]))
  simp only [loadSeals, he]
  cases hes : sealEntries m1 s with
  | none => rfl
  | some entries =>
    simp only
    apply traverse_congr
    intro x hx
    apply loadBytes_congr
    intro a ha
    apply h
    simp only [sealsAddrs, hes, Option.getD_some, List.mem_append, List.mem_flatten,
      List.mem_map]
    exact Or.inr ⟨sliceAddrs x, ⟨x, hx, rfl⟩, ha⟩

theorem loadCommittee_congr (m1 m2 : Heap) (s : Option Slice)
    (h : ∀ a ∈ committeeAddrs m1 s, m2[a]? = m1[a]?) :
    loadCommittee m2 s = loadCommittee m1 s := by
  have he := memberEntries_congr m1 m2 s (fun a ha => h a (by simp [committeeAddrs, ha]))
  simp only [loadCommittee, he]
  cases hes : memberEntries m1 s with
  | none => rfl
  | some entries =>
    simp only
    apply traverse_congr
    intro x hx
    have : loadBigInt m2 x.VotingPower = loadBigInt m1 x.VotingPower := by
      apply loadBigInt_congr
      intro a ha
      apply h
      simp only [committeeAddrs, hes, Option.getD_some, List.mem_append, List.mem_flatten,
        List.mem_map]
      exact Or.inr ⟨ptrAddrs x.VotingPower, ⟨x, hx, rfl⟩, ha⟩
    simp only [loadMember, this]

theorem load_congr (m1 m2 : Heap) (h : HeaderRef)
    (hag : ∀ a ∈ reach m1 h, m2[a]? = m1[a]?) : load m2 h = load m1 h := by
  have h1 := loadBigInt_congr m1 m2 h.Difficulty (fun a ha => hag a (by simp [reach, ha]))
  have h2 := loadBigInt_congr m1 m2 h.Number (fun a ha => hag a (by simp [reach, ha]))
  have h3 := loadBytes_congr m1 m2 h.Extra (fun a ha => hag a (by simp [reach, ha]))
  have h4 := loadCommittee_congr m1 m2 h.Committee (fun a ha => hag a (by simp [reach, ha]))
  have h5 := loadBytes_congr m1 m2 h.ProposerSeal (fun a ha => hag a (by simp [reach, ha]))
  have h6 := loadSeals_congr m1 m2 h.CommittedSeals (fun a ha => hag a (by simp [reach, ha]))
  have h7 := loadSeals_congr m1 m2 h.PastCommittedSeals
    (fun a ha => hag a (by simp [reach, ha]))
  simp only [load, h1, h2, h3, h4, h5, h6, h7]

theorem reach_congr (m1 m2 : Heap) (h : HeaderRef)
    (hag : ∀ a ∈ reach m1 h, m2[a]? = m1[a]?) : reach m2 h = reach m1 h := by
  have h4 := committeeAddrs_congr m1 m2 h.Committee (fun a ha => hag a (by simp [reach, ha]))
  have h6 := sealsAddrs_congr m1 m2 h.CommittedSeals (fun a ha => hag a (by simp [reach, ha]))
  have h7 := sealsAddrs_congr m1 m2 h.PastCommittedSeals
    (fun a ha => hag a (by simp [reach, ha]))
  simp only [reach, h4, h6, h7]

/-! ## A write changes one reachable object -/

theorem storeByte_frame (m : Heap) (s : Option Slice) (i : Nat) (v : Byte) (b : Nat)
    (hb : b ∉ sliceAddrs s) : (storeByte m s i v)[b]? = m[b]? := by
  cases s with
  | none => rfl
  | some s =>
    have hne : s.array ≠ b := by
      intro hc
      exact hb (by simp [sliceAddrs, hc])
    simp only [storeByte]
    split
    · split
      · exact List.getElem?_set_ne hne
      · rfl
    · rfl

theorem storeSeal_frame (m : Heap) (s : Option Slice) (i : Nat) (e : Option Slice)
    (b : Nat) (hb : b ∉ sliceAddrs s) : (storeSeal m s i e)[b]? = m[b]? := by
  cases s with
  | none => rfl
  | some s =>
    have hne : s.array ≠ b := by
      intro hc
      exact hb (by simp [sliceAddrs, hc])
    simp only [storeSeal]
    split
    · split
      · exact List.getElem?_set_ne hne
      · rfl
    · rfl

theorem storeMember_frame (m : Heap) (s : Option Slice) (i : Nat) (e : Member)
    (b : Nat) (hb : b ∉ sliceAddrs s) : (storeMember m s i e)[b]? = m[b]? := by
  cases s with
  | none => rfl
  | some s =>
    have hne : s.array ≠ b := by
      intro hc
      exact hb (by simp [sliceAddrs, hc])
    simp only [storeMember]
    split
    · split
      · exact List.getElem?_set_ne hne
      · rfl
    · rfl

theorem storeBigInt_frame (m : Heap) (p : Option Nat) (v : Int)
    (b : Nat) (hb : b ∉ ptrAddrs p) : (storeBigInt m p v)[b]? = m[b]? := by
  cases p with
  | none => rfl
  | some a =>
    have hne : a ≠ b := by
      intro hc
      exact hb (by simp [ptrAddrs, hc])
    simp only [storeBigInt]
    split
    · exact List.getElem?_set_ne hne
    · rfl

theorem mem_sealsAddrs_of_entryAt (m : Heap) (s : Option Slice) (j : Nat) (a : Nat)
    (ha : a ∈ sliceAddrs (entryAt (sealEntries m s) j)) : a ∈ sealsAddrs m s := by
  unfold entryAt at ha
  cases hj : ((sealEntries m s).getD [])[j]? with
  | none => simp [hj, sliceAddrs] at ha
  | some e =>
    rw [hj] at ha
    simp only at ha
    simp only [sealsAddrs, List.mem_append, List.mem_flatten, List.mem_map]
    exact Or.inr ⟨sliceAddrs e, ⟨e, List.getElem?_mem hj, rfl⟩, ha⟩

theorem mem_committeeAddrs_of_powerAt (m : Heap) (s : Option Slice) (j : Nat) (a : Nat)
    (ha : a ∈ ptrAddrs (powerAt (memberEntries m s) j)) : a ∈ committeeAddrs m s := by
  unfold powerAt at ha
  cases hj : ((memberEntries m s).getD [])[j]? with
  | none => simp [hj, ptrAddrs] at ha
  | some e =>
    rw [hj] at ha
    simp only at ha
    simp only [committeeAddrs, List.mem_append, List.mem_flatten, List.mem_map]
    exact Or.inr ⟨ptrAddrs e.VotingPower, ⟨e, List.getElem?_mem hj, rfl⟩, ha⟩

theorem mutate_frame (m : Heap) (h : HeaderRef) (w : Mutation) (b : Nat)
    (hb : b ∉ reach m h) : (mutate m h w)[b]? = m[b]? := by
  cases w with
  | extraByte i v =>
    exact storeByte_frame _ _ _ _ _ (fun hc => hb (by simp [reach, hc]))
  | proposerSealByte i v =>
    exact storeByte_frame _ _ _ _ _ (fun hc => hb (by simp [reach, hc]))
  | committedSealByte j i v =>
    exact storeByte_frame _ _ _ _ _ (fun hc => hb (by
      have := mem_sealsAddrs_of_entryAt _ _ _ _ hc
      simp [reach, this]))
  | pastCommittedSealByte j i v =>
    exact storeByte_frame _ _ _ _ _ (fun hc => hb (by
      have := mem_sealsAddrs_of_entryAt _ _ _ _ hc
      simp [reach, this]))
  | committedSealEntry j e =>
    exact storeSeal_frame _ _ _ _ _ (fun hc => hb (by simp [reach, sealsAddrs, hc]))
  | pastCommittedSealEntry j e =>
    exact storeSeal_frame _ _ _ _ _ (fun hc => hb (by simp [reach, sealsAddrs, hc]))
  | committeeEntry j e =>
    exact storeMember_frame _ _ _ _ _ (fun hc => hb (by simp [reach, committeeAddrs, hc]))
  | difficulty v =>
    exact storeBigInt_frame _ _ _ _ (fun hc => hb (by simp [reach, hc]))
  | number v =>
    exact storeBigInt_frame _ _ _ _ (fun hc => hb (by simp [reach, hc]))
  | votingPower j v =>
    exact storeBigInt_frame _ _ _ _ (fun hc => hb (by
      have := mem_committeeAddrs_of_powerAt _ _ _ _ hc
      simp [reach, this]))


/-! ## CopyHeader allocates, and writes to what it allocated -/

theorem Grown.refl (m : Heap) : Grown m.length m m := by
  refine ⟨Nat.le_refl _, fun _ _ => rfl, ?_⟩
  intro a o ha hget
  rw [List.getElem?_eq_none ha] at hget
  cases hget

theorem Grown.alloc {n : Nat} {m0 m : Heap} (hg : Grown n m0 m) (o : Object)
    (ho : o.fresh n) : Grown n m0 (Mem.alloc m o).1 := by
  obtain ⟨h1, h2, h3⟩ := hg
  refine ⟨?_, ?_, ?_⟩
  · simp only [Mem.alloc, List.length_append, List.length_singleton]
    omega
  · intro a ha
    simp only [Mem.alloc]
    rw [List.getElem?_append_left (by omega)]
    exact h2 a ha
  · intro a x ha hget
    simp only [Mem.alloc] at hget
    by_cases hlt : a < m.length
    · rw [List.getElem?_append_left hlt] at hget
      exact h3 a x ha hget
    · rw [List.getElem?_append_right (by omega)] at hget
      have hx : x = o := by
        cases hd : a - m.length with
        | zero =>
          rw [hd] at hget
          simpa using hget.symm
        | succ k =>
          rw [hd] at hget
          simp at hget
      rw [hx]
      exact ho

theorem Grown.set {n : Nat} {m0 m : Heap} (hg : Grown n m0 m) (a : Nat) (o : Object)
    (ha : n ≤ a) (ho : o.fresh n) : Grown n m0 (m.set a o) := by
  obtain ⟨h1, h2, h3⟩ := hg
  refine ⟨?_, ?_, ?_⟩
  · simp only [List.length_set]
    exact h1
  · intro b hb
    rw [List.getElem?_set_ne (show a ≠ b by omega)]
    exact h2 b hb
  · intro b x hb hget
    rw [List.getElem?_set] at hget
    by_cases hab : a = b
    · rw [if_pos hab] at hget
      by_cases hlt : a < m.length
      · rw [if_pos hlt] at hget
        cases hget
        exact ho
      · rw [if_neg hlt] at hget
        cases hget
    · rw [if_neg hab] at hget
      exact h3 b x hb hget

theorem Grown.le_length {n : Nat} {m0 m : Heap} (hg : Grown n m0 m) : n ≤ m.length := hg.1

theorem window_mem {α : Type} (s : Slice) (l w : List α) (h : window s l = some w) (x : α)
    (hx : x ∈ w) : x ∈ l := by
  unfold window at h
  split at h
  · cases h
    exact List.mem_of_mem_drop (List.mem_of_mem_take hx)
  · cases h

theorem Grown.setBigInt {n : Nat} {m0 m m1 : Heap} (hg : Grown n m0 m) (z : Nat)
    (x : Option Nat) (hz : n ≤ z) (h : Mem.setBigInt m z x = some m1) : Grown n m0 m1 := by
  unfold Mem.setBigInt at h
  split at h
  · cases h
  · split at h
    · cases h
      exact hg.set z _ hz trivial
    · cases h

theorem Grown.copyBigInt {n : Nat} {m0 m m1 : Heap} (hg : Grown n m0 m) (p : Option Nat)
    (z : Nat) (h : Mem.copyBigInt m p = some (m1, z)) : Grown n m0 m1 ∧ n ≤ z := by
  have hga := hg.alloc (.bigInt 0) trivial
  unfold Mem.copyBigInt at h
  simp only at h
  split at h
  · split at h
    · cases h
    · rename_i m2 hset
      cases h
      have hz : n ≤ (Mem.alloc m (.bigInt 0)).2 := hg.le_length
      exact ⟨hga.setBigInt _ _ hz hset, hz⟩
  · cases h
    exact ⟨hga, hg.le_length⟩

theorem Grown.makeByteSlice {n : Nat} {m0 m : Heap} (hg : Grown n m0 m) (k : Nat) :
    Grown n m0 (Mem.makeByteSlice m k).1 ∧ n ≤ (Mem.makeByteSlice m k).2.array :=
  ⟨hg.alloc _ trivial, hg.le_length⟩

theorem Grown.copyBytes {n : Nat} {m0 m m1 : Heap} (hg : Grown n m0 m) (dst : Slice)
    (src : Option Slice) (hd : n ≤ dst.array) (h : Mem.copyBytes m dst src = some m1) :
    Grown n m0 m1 := by
  unfold Mem.copyBytes at h
  split at h
  · split at h
    · cases h
    · cases h
      exact hg.set _ _ hd trivial
  · cases h

theorem Grown.copyByteSlice {n : Nat} {m0 m m1 : Heap} (hg : Grown n m0 m)
    (src : Option Slice) (s : Slice) (h : Mem.copyByteSlice m src = some (m1, s)) :
    Grown n m0 m1 ∧ n ≤ s.array := by
  have h1 := hg.makeByteSlice 0
  have h2 := h1.1.makeByteSlice (len src)
  unfold Mem.copyByteSlice at h
  simp only at h
  split at h
  · split at h
    · cases h
    · rename_i m3 hcp
      cases h
      exact ⟨h2.1.copyBytes _ _ h2.2 hcp, h2.2⟩
  · cases h
    exact h1

theorem Grown.storeSeal {n : Nat} {m0 m : Heap} (hg : Grown n m0 m) (dst : Slice) (i : Nat)
    (e : Option Slice) (hd : n ≤ dst.array) (he : ∀ a ∈ sliceAddrs e, n ≤ a) :
    Grown n m0 (Mem.storeSeal m (some dst) i e) := by
  simp only [Mem.storeSeal]
  split
  · split
    · rename_i entries hget
      apply hg.set _ _ hd
      have hold := hg.2.2 dst.array _ hd hget
      intro s hs a ha
      rcases List.mem_or_eq_of_mem_set hs with hmem | heq
      · exact hold s hmem a ha
      · rw [heq] at ha
        exact he a ha
    · exact hg
  · exact hg

theorem Grown.storeMember {n : Nat} {m0 m : Heap} (hg : Grown n m0 m) (dst : Slice) (i : Nat)
    (e : Member) (hd : n ≤ dst.array) (he : ∀ a ∈ ptrAddrs e.VotingPower, n ≤ a) :
    Grown n m0 (Mem.storeMember m (some dst) i e) := by
  simp only [Mem.storeMember]
  split
  · split
    · rename_i entries hget
      apply hg.set _ _ hd
      have hold := hg.2.2 dst.array _ hd hget
      intro s hs a ha
      rcases List.mem_or_eq_of_mem_set hs with hmem | heq
      · exact hold s hmem a ha
      · rw [heq] at ha
        exact he a ha
    · exact hg
  · exact hg

theorem Grown.copySealLoop {n : Nat} {m0 : Heap} (src : Option Slice) (dst : Slice)
    (hd : n ≤ dst.array) (k : Nat) :
    ∀ (i : Nat) (m m1 : Heap), Grown n m0 m → Mem.copySealLoop src dst k i m = some m1 →
      Grown n m0 m1 := by
  induction k with
  | zero =>
    intro i m m1 hg h
    simp only [Mem.copySealLoop, Option.some.injEq] at h
    rw [← h]
    exact hg
  | succ k ih =>
    intro i m m1 hg h
    simp only [Mem.copySealLoop] at h
    split at h
    · cases h
    · rename_i val hval
      have h1 := hg.makeByteSlice (len val)
      have h2 := h1.1.storeSeal dst i (some (Mem.makeByteSlice m (len val)).2) hd (by
        intro a ha
        simp only [sliceAddrs, List.mem_singleton] at ha
        rw [ha]
        exact h1.2)
      split at h
      · cases h
      · rename_i m3 hcp
        exact ih _ _ _ (h2.copyBytes _ _ h1.2 hcp) h

theorem Grown.makeSealSlice {n : Nat} {m0 m : Heap} (hg : Grown n m0 m) (k : Nat) :
    Grown n m0 (Mem.makeSealSlice m k).1 ∧ n ≤ (Mem.makeSealSlice m k).2.array := by
  refine ⟨hg.alloc _ ?_, hg.le_length⟩
  intro s hs a ha
  rw [List.eq_of_mem_replicate hs] at ha
  simp [sliceAddrs] at ha

theorem Grown.makeMemberSlice {n : Nat} {m0 m : Heap} (hg : Grown n m0 m) (k : Nat) :
    Grown n m0 (Mem.makeMemberSlice m k).1 ∧ n ≤ (Mem.makeMemberSlice m k).2.array := by
  refine ⟨hg.alloc _ ?_, hg.le_length⟩
  intro s hs a ha
  rw [List.eq_of_mem_replicate hs] at ha
  simp [ptrAddrs] at ha

theorem Grown.copySealSlice {n : Nat} {m0 m m1 : Heap} (hg : Grown n m0 m)
    (src : Option Slice) (s : Slice) (h : Mem.copySealSlice m src = some (m1, s)) :
    Grown n m0 m1 ∧ n ≤ s.array := by
  have h1 := hg.makeSealSlice 0
  have h2 := h1.1.makeSealSlice (len src)
  unfold Mem.copySealSlice at h
  simp only at h
  split at h
  · split at h
    · cases h
    · rename_i m3 hloop
      cases h
      exact ⟨Grown.copySealLoop src _ h2.2 _ _ _ _ h2.1 hloop, h2.2⟩
  · cases h
    exact h1

theorem Grown.copyMemberLoop {n : Nat} {m0 : Heap} (src : Option Slice) (dst : Slice)
    (hd : n ≤ dst.array) (k : Nat) :
    ∀ (i : Nat) (m m1 : Heap), Grown n m0 m → Mem.copyMemberLoop src dst k i m = some m1 →
      Grown n m0 m1 := by
  induction k with
  | zero =>
    intro i m m1 hg h
    simp only [Mem.copyMemberLoop, Option.some.injEq] at h
    rw [← h]
    exact hg
  | succ k ih =>
    intro i m m1 hg h
    simp only [Mem.copyMemberLoop] at h
    split at h
    · cases h
    · rename_i val hval
      have h1 := hg.alloc (.bigInt 0) trivial
      have hz : n ≤ (Mem.alloc m (.bigInt 0)).2 := hg.le_length
      split at h
      · cases h
      · rename_i m2 hset
        have h2 := h1.setBigInt _ _ hz hset
        have h3 := h2.storeMember dst i
          { Address := val.Address, VotingPower := some (Mem.alloc m (.bigInt 0)).2 } hd (by
            intro a ha
            simp only [ptrAddrs, List.mem_singleton] at ha
            rw [ha]
            exact hz)
        exact ih _ _ _ h3 h

theorem Grown.copyMemberSlice {n : Nat} {m0 m m1 : Heap} (hg : Grown n m0 m)
    (src : Option Slice) (s : Slice) (h : Mem.copyMemberSlice m src = some (m1, s)) :
    Grown n m0 m1 ∧ n ≤ s.array := by
  have h1 := hg.makeMemberSlice 0
  have h2 := h1.1.makeMemberSlice (len src)
  unfold Mem.copyMemberSlice at h
  simp only at h
  split at h
  · split at h
    · cases h
    · rename_i m3 hloop
      cases h
      exact ⟨Grown.copyMemberLoop src _ h2.2 _ _ _ _ h2.1 hloop, h2.2⟩
  · cases h
    exact h1

theorem Grown.sealsAddrs_fresh {n : Nat} {m0 m : Heap} (hg : Grown n m0 m) (s : Slice)
    (hs : n ≤ s.array) : ∀ a ∈ sealsAddrs m (some s), n ≤ a := by
  intro a ha
  simp only [sealsAddrs, List.mem_append, List.mem_flatten, List.mem_map] at ha
  rcases ha with ha | ⟨l, ⟨e, he, hl⟩, hal⟩
  · simp only [sliceAddrs, List.mem_singleton] at ha
    rw [ha]
    exact hs
  · cases hent : sealEntries m (some s) with
    | none =>
      rw [hent] at he
      simp at he
    | some entries =>
      rw [hent] at he
      simp only [Option.getD_some] at he
      simp only [sealEntries] at hent
      split at hent
      · rename_i all hget
        have hfresh := hg.2.2 s.array _ hs hget
        have hmem := window_mem s all entries hent e he
        rw [← hl] at hal
        exact hfresh e hmem a hal
      · cases hent

theorem Grown.committeeAddrs_fresh {n : Nat} {m0 m : Heap} (hg : Grown n m0 m) (s : Slice)
    (hs : n ≤ s.array) : ∀ a ∈ committeeAddrs m (some s), n ≤ a := by
  intro a ha
  simp only [committeeAddrs, List.mem_append, List.mem_flatten, List.mem_map] at ha
  rcases ha with ha | ⟨l, ⟨e, he, hl⟩, hal⟩
  · simp only [sliceAddrs, List.mem_singleton] at ha
    rw [ha]
    exact hs
  · cases hent : memberEntries m (some s) with
    | none =>
      rw [hent] at he
      simp at he
    | some entries =>
      rw [hent] at he
      simp only [Option.getD_some] at he
      simp only [memberEntries] at hent
      split at hent
      · rename_i all hget
        have hfresh := hg.2.2 s.array _ hs hget
        have hmem := window_mem s all entries hent e he
        rw [← hl] at hal
        exact hfresh e hmem a hal
      · cases hent

/-- The function `CopyHeader` leaves the objects of the store it is given as they are, and every
object reachable from the header it returns is a new one. -/
theorem CopyHeader_grown (m m1 : Heap) (h c : HeaderRef)
    (hcopy : CopyHeader m h = some (m1, c)) :
    Grown m.length m m1 ∧ ∀ a ∈ reach m1 c, m.length ≤ a := by
  unfold CopyHeader at hcopy
  split at hcopy
  · cases hcopy
  · rename_i ma difficulty h1
    split at hcopy
    · cases hcopy
    · rename_i mb number h2
      split at hcopy
      · cases hcopy
      · rename_i mc extra h3
        split at hcopy
        · cases hcopy
        · rename_i md committee h4
          split at hcopy
          · cases hcopy
          · rename_i me proposerSeal h5
            split at hcopy
            · cases hcopy
            · rename_i mf committedSeals h6
              split at hcopy
              · cases hcopy
              · rename_i mg pastCommittedSeals h7
                simp only [Option.some.injEq, Prod.mk.injEq] at hcopy
                obtain ⟨hm, hc⟩ := hcopy
                subst hm
                subst hc
                have g1 := (Grown.refl m).copyBigInt _ _ h1
                have g2 := g1.1.copyBigInt _ _ h2
                have g3 := g2.1.copyByteSlice _ _ h3
                have g4 := g3.1.copyMemberSlice _ _ h4
                have g5 := g4.1.copyByteSlice _ _ h5
                have g6 := g5.1.copySealSlice _ _ h6
                have g7 := g6.1.copySealSlice _ _ h7
                refine ⟨g7.1, ?_⟩
                intro a ha
                simp only [reach, List.mem_append] at ha
                rcases ha with (((((ha | ha) | ha) | ha) | ha) | ha) | ha
                · simp only [ptrAddrs, List.mem_singleton] at ha
                  rw [ha]
                  exact g1.2
                · simp only [ptrAddrs, List.mem_singleton] at ha
                  rw [ha]
                  exact g2.2
                · simp only [sliceAddrs, List.mem_singleton] at ha
                  rw [ha]
                  exact g3.2
                · exact g7.1.committeeAddrs_fresh _ g4.2 a ha
                · simp only [sliceAddrs, List.mem_singleton] at ha
                  rw [ha]
                  exact g5.2
                · exact g7.1.sealsAddrs_fresh _ g6.2 a ha
                · exact g7.1.sealsAddrs_fresh _ g7.2 a ha

end Mem

/-- C6: for a header whose objects are in the store, the header that `CopyHeader`
returns shares no object with it: no object reachable from the copy is reachable from
the header, the header reads as before the call, and a write through the copy (a byte
of the extra data, of the proposer seal or of an entry of the seal lists, an entry of
the seal lists or of the committee, the difficulty, the number or a voting power in
place) leaves every field of the header as it was, and a write through the header
leaves every field of the copy as it was. -/
theorem Mem.CopyHeader_shares_nothing (m m1 : Mem.Heap) (h c : Mem.HeaderRef)
    (hlive : ∀ a ∈ Mem.reach m h, a < m.length)
    (hcopy : Mem.CopyHeader m h = some (m1, c)) :
    (∀ a ∈ Mem.reach m1 c, a ∉ Mem.reach m1 h) ∧
    Mem.load m1 h = Mem.load m h ∧
    ∀ w : Mem.Mutation,
      Mem.load (Mem.mutate m1 c w) h = Mem.load m h ∧
      Mem.load (Mem.mutate m1 h w) c = Mem.load m1 c := by
  obtain ⟨hg, hfresh⟩ := Mem.CopyHeader_grown m m1 h c hcopy
  have hag : ∀ a ∈ Mem.reach m h, m1[a]? = m[a]? := fun a ha => hg.2.1 a (hlive a ha)
  have hreach : Mem.reach m1 h = Mem.reach m h := Mem.reach_congr m m1 h hag
  have hdisj : ∀ a ∈ Mem.reach m1 c, a ∉ Mem.reach m1 h := by
    intro a hac hah
    rw [hreach] at hah
    have h1 := hfresh a hac
    have h2 := hlive a hah
    omega
  refine ⟨hdisj, Mem.load_congr m m1 h hag, ?_⟩
  intro w
  constructor
  · apply Mem.load_congr m
    intro a ha
    have hnc : a ∉ Mem.reach m1 c := by
      intro hac
      exact hdisj a hac (by rw [hreach]; exact ha)
    rw [Mem.mutate_frame m1 c w a hnc]
    exact hag a ha
  · apply Mem.load_congr m1
    intro a ha
    exact Mem.mutate_frame m1 h w a (hdisj a ha)

/-- C6, witness: the statement at `exampleHeaderRef` in `exampleHeap`. -/
theorem Mem.CopyHeader_shares_nothing_witness :
    (∀ a ∈ Mem.reach exampleHeap exampleHeaderRef, a < exampleHeap.length) ∧
    Mem.CopyHeader exampleHeap exampleHeaderRef = some (exampleCopy.1, exampleCopy.2) ∧
    ((∀ a ∈ Mem.reach exampleCopy.1 exampleCopy.2,
        a ∉ Mem.reach exampleCopy.1 exampleHeaderRef) ∧
      Mem.load exampleCopy.1 exampleHeaderRef = Mem.load exampleHeap exampleHeaderRef ∧
      ∀ w : Mem.Mutation,
        Mem.load (Mem.mutate exampleCopy.1 exampleCopy.2 w) exampleHeaderRef
          = Mem.load exampleHeap exampleHeaderRef ∧
        Mem.load (Mem.mutate exampleCopy.1 exampleHeaderRef w) exampleCopy.2
          = Mem.load exampleCopy.1 exampleCopy.2) :=
  ⟨by decide, by decide,
    Mem.CopyHeader_shares_nothing exampleHeap exampleCopy.1 exampleHeaderRef exampleCopy.2
      (by decide) (by decide)⟩

/-- The copy of `exampleHeaderRef` reads as `CopyHeader` by value says, a write through
the header changes what the header reads as, and leaves the copy as it was. -/
theorem CopyHeader_store_example :
    Mem.load exampleCopy.1 exampleCopy.2
      = (Mem.load exampleHeap exampleHeaderRef).bind CopyHeader ∧
    (Mem.load (Mem.mutate exampleCopy.1 exampleHeaderRef (.extraByte 0 9)) exampleHeaderRef).map
        (fun h => h.Extra) = some [9, 2] ∧
    (Mem.load (Mem.mutate exampleCopy.1 exampleHeaderRef (.extraByte 0 9)) exampleCopy.2).map
        (fun h => h.Extra) = some [1, 2] ∧
    (Mem.load (Mem.mutate exampleCopy.1 exampleCopy.2 (.votingPower 0 8)) exampleCopy.2).map
        (fun h => h.Committee.map fun m => m.VotingPower) = some [some 8] ∧
    (Mem.load (Mem.mutate exampleCopy.1 exampleCopy.2 (.votingPower 0 8)) exampleHeaderRef).map
        (fun h => h.Committee.map fun m => m.VotingPower) = some [some 1] := by
  decide

namespace Mem

/-! ## What the copy reads as -/

theorem lt_length_of_lookup {α : Type} {l : List α} {a : Nat} {x : α} (h : l[a]? = some x) :
    a < l.length := by
  by_contra hc
  rw [List.getElem?_eq_none (by omega)] at h
  cases h

theorem lookup_alloc_lt (m : Heap) (o : Object) (a : Nat) (h : a < m.length) :
    (alloc m o).1[a]? = m[a]? := by
  simp only [alloc]
  exact List.getElem?_append_left h

theorem lookup_alloc_self (m : Heap) (o : Object) : (alloc m o).1[m.length]? = some o := by
  simp only [alloc]
  rw [List.getElem?_append_right (Nat.le_refl _)]
  simp

theorem alloc_snd (m : Heap) (o : Object) : (alloc m o).2 = m.length := rfl

theorem length_alloc (m : Heap) (o : Object) : (alloc m o).1.length = m.length + 1 := by
  simp [alloc]

theorem window_whole {α : Type} (a : Nat) (l : List α) :
    window { array := a, off := 0, len := l.length } l = some l := by
  simp [window]

theorem window_length {α : Type} (s : Slice) (l w : List α) (h : window s l = some w) :
    w.length = s.len := by
  unfold window at h
  split at h
  · cases h
    rw [List.length_take, List.length_drop]
    omega
  · cases h

theorem splice_whole {α : Type} (a : Nat) (l new : List α) :
    splice { array := a, off := 0, len := l.length } l new = new := by
  simp [splice]

theorem loadBytes_length (m : Heap) (s : Option Slice) (d : Bytes)
    (h : loadBytes m s = some d) : d.length = len s := by
  cases s with
  | none =>
    simp only [loadBytes, Option.some.injEq] at h
    rw [← h]
    rfl
  | some sl =>
    simp only [loadBytes] at h
    split at h
    · exact window_length _ _ _ h
    · cases h

theorem loadBytes_live (m : Heap) (s : Option Slice) (d : Bytes)
    (h : loadBytes m s = some d) : ∀ a ∈ sliceAddrs s, a < m.length := by
  intro a ha
  cases s with
  | none => simp [sliceAddrs] at ha
  | some sl =>
    simp only [sliceAddrs, List.mem_singleton] at ha
    subst ha
    simp only [loadBytes] at h
    split at h
    · rename_i data hget
      exact lt_length_of_lookup hget
    · cases h

theorem loadBigInt_live (m : Heap) (p : Option Nat) (v : BigIntPtr)
    (h : loadBigInt m p = some v) : ∀ a ∈ ptrAddrs p, a < m.length := by
  intro a ha
  cases p with
  | none => simp [ptrAddrs] at ha
  | some b =>
    simp only [ptrAddrs, List.mem_singleton] at ha
    subst ha
    simp only [loadBigInt] at h
    split at h
    · rename_i x hget
      exact lt_length_of_lookup hget
    · cases h

/-- The copy of a `*big.Int` that `CopyHeader` makes points to a new integer, of the
value pointed to, or 0 for nil. -/
theorem copyBigInt_load (m : Heap) (p : Option Nat) (v : BigIntPtr)
    (h : loadBigInt m p = some v) :
    ∃ m1, copyBigInt m p = some (m1, m.length) ∧
      loadBigInt m1 (some m.length) = some (some (v.getD 0)) ∧ m.length < m1.length := by
  cases p with
  | none =>
    simp only [loadBigInt, Option.some.injEq] at h
    subst h
    refine ⟨(alloc m (.bigInt 0)).1, rfl, ?_, by rw [length_alloc]; omega⟩
    simp only [loadBigInt, lookup_alloc_self, Option.getD_none]
  | some a =>
    simp only [loadBigInt] at h
    split at h
    · rename_i x hget
      simp only [Option.some.injEq] at h
      subst h
      have ha := lt_length_of_lookup hget
      have h1 : (alloc m (.bigInt 0)).1[a]? = some (.bigInt x) := by
        rw [lookup_alloc_lt m _ a ha]
        exact hget
      have h2 := lookup_alloc_self m (.bigInt 0)
      refine ⟨(alloc m (.bigInt 0)).1.set m.length (.bigInt x), ?_, ?_, ?_⟩
      · simp only [copyBigInt, setBigInt, h1, alloc_snd, h2]
      · simp only [loadBigInt]
        rw [List.getElem?_set_self (by rw [length_alloc]; omega)]
        rfl
      · rw [List.length_set, length_alloc]
        omega
    · cases h

/-- The copy of a `[]byte` that `CopyHeader` makes is a new slice of the same content. -/
theorem copyByteSlice_load (m : Heap) (src : Option Slice) (d : Bytes)
    (h : loadBytes m src = some d) :
    ∃ m1 s, copyByteSlice m src = some (m1, s) ∧ loadBytes m1 (some s) = some d ∧
      s.array < m1.length := by
  have hlen := loadBytes_length m src d h
  by_cases hpos : len src > 0
  · have hlive := loadBytes_live m src d h
    let ma := (makeByteSlice m 0).1
    have hma : ma.length = m.length + 1 := length_alloc m _
    let mb := (makeByteSlice ma (len src)).1
    have hmb : mb.length = m.length + 2 := by
      have : mb.length = ma.length + 1 := length_alloc ma _
      omega
    have hsrc : loadBytes mb src = some d := by
      rw [← h]
      apply loadBytes_congr
      intro a ha
      have := hlive a ha
      show (alloc (alloc m _).1 _).1[a]? = m[a]?
      rw [lookup_alloc_lt _ _ a (by rw [length_alloc]; omega), lookup_alloc_lt _ _ a this]
    have hdst : mb[ma.length]? = some (.bytes (List.replicate (len src) 0)) :=
      lookup_alloc_self ma _
    have hw : window ({ array := ma.length, off := 0, len := len src } : Slice)
        (List.replicate (len src) (0 : Byte)) = some (List.replicate (len src) 0) := by
      have := window_whole ma.length (List.replicate (len src) (0 : Byte))
      rw [List.length_replicate] at this
      exact this
    have hsp : splice ({ array := ma.length, off := 0, len := len src } : Slice)
        (List.replicate (len src) (0 : Byte)) (copy (List.replicate (len src) 0) d) = d := by
      have := splice_whole ma.length (List.replicate (len src) (0 : Byte))
        (copy (List.replicate (len src) 0) d)
      rw [List.length_replicate] at this
      rw [this]
      have hc := copy_makeBytes d
      rw [hlen] at hc
      exact hc
    refine ⟨mb.set ma.length (.bytes d), { array := ma.length, off := 0, len := len src },
      ?_, ?_, ?_⟩
    · simp only [copyByteSlice, hpos, if_true]
      show (match copyBytes mb { array := ma.length, off := 0, len := len src } src with
        | none => none
        | some m3 => some (m3, ({ array := ma.length, off := 0, len := len src } : Slice)))
        = _
      simp only [copyBytes, hsrc, hdst, hw, hsp]
    · simp only [loadBytes]
      rw [List.getElem?_set_self (by omega)]
      simp only
      have := window_whole ma.length d
      rw [hlen] at this
      exact this
    · show ma.length < (mb.set ma.length (.bytes d)).length
      rw [List.length_set]
      omega
  · have hd : d = [] := List.eq_nil_of_length_eq_zero (by omega)
    subst hd
    refine ⟨(makeByteSlice m 0).1, (makeByteSlice m 0).2, ?_, ?_, ?_⟩
    · simp only [copyByteSlice, hpos, if_false]
    · simp only [loadBytes, makeByteSlice, lookup_alloc_self]
      rfl
    · simp only [makeByteSlice, length_alloc]
      omega


theorem traverse_lookup {α β : Type} (f : α → Option β) (l : List α) (r : List β)
    (h : traverse f l = some r) :
    r.length = l.length ∧ ∀ (j : Nat) (x : α), l[j]? = some x → ∃ y, r[j]? = some y ∧ f x = some y := by
  induction l generalizing r with
  | nil =>
    simp only [traverse, Option.some.injEq] at h
    subst h
    exact ⟨rfl, by intro j x hx; simp at hx⟩
  | cons a as ih =>
    simp only [traverse] at h
    cases hfa : f a with
    | none => simp [hfa] at h
    | some b =>
      cases hrest : traverse f as with
      | none => simp [hfa, hrest] at h
      | some bs =>
        simp only [hfa, hrest, Option.some.injEq] at h
        subst h
        obtain ⟨hl, hp⟩ := ih bs hrest
        refine ⟨by simp [hl], ?_⟩
        intro j x hx
        cases j with
        | zero =>
          simp only [List.getElem?_cons_zero, Option.some.injEq] at hx
          subst hx
          exact ⟨b, by simp, hfa⟩
        | succ i =>
          simp only [List.getElem?_cons_succ] at hx
          obtain ⟨y, hy, hfy⟩ := hp i x hx
          exact ⟨y, by simpa using hy, hfy⟩

theorem traverse_of_lookup {α β : Type} (f : α → Option β) (l : List α) (r : List β)
    (hlen : l.length = r.length)
    (h : ∀ j : Nat, j < l.length → ∃ x y, l[j]? = some x ∧ r[j]? = some y ∧ f x = some y) :
    traverse f l = some r := by
  induction l generalizing r with
  | nil =>
    have : r = [] := List.eq_nil_of_length_eq_zero (by simpa using hlen.symm)
    subst this
    rfl
  | cons a as ih =>
    cases r with
    | nil => simp at hlen
    | cons b bs =>
      obtain ⟨x, y, hx, hy, hf⟩ := h 0 (by simp)
      simp only [List.getElem?_cons_zero, Option.some.injEq] at hx hy
      subst hx hy
      have hrest := ih bs (by simpa using hlen) (by
        intro j hj
        obtain ⟨x, y, hx, hy, hf⟩ := h (j + 1) (by simp; omega)
        simp only [List.getElem?_cons_succ] at hx hy
        exact ⟨x, y, hx, hy, hf⟩)
      simp only [traverse, hf, hrest]

/-- The built-in `copy` into a new slice of the length of the source leaves the source in
the new array. -/
theorem copyBytes_fresh (m : Heap) (a : Nat) (val : Option Slice) (d : Bytes)
    (hval : loadBytes m val = some d)
    (hget : m[a]? = some (.bytes (List.replicate (len val) 0))) :
    copyBytes m { array := a, off := 0, len := len val } val = some (m.set a (.bytes d)) := by
  have hlen := loadBytes_length m val d hval
  have hw : window ({ array := a, off := 0, len := len val } : Slice)
      (List.replicate (len val) (0 : Byte)) = some (List.replicate (len val) 0) := by
    have := window_whole a (List.replicate (len val) (0 : Byte))
    rw [List.length_replicate] at this
    exact this
  have hsp : splice ({ array := a, off := 0, len := len val } : Slice)
      (List.replicate (len val) (0 : Byte)) (copy (List.replicate (len val) 0) d) = d := by
    have := splice_whole a (List.replicate (len val) (0 : Byte))
      (copy (List.replicate (len val) 0) d)
    rw [List.length_replicate] at this
    rw [this]
    have hc := copy_makeBytes d
    rw [hlen] at hc
    exact hc
  simp only [copyBytes, hval, hget, hw, hsp]

theorem loadBytes_fresh (m : Heap) (a : Nat) (d : Bytes) (n : Nat) (hn : d.length = n)
    (hget : m[a]? = some (.bytes d)) :
    loadBytes m (some { array := a, off := 0, len := n }) = some d := by
  subst hn
  simp only [loadBytes, hget]
  exact window_whole a d

theorem mem_sealsAddrs_of_entry (m : Heap) (src : Option Slice) (es : List (Option Slice))
    (hes : sealEntries m src = some es) (j : Nat) (e : Option Slice) (he : es[j]? = some e)
    (a : Nat) (ha : a ∈ sliceAddrs e) : a ∈ sealsAddrs m src := by
  simp only [sealsAddrs, hes, Option.getD_some, List.mem_append, List.mem_flatten,
    List.mem_map]
  exact Or.inr ⟨sliceAddrs e, ⟨e, List.getElem?_mem he, rfl⟩, ha⟩

/-- The loop of `CopyHeader` over a list of seals fills the new array, entry by entry,
with new slices of the content of the entries of the header. -/
theorem copySealLoop_spec (m0 : Heap) (src : Option Slice) (es : List (Option Slice))
    (ds : List Bytes) (A n : Nat) (hes : sealEntries m0 src = some es) (hn : es.length = n)
    (hds : traverse (loadBytes m0) es = some ds) (hlive : ∀ a ∈ sealsAddrs m0 src, a < A)
    (k : Nat) :
    ∀ (i : Nat) (m : Heap), i + k = n → (∀ a, a < A → m[a]? = m0[a]?) → A < m.length →
      (∃ arr, m[A]? = some (.seals arr) ∧ arr.length = n ∧
        ∀ j, j < i → ∃ s d, arr[j]? = some (some s) ∧ ds[j]? = some d ∧
          loadBytes m (some s) = some d ∧ A < s.array ∧ s.array < m.length) →
      ∃ m1, copySealLoop src { array := A, off := 0, len := n } k i m = some m1 ∧
        (∀ a, a < A → m1[a]? = m0[a]?) ∧ A < m1.length ∧
        ∃ arr, m1[A]? = some (.seals arr) ∧ arr.length = n ∧
          ∀ j, j < n → ∃ s d, arr[j]? = some (some s) ∧ ds[j]? = some d ∧
            loadBytes m1 (some s) = some d ∧ A < s.array ∧ s.array < m1.length := by
  obtain ⟨hdl, hdp⟩ := traverse_lookup _ _ _ hds
  induction k with
  | zero =>
    intro i m hik hag hA harr
    refine ⟨m, rfl, hag, hA, ?_⟩
    obtain ⟨arr, h1, h2, h3⟩ := harr
    refine ⟨arr, h1, h2, ?_⟩
    intro j hj
    exact h3 j (by omega)
  | succ k ih =>
    intro i m hik hag hA harr
    obtain ⟨arr, harrget, harrlen, harrp⟩ := harr
    have hi : i < es.length := by omega
    have hval : es[i]? = some es[i] := List.getElem?_eq_getElem hi
    obtain ⟨d, hdi, hld⟩ := hdp i _ hval
    have hsrcm : ∀ (mm : Heap), (∀ a, a < A → mm[a]? = m0[a]?) →
        sealEntries mm src = some es ∧ loadBytes mm es[i] = some d := by
      intro mm hmm
      constructor
      · rw [← hes]
        apply sealEntries_congr
        intro a ha
        exact hmm a (hlive a (by simp [sealsAddrs, ha]))
      · rw [← hld]
        apply loadBytes_congr
        intro a ha
        exact hmm a (hlive a (mem_sealsAddrs_of_entry m0 src es hes i _ hval a ha))
    have hdlen : d.length = len es[i] := loadBytes_length m0 _ d hld
    let m1 := (makeByteSlice m (len es[i])).1
    have hm1len : m1.length = m.length + 1 := length_alloc m _
    have hm1lt : ∀ a, a < m.length → m1[a]? = m[a]? := fun a ha => lookup_alloc_lt m _ a ha
    have hm1new : m1[m.length]? = some (.bytes (List.replicate (len es[i]) 0)) :=
      lookup_alloc_self m _
    let m2 := m1.set A (.seals (arr.set i (some { array := m.length, off := 0, len := len es[i] })))
    have hm2len : m2.length = m.length + 1 := by
      show (m1.set A _).length = _
      rw [List.length_set]
      exact hm1len
    have hm2A : m2[A]? = some (.seals (arr.set i
        (some { array := m.length, off := 0, len := len es[i] }))) :=
      List.getElem?_set_self (by omega)
    have hm2ne : ∀ a, a ≠ A → m2[a]? = m1[a]? := fun a ha =>
      List.getElem?_set_ne (fun hc => ha hc.symm)
    have hstore : storeSeal m1 (some { array := A, off := 0, len := n }) i
        (some { array := m.length, off := 0, len := len es[i] }) = m2 := by
      have h1A : m1[A]? = some (.seals arr) := by
        rw [hm1lt A hA]
        exact harrget
      simp only [storeSeal, h1A, Nat.zero_add]
      rw [if_pos (by omega)]
    let m3 := m2.set m.length (.bytes d)
    have hm3len : m3.length = m.length + 1 := by
      show (m2.set _ _).length = _
      rw [List.length_set]
      exact hm2len
    have hm3new : m3[m.length]? = some (.bytes d) := List.getElem?_set_self (by omega)
    have hm3ne : ∀ a, a ≠ m.length → m3[a]? = m2[a]? := fun a ha =>
      List.getElem?_set_ne (fun hc => ha hc.symm)
    have hm2low : ∀ a, a < A → m2[a]? = m0[a]? := by
      intro a ha
      rw [hm2ne a (by omega), hm1lt a (by omega)]
      exact hag a ha
    have hcopy : copyBytes m2 { array := m.length, off := 0, len := len es[i] } es[i]
        = some m3 := by
      apply copyBytes_fresh m2 m.length es[i] d (hsrcm m2 hm2low).2
      rw [hm2ne _ (by omega)]
      exact hm1new
    have hm3low : ∀ a, a < A → m3[a]? = m0[a]? := by
      intro a ha
      rw [hm3ne a (by omega)]
      exact hm2low a ha
    have hstep : copySealLoop src { array := A, off := 0, len := n } (k + 1) i m
        = copySealLoop src { array := A, off := 0, len := n } k (i + 1) m3 := by
      have hent : ((sealEntries m src).bind fun entries => entries[i]?) = some es[i] := by
        rw [(hsrcm m hag).1]
        exact hval
      simp only [copySealLoop, hent]
      show (match copyBytes (storeSeal m1 (some { array := A, off := 0, len := n }) i
          (some { array := m.length, off := 0, len := len es[i] }))
          { array := m.length, off := 0, len := len es[i] } es[i] with
        | none => none
        | some m3 => copySealLoop src { array := A, off := 0, len := n } k (i + 1) m3) = _
      rw [hstore, hcopy]
    rw [hstep]
    apply ih (i + 1) m3 (by omega) hm3low (by omega)
    refine ⟨arr.set i (some { array := m.length, off := 0, len := len es[i] }), ?_, ?_, ?_⟩
    · rw [hm3ne A (by omega)]
      exact hm2A
    · rw [List.length_set]
      exact harrlen
    · intro j hj
      by_cases hji : j = i
      · subst hji
        refine ⟨{ array := m.length, off := 0, len := len es[j] }, d, ?_, hdi, ?_, hA, ?_⟩
        · exact List.getElem?_set_self (by omega)
        · exact loadBytes_fresh m3 m.length d _ hdlen hm3new
        · show m.length < m3.length
          omega
      · obtain ⟨s, dj, hs, hdj, hls, hsA, hsm⟩ := harrp j (by omega)
        refine ⟨s, dj, ?_, hdj, ?_, hsA, by omega⟩
        · rw [List.getElem?_set_ne (fun hc => hji hc.symm)]
          exact hs
        · rw [← hls]
          apply loadBytes_congr
          intro a ha
          simp only [sliceAddrs, List.mem_singleton] at ha
          subst ha
          rw [hm3ne _ (by omega), hm2ne _ (by omega)]
          exact hm1lt _ hsm


theorem traverse_live {α β : Type} (f : α → Option β) (l : List α) (r : List β)
    (h : traverse f l = some r) : ∀ x ∈ l, ∃ y, f x = some y := by
  intro x hx
  obtain ⟨j, hj⟩ := List.mem_iff_getElem?.1 hx
  obtain ⟨y, _, hy⟩ := (traverse_lookup f l r h).2 j x hj
  exact ⟨y, hy⟩

theorem sealEntries_length (m : Heap) (s : Option Slice) (es : List (Option Slice))
    (h : sealEntries m s = some es) : es.length = len s := by
  cases s with
  | none =>
    simp only [sealEntries, Option.some.injEq] at h
    rw [← h]
    rfl
  | some sl =>
    simp only [sealEntries] at h
    split at h
    · exact window_length _ _ _ h
    · cases h

theorem loadSeals_live (m : Heap) (s : Option Slice) (ss : List Bytes)
    (h : loadSeals m s = some ss) : ∀ a ∈ sealsAddrs m s, a < m.length := by
  unfold loadSeals at h
  cases hes : sealEntries m s with
  | none => simp [hes] at h
  | some es =>
    rw [hes] at h
    simp only at h
    intro a ha
    simp only [sealsAddrs, hes, Option.getD_some, List.mem_append, List.mem_flatten,
      List.mem_map] at ha
    rcases ha with ha | ⟨l, ⟨e, he, hl⟩, hal⟩
    · cases s with
      | none => simp [sliceAddrs] at ha
      | some sl =>
        simp only [sliceAddrs, List.mem_singleton] at ha
        subst ha
        simp only [sealEntries] at hes
        split at hes
        · rename_i all hget
          exact lt_length_of_lookup hget
        · cases hes
    · obtain ⟨d, hd⟩ := traverse_live _ _ _ h e he
      rw [← hl] at hal
      exact loadBytes_live m e d hd a hal

/-- The copy of a `[][]byte` that `CopyHeader` makes is a new slice of new slices, of the
same content. -/
theorem copySealSlice_load (m : Heap) (src : Option Slice) (ss : List Bytes)
    (h : loadSeals m src = some ss) :
    ∃ m1 s, copySealSlice m src = some (m1, s) ∧ loadSeals m1 (some s) = some ss ∧
      ∀ a ∈ sealsAddrs m1 (some s), a < m1.length := by
  have hlive := loadSeals_live m src ss h
  unfold loadSeals at h
  cases hes : sealEntries m src with
  | none => simp [hes] at h
  | some es =>
    rw [hes] at h
    simp only at h
    have heslen := sealEntries_length m src es hes
    by_cases hpos : len src > 0
    · let ma := (makeSealSlice m 0).1
      have hmalen : ma.length = m.length + 1 := length_alloc m _
      have hma : ∀ a, a < m.length → ma[a]? = m[a]? := fun a ha => lookup_alloc_lt m _ a ha
      let mb := (makeSealSlice ma (len src)).1
      have hmblen : mb.length = ma.length + 1 := length_alloc ma _
      have hmb : ∀ a, a < ma.length → mb[a]? = ma[a]? := fun a ha => lookup_alloc_lt ma _ a ha
      have hmbA : mb[ma.length]? = some (.seals (List.replicate (len src) none)) :=
        lookup_alloc_self ma _
      have hes2 : sealEntries ma src = some es := by
        rw [← hes]
        apply sealEntries_congr
        intro a ha
        exact hma a (hlive a (by simp [sealsAddrs, ha]))
      have hds2 : traverse (loadBytes ma) es = some ss := by
        rw [← h]
        apply traverse_congr
        intro e he
        apply loadBytes_congr
        intro a ha
        obtain ⟨j, hj⟩ := List.mem_iff_getElem?.1 he
        exact hma a (hlive a (mem_sealsAddrs_of_entry m src es hes j e hj a ha))
      have hlive2 : ∀ a ∈ sealsAddrs ma src, a < ma.length := by
        intro a ha
        have heq : sealsAddrs ma src = sealsAddrs m src :=
          sealsAddrs_congr m ma src (fun b hb => hma b (hlive b hb))
        rw [heq] at ha
        have := hlive a ha
        omega
      obtain ⟨m1, hloop, _, hA, arr, harr, harrlen, harrp⟩ :=
        copySealLoop_spec ma src es ss ma.length (len src) hes2 heslen hds2 hlive2 (len src)
          0 mb (by omega) hmb (by omega)
          ⟨List.replicate (len src) none, hmbA, List.length_replicate _ _,
            fun j hj => absurd hj (by omega)⟩
      have hent : sealEntries m1 (some { array := ma.length, off := 0, len := len src })
          = some arr := by
        simp only [sealEntries, harr]
        have := window_whole ma.length arr
        rw [harrlen] at this
        exact this
      refine ⟨m1, { array := ma.length, off := 0, len := len src }, ?_, ?_, ?_⟩
      · simp only [copySealSlice, hpos, if_true]
        show (match copySealLoop src { array := ma.length, off := 0, len := len src }
            (len src) 0 mb with
          | none => none
          | some m3 => some (m3, ({ array := ma.length, off := 0, len := len src } : Slice)))
          = _
        rw [hloop]
      · simp only [loadSeals, hent]
        apply traverse_of_lookup
        · rw [harrlen, (traverse_lookup _ _ _ h).1, heslen]
        · intro j hj
          obtain ⟨s, d, h1, h2, h3, _, _⟩ := harrp j (by omega)
          exact ⟨some s, d, h1, h2, h3⟩
      · intro a ha
        simp only [sealsAddrs, hent, Option.getD_some, List.mem_append, List.mem_flatten,
          List.mem_map] at ha
        rcases ha with ha | ⟨l, ⟨e, he, hl⟩, hal⟩
        · simp only [sliceAddrs, List.mem_singleton] at ha
          rw [ha]
          exact hA
        · obtain ⟨j, hj⟩ := List.mem_iff_getElem?.1 he
          have hjlt : j < arr.length := lt_length_of_lookup hj
          obtain ⟨s, d, h1, _, _, _, h5⟩ := harrp j (by omega)
          rw [h1] at hj
          simp only [Option.some.injEq] at hj
          rw [← hl, ← hj] at hal
          simp only [sliceAddrs, List.mem_singleton] at hal
          rw [hal]
          exact h5
    · have hesnil : es = [] := List.eq_nil_of_length_eq_zero (by omega)
      subst hesnil
      simp only [traverse, Option.some.injEq] at h
      subst h
      have hget : (makeSealSlice m 0).1[m.length]? = some (.seals []) := lookup_alloc_self m _
      have hent : sealEntries (makeSealSlice m 0).1 (some (makeSealSlice m 0).2) = some [] := by
        have hget2 : (alloc m (.seals (List.replicate 0 none))).1[m.length]?
            = some (.seals []) := hget
        simp only [sealEntries, makeSealSlice, hget2]
        rfl
      refine ⟨(makeSealSlice m 0).1, (makeSealSlice m 0).2, ?_, ?_, ?_⟩
      · simp only [copySealSlice, hpos, if_false]
      · simp only [loadSeals, hent, traverse]
      · intro a ha
        simp only [sealsAddrs, hent, Option.getD_some, List.map_nil, List.flatten_nil,
          List.append_nil, sliceAddrs, List.mem_singleton] at ha
        rw [ha]
        show m.length < (alloc m _).1.length
        rw [length_alloc]
        omega


theorem memberEntries_length (m : Heap) (s : Option Slice) (es : List Member)
    (h : memberEntries m s = some es) : es.length = len s := by
  cases s with
  | none =>
    simp only [memberEntries, Option.some.injEq] at h
    rw [← h]
    rfl
  | some sl =>
    simp only [memberEntries] at h
    split at h
    · exact window_length _ _ _ h
    · cases h

theorem mem_committeeAddrs_of_entry (m : Heap) (src : Option Slice) (es : List Member)
    (hes : memberEntries m src = some es) (j : Nat) (e : Member) (he : es[j]? = some e)
    (a : Nat) (ha : a ∈ ptrAddrs e.VotingPower) : a ∈ committeeAddrs m src := by
  simp only [committeeAddrs, hes, Option.getD_some, List.mem_append, List.mem_flatten,
    List.mem_map]
  exact Or.inr ⟨ptrAddrs e.VotingPower, ⟨e, List.getElem?_mem he, rfl⟩, ha⟩

theorem loadMember_live (m : Heap) (e : Member) (c : CommitteeMember)
    (h : loadMember m e = some c) : ∀ a ∈ ptrAddrs e.VotingPower, a < m.length := by
  unfold loadMember at h
  cases hv : loadBigInt m e.VotingPower with
  | none => simp [hv] at h
  | some v => exact loadBigInt_live m _ v hv

theorem loadCommittee_live (m : Heap) (s : Option Slice) (c : Committee)
    (h : loadCommittee m s = some c) : ∀ a ∈ committeeAddrs m s, a < m.length := by
  unfold loadCommittee at h
  cases hes : memberEntries m s with
  | none => simp [hes] at h
  | some es =>
    rw [hes] at h
    simp only at h
    intro a ha
    simp only [committeeAddrs, hes, Option.getD_some, List.mem_append, List.mem_flatten,
      List.mem_map] at ha
    rcases ha with ha | ⟨l, ⟨e, he, hl⟩, hal⟩
    · cases s with
      | none => simp [sliceAddrs] at ha
      | some sl =>
        simp only [sliceAddrs, List.mem_singleton] at ha
        subst ha
        simp only [memberEntries] at hes
        split at hes
        · rename_i all hget
          exact lt_length_of_lookup hget
        · cases hes
    · obtain ⟨d, hd⟩ := traverse_live _ _ _ h e he
      rw [← hl] at hal
      exact loadMember_live m e d hd a hal

theorem loadMember_congr (m1 m2 : Heap) (e : Member)
    (h : ∀ a ∈ ptrAddrs e.VotingPower, m2[a]? = m1[a]?) :
    loadMember m2 e = loadMember m1 e := by
  simp only [loadMember, loadBigInt_congr m1 m2 e.VotingPower h]

/-- A member with a voting power reads as its address and the integer its pointer
points to. -/
theorem loadMember_some (m : Heap) (e : Member) (c : CommitteeMember)
    (h : loadMember m e = some c) (hp : c.VotingPower ≠ none) :
    ∃ p v, e.VotingPower = some p ∧ m[p]? = some (.bigInt v) ∧
      c = { Address := e.Address, VotingPower := some v } := by
  unfold loadMember at h
  cases hv : loadBigInt m e.VotingPower with
  | none => simp [hv] at h
  | some w =>
    rw [hv] at h
    simp only [Option.some.injEq] at h
    subst h
    cases hep : e.VotingPower with
    | none =>
      rw [hep] at hv
      simp only [loadBigInt, Option.some.injEq] at hv
      subst hv
      exact absurd rfl hp
    | some p =>
      rw [hep] at hv
      simp only [loadBigInt] at hv
      split at hv
      · rename_i v hget
        simp only [Option.some.injEq] at hv
        subst hv
        exact ⟨p, v, rfl, hget, rfl⟩
      · cases hv

/-- The loop of `CopyHeader` over the committee fills the new array, entry by entry,
with the address of the member of the header and a new integer of its voting power. -/
theorem copyMemberLoop_spec (m0 : Heap) (src : Option Slice) (es : List Member)
    (cs : Committee) (A n : Nat) (hes : memberEntries m0 src = some es) (hn : es.length = n)
    (hc : traverse (loadMember m0) es = some cs) (hpow : ∀ x ∈ cs, x.VotingPower ≠ none)
    (hlive : ∀ a ∈ committeeAddrs m0 src, a < A) (k : Nat) :
    ∀ (i : Nat) (m : Heap), i + k = n → (∀ a, a < A → m[a]? = m0[a]?) → A < m.length →
      (∃ arr, m[A]? = some (.members arr) ∧ arr.length = n ∧
        ∀ j, j < i → ∃ e x, arr[j]? = some e ∧ cs[j]? = some x ∧
          loadMember m e = some x ∧ ∀ a ∈ ptrAddrs e.VotingPower, A < a ∧ a < m.length) →
      ∃ m1, copyMemberLoop src { array := A, off := 0, len := n } k i m = some m1 ∧
        (∀ a, a < A → m1[a]? = m0[a]?) ∧ A < m1.length ∧
        ∃ arr, m1[A]? = some (.members arr) ∧ arr.length = n ∧
          ∀ j, j < n → ∃ e x, arr[j]? = some e ∧ cs[j]? = some x ∧
            loadMember m1 e = some x ∧
            ∀ a ∈ ptrAddrs e.VotingPower, A < a ∧ a < m1.length := by
  obtain ⟨hcl, hcp⟩ := traverse_lookup _ _ _ hc
  induction k with
  | zero =>
    intro i m hik hag hA harr
    refine ⟨m, rfl, hag, hA, ?_⟩
    obtain ⟨arr, h1, h2, h3⟩ := harr
    refine ⟨arr, h1, h2, ?_⟩
    intro j hj
    exact h3 j (by omega)
  | succ k ih =>
    intro i m hik hag hA harr
    obtain ⟨arr, harrget, harrlen, harrp⟩ := harr
    have hi : i < es.length := by omega
    have hval : es[i]? = some es[i] := List.getElem?_eq_getElem hi
    obtain ⟨x, hxi, hlx⟩ := hcp i _ hval
    have hxp : x.VotingPower ≠ none := hpow x (List.getElem?_mem hxi)
    obtain ⟨p, v, hep, hpget, hxeq⟩ := loadMember_some m0 es[i] x hlx hxp
    have hpA : p < A :=
      hlive p (mem_committeeAddrs_of_entry m0 src es hes i _ hval p (by simp [hep, ptrAddrs]))
    have hsrcm : memberEntries m src = some es := by
      rw [← hes]
      apply memberEntries_congr
      intro a ha
      exact hag a (hlive a (by simp [committeeAddrs, ha]))
    let m1 := (alloc m (.bigInt 0)).1
    have hm1len : m1.length = m.length + 1 := length_alloc m _
    have hm1lt : ∀ a, a < m.length → m1[a]? = m[a]? := fun a ha => lookup_alloc_lt m _ a ha
    have hm1new : m1[m.length]? = some (.bigInt 0) := lookup_alloc_self m _
    let m2 := m1.set m.length (.bigInt v)
    have hm2len : m2.length = m.length + 1 := by
      show (m1.set _ _).length = _
      rw [List.length_set]
      exact hm1len
    have hm2new : m2[m.length]? = some (.bigInt v) := List.getElem?_set_self (by omega)
    have hm2ne : ∀ a, a ≠ m.length → m2[a]? = m1[a]? := fun a ha =>
      List.getElem?_set_ne (fun hc => ha hc.symm)
    have hset : setBigInt m1 m.length es[i].VotingPower = some m2 := by
      have h1p : m1[p]? = some (.bigInt v) := by
        rw [hm1lt p (by omega), hag p hpA]
        exact hpget
      simp only [setBigInt, hep, h1p, hm1new]
    let m3 := m2.set A (.members (arr.set i
      { Address := es[i].Address, VotingPower := some m.length }))
    have hm3len : m3.length = m.length + 1 := by
      show (m2.set _ _).length = _
      rw [List.length_set]
      exact hm2len
    have hm3A : m3[A]? = some (.members (arr.set i
        { Address := es[i].Address, VotingPower := some m.length })) :=
      List.getElem?_set_self (by omega)
    have hm3ne : ∀ a, a ≠ A → m3[a]? = m2[a]? := fun a ha =>
      List.getElem?_set_ne (fun hc => ha hc.symm)
    have hstore : storeMember m2 (some { array := A, off := 0, len := n }) i
        { Address := es[i].Address, VotingPower := some m.length } = m3 := by
      have h2A : m2[A]? = some (.members arr) := by
        rw [hm2ne A (by omega), hm1lt A hA]
        exact harrget
      simp only [storeMember, h2A, Nat.zero_add]
      rw [if_pos (by omega)]
    have hm3low : ∀ a, a < A → m3[a]? = m0[a]? := by
      intro a ha
      rw [hm3ne a (by omega), hm2ne a (by omega), hm1lt a (by omega)]
      exact hag a ha
    have hstep : copyMemberLoop src { array := A, off := 0, len := n } (k + 1) i m
        = copyMemberLoop src { array := A, off := 0, len := n } k (i + 1) m3 := by
      have hent : ((memberEntries m src).bind fun entries => entries[i]?) = some es[i] := by
        rw [hsrcm]
        exact hval
      simp only [copyMemberLoop, hent]
      show (match setBigInt m1 m.length es[i].VotingPower with
        | none => none
        | some m2 => copyMemberLoop src { array := A, off := 0, len := n } k (i + 1)
            (storeMember m2 (some { array := A, off := 0, len := n }) i
              { Address := es[i].Address, VotingPower := some m.length })) = _
      rw [hset]
      simp only
      rw [hstore]
    rw [hstep]
    apply ih (i + 1) m3 (by omega) hm3low (by omega)
    refine ⟨arr.set i { Address := es[i].Address, VotingPower := some m.length }, hm3A, ?_, ?_⟩
    · rw [List.length_set]
      exact harrlen
    · intro j hj
      by_cases hji : j = i
      · subst hji
        refine ⟨{ Address := es[j].Address, VotingPower := some m.length }, x, ?_, hxi, ?_, ?_⟩
        · exact List.getElem?_set_self (by omega)
        · have h3new : m3[m.length]? = some (.bigInt v) := by
            rw [hm3ne _ (by omega)]
            exact hm2new
          simp only [loadMember, loadBigInt, h3new, hxeq]
        · intro a ha
          simp only [ptrAddrs, List.mem_singleton] at ha
          subst ha
          exact ⟨hA, by omega⟩
      · obtain ⟨e, y, he, hy, hle, hptr⟩ := harrp j (by omega)
        refine ⟨e, y, ?_, hy, ?_, ?_⟩
        · rw [List.getElem?_set_ne (fun hc => hji hc.symm)]
          exact he
        · rw [← hle]
          apply loadMember_congr
          intro a ha
          have := hptr a ha
          rw [hm3ne _ (by omega), hm2ne _ (by omega)]
          exact hm1lt _ this.2
        · intro a ha
          have := hptr a ha
          exact ⟨this.1, by omega⟩

/-- The copy of the committee that `CopyHeader` makes, for members that all have a
voting power, is a new slice of members with new integers, of the same content. -/
theorem copyMemberSlice_load (m : Heap) (src : Option Slice) (c : Committee)
    (h : loadCommittee m src = some c) (hpow : ∀ x ∈ c, x.VotingPower ≠ none) :
    ∃ m1 s, copyMemberSlice m src = some (m1, s) ∧ loadCommittee m1 (some s) = some c ∧
      ∀ a ∈ committeeAddrs m1 (some s), a < m1.length := by
  have hlive := loadCommittee_live m src c h
  unfold loadCommittee at h
  cases hes : memberEntries m src with
  | none => simp [hes] at h
  | some es =>
    rw [hes] at h
    simp only at h
    have heslen := memberEntries_length m src es hes
    by_cases hpos : len src > 0
    · let ma := (makeMemberSlice m 0).1
      have hmalen : ma.length = m.length + 1 := length_alloc m _
      have hma : ∀ a, a < m.length → ma[a]? = m[a]? := fun a ha => lookup_alloc_lt m _ a ha
      let mb := (makeMemberSlice ma (len src)).1
      have hmblen : mb.length = ma.length + 1 := length_alloc ma _
      have hmb : ∀ a, a < ma.length → mb[a]? = ma[a]? := fun a ha => lookup_alloc_lt ma _ a ha
      have hmbA : mb[ma.length]? = some (.members (List.replicate (len src)
          { Address := FixedBytes.zero 20, VotingPower := none })) :=
        lookup_alloc_self ma _
      have hes2 : memberEntries ma src = some es := by
        rw [← hes]
        apply memberEntries_congr
        intro a ha
        exact hma a (hlive a (by simp [committeeAddrs, ha]))
      have hc2 : traverse (loadMember ma) es = some c := by
        rw [← h]
        apply traverse_congr
        intro e he
        apply loadMember_congr
        intro a ha
        obtain ⟨j, hj⟩ := List.mem_iff_getElem?.1 he
        exact hma a (hlive a (mem_committeeAddrs_of_entry m src es hes j e hj a ha))
      have hlive2 : ∀ a ∈ committeeAddrs ma src, a < ma.length := by
        intro a ha
        have heq : committeeAddrs ma src = committeeAddrs m src :=
          committeeAddrs_congr m ma src (fun b hb => hma b (hlive b hb))
        rw [heq] at ha
        have := hlive a ha
        omega
      obtain ⟨m1, hloop, _, hA, arr, harr, harrlen, harrp⟩ :=
        copyMemberLoop_spec ma src es c ma.length (len src) hes2 heslen hc2 hpow hlive2
          (len src) 0 mb (by omega) hmb (by omega)
          ⟨_, hmbA, List.length_replicate _ _, fun j hj => absurd hj (by omega)⟩
      have hent : memberEntries m1 (some { array := ma.length, off := 0, len := len src })
          = some arr := by
        simp only [memberEntries, harr]
        have := window_whole ma.length arr
        rw [harrlen] at this
        exact this
      refine ⟨m1, { array := ma.length, off := 0, len := len src }, ?_, ?_, ?_⟩
      · simp only [copyMemberSlice, hpos, if_true]
        show (match copyMemberLoop src { array := ma.length, off := 0, len := len src }
            (len src) 0 mb with
          | none => none
          | some m3 => some (m3, ({ array := ma.length, off := 0, len := len src } : Slice)))
          = _
        rw [hloop]
      · simp only [loadCommittee, hent]
        apply traverse_of_lookup
        · rw [harrlen, (traverse_lookup _ _ _ h).1, heslen]
        · intro j hj
          obtain ⟨e, x, h1, h2, h3, _⟩ := harrp j (by omega)
          exact ⟨e, x, h1, h2, h3⟩
      · intro a ha
        simp only [committeeAddrs, hent, Option.getD_some, List.mem_append, List.mem_flatten,
          List.mem_map] at ha
        rcases ha with ha | ⟨l, ⟨e, he, hl⟩, hal⟩
        · simp only [sliceAddrs, List.mem_singleton] at ha
          rw [ha]
          exact hA
        · obtain ⟨j, hj⟩ := List.mem_iff_getElem?.1 he
          have hjlt : j < arr.length := lt_length_of_lookup hj
          obtain ⟨e2, x, h1, _, _, h4⟩ := harrp j (by omega)
          rw [h1] at hj
          simp only [Option.some.injEq] at hj
          rw [← hl, ← hj] at hal
          exact (h4 a hal).2
    · have hesnil : es = [] := List.eq_nil_of_length_eq_zero (by omega)
      subst hesnil
      simp only [traverse, Option.some.injEq] at h
      subst h
      have hget : (alloc m (.members (List.replicate 0
          { Address := FixedBytes.zero 20, VotingPower := none }))).1[m.length]?
          = some (.members []) := lookup_alloc_self m _
      have hent : memberEntries (makeMemberSlice m 0).1 (some (makeMemberSlice m 0).2)
          = some [] := by
        simp only [memberEntries, makeMemberSlice, hget]
        rfl
      refine ⟨(makeMemberSlice m 0).1, (makeMemberSlice m 0).2, ?_, ?_, ?_⟩
      · simp only [copyMemberSlice, hpos, if_false]
      · simp only [loadCommittee, hent, traverse]
      · intro a ha
        simp only [committeeAddrs, hent, Option.getD_some, List.map_nil, List.flatten_nil,
          List.append_nil, sliceAddrs, List.mem_singleton] at ha
        rw [ha]
        show m.length < (alloc m _).1.length
        rw [length_alloc]
        omega


theorem Extends.trans {m1 m2 m3 : Heap} (h12 : Extends m1 m2) (h23 : Extends m2 m3) :
    Extends m1 m3 := by
  refine ⟨Nat.le_trans h12.1 h23.1, ?_⟩
  intro a ha
  rw [h23.2 a (Nat.lt_of_lt_of_le ha h12.1)]
  exact h12.2 a ha

theorem Extends.of_grown {m m1 : Heap} (h : Grown m.length m m1) : Extends m m1 :=
  ⟨h.1, h.2.1⟩

theorem Extends.loadBigInt {m m1 : Heap} (he : Extends m m1) (p : Option Nat)
    (hlive : ∀ a ∈ ptrAddrs p, a < m.length) : Mem.loadBigInt m1 p = Mem.loadBigInt m p :=
  loadBigInt_congr m m1 p (fun a ha => he.2 a (hlive a ha))

theorem Extends.loadBytes {m m1 : Heap} (he : Extends m m1) (s : Option Slice)
    (hlive : ∀ a ∈ sliceAddrs s, a < m.length) : Mem.loadBytes m1 s = Mem.loadBytes m s :=
  loadBytes_congr m m1 s (fun a ha => he.2 a (hlive a ha))

theorem Extends.loadSeals {m m1 : Heap} (he : Extends m m1) (s : Option Slice)
    (hlive : ∀ a ∈ sealsAddrs m s, a < m.length) : Mem.loadSeals m1 s = Mem.loadSeals m s :=
  loadSeals_congr m m1 s (fun a ha => he.2 a (hlive a ha))

theorem Extends.loadCommittee {m m1 : Heap} (he : Extends m m1) (s : Option Slice)
    (hlive : ∀ a ∈ committeeAddrs m s, a < m.length) :
    Mem.loadCommittee m1 s = Mem.loadCommittee m s :=
  loadCommittee_congr m m1 s (fun a ha => he.2 a (hlive a ha))

end Mem

/-- The function `CopyHeader` in memory does what `CopyHeader` by value says: on a header
that reads as `H` in the store, with a voting power for every member of the committee, it
returns, and the header it returns reads as `CopyHeader H` in the store it leaves, while
the header it was given reads as `H` as before. -/
theorem CopyHeader_store_refines (m : Mem.Heap) (h : Mem.HeaderRef) (H : Header)
    (hload : Mem.load m h = some H) (hpow : ∀ x ∈ H.Committee, x.VotingPower ≠ none) :
    ∃ m1 c, Mem.CopyHeader m h = some (m1, c) ∧ Mem.load m1 c = CopyHeader H ∧
      Mem.load m1 h = some H := by
  -- what the fields of the header read as
  have hfields : Mem.loadBigInt m h.Difficulty = some H.Difficulty ∧
      Mem.loadBigInt m h.Number = some H.Number ∧
      Mem.loadBytes m h.Extra = some H.Extra ∧
      Mem.loadCommittee m h.Committee = some H.Committee ∧
      Mem.loadBytes m h.ProposerSeal = some H.ProposerSeal ∧
      Mem.loadSeals m h.CommittedSeals = some H.CommittedSeals ∧
      Mem.loadSeals m h.PastCommittedSeals = some H.PastCommittedSeals := by
    unfold Mem.load at hload
    split at hload
    · rename_i d n e c p cs pcs h1 h2 h3 h4 h5 h6 h7
      simp only [Option.some.injEq] at hload
      subst hload
      exact ⟨h1, h2, h3, h4, h5, h6, h7⟩
    · cases hload
  obtain ⟨f1, f2, f3, f4, f5, f6, f7⟩ := hfields
  have l1 := Mem.loadBigInt_live m _ _ f1
  have l2 := Mem.loadBigInt_live m _ _ f2
  have l3 := Mem.loadBytes_live m _ _ f3
  have l4 := Mem.loadCommittee_live m _ _ f4
  have l5 := Mem.loadBytes_live m _ _ f5
  have l6 := Mem.loadSeals_live m _ _ f6
  have l7 := Mem.loadSeals_live m _ _ f7
  -- the seven copies, one after the other
  obtain ⟨m1, c1, r1, z1⟩ := Mem.copyBigInt_load m h.Difficulty H.Difficulty f1
  have e1 : Mem.Extends m m1 :=
    Mem.Extends.of_grown ((Mem.Grown.refl m).copyBigInt _ _ c1).1
  obtain ⟨m2, c2, r2, z2⟩ := Mem.copyBigInt_load m1 h.Number H.Number
    (by rw [e1.loadBigInt _ l2]; exact f2)
  have e2 : Mem.Extends m1 m2 :=
    Mem.Extends.of_grown ((Mem.Grown.refl m1).copyBigInt _ _ c2).1
  have e02 := e1.trans e2
  obtain ⟨m3, extra, c3, r3, z3⟩ := Mem.copyByteSlice_load m2 h.Extra H.Extra
    (by rw [e02.loadBytes _ l3]; exact f3)
  have e3 : Mem.Extends m2 m3 :=
    Mem.Extends.of_grown ((Mem.Grown.refl m2).copyByteSlice _ _ c3).1
  have e03 := e02.trans e3
  obtain ⟨m4, committee, c4, r4, z4⟩ := Mem.copyMemberSlice_load m3 h.Committee H.Committee
    (by rw [e03.loadCommittee _ l4]; exact f4) hpow
  have e4 : Mem.Extends m3 m4 :=
    Mem.Extends.of_grown ((Mem.Grown.refl m3).copyMemberSlice _ _ c4).1
  have e04 := e03.trans e4
  obtain ⟨m5, proposerSeal, c5, r5, z5⟩ :=
    Mem.copyByteSlice_load m4 h.ProposerSeal H.ProposerSeal
      (by rw [e04.loadBytes _ l5]; exact f5)
  have e5 : Mem.Extends m4 m5 :=
    Mem.Extends.of_grown ((Mem.Grown.refl m4).copyByteSlice _ _ c5).1
  have e05 := e04.trans e5
  obtain ⟨m6, committedSeals, c6, r6, z6⟩ :=
    Mem.copySealSlice_load m5 h.CommittedSeals H.CommittedSeals
      (by rw [e05.loadSeals _ l6]; exact f6)
  have e6 : Mem.Extends m5 m6 :=
    Mem.Extends.of_grown ((Mem.Grown.refl m5).copySealSlice _ _ c6).1
  have e06 := e05.trans e6
  obtain ⟨m7, pastCommittedSeals, c7, r7, z7⟩ :=
    Mem.copySealSlice_load m6 h.PastCommittedSeals H.PastCommittedSeals
      (by rw [e06.loadSeals _ l7]; exact f7)
  have e7 : Mem.Extends m6 m7 :=
    Mem.Extends.of_grown ((Mem.Grown.refl m6).copySealSlice _ _ c7).1
  have e07 := e06.trans e7
  -- every copy reads in the last store as in the store it was made in
  have e67 := e7
  have e57 := e6.trans e67
  have e47 := e5.trans e57
  have e37 := e4.trans e47
  have e27 := e3.trans e37
  have e17 := e2.trans e27
  have q1 : Mem.loadBigInt m7 (some m.length) = some (some (H.Difficulty.getD 0)) := by
    rw [e17.loadBigInt _ (by
      intro a ha
      simp only [Mem.ptrAddrs, List.mem_singleton] at ha
      rw [ha]
      exact z1)]
    exact r1
  have q2 : Mem.loadBigInt m7 (some m1.length) = some (some (H.Number.getD 0)) := by
    rw [e27.loadBigInt _ (by
      intro a ha
      simp only [Mem.ptrAddrs, List.mem_singleton] at ha
      rw [ha]
      exact z2)]
    exact r2
  have q3 : Mem.loadBytes m7 (some extra) = some H.Extra := by
    rw [e37.loadBytes _ (by
      intro a ha
      simp only [Mem.sliceAddrs, List.mem_singleton] at ha
      rw [ha]
      exact z3)]
    exact r3
  have q4 : Mem.loadCommittee m7 (some committee) = some H.Committee := by
    rw [e47.loadCommittee _ z4]
    exact r4
  have q5 : Mem.loadBytes m7 (some proposerSeal) = some H.ProposerSeal := by
    rw [e57.loadBytes _ (by
      intro a ha
      simp only [Mem.sliceAddrs, List.mem_singleton] at ha
      rw [ha]
      exact z5)]
    exact r5
  have q6 : Mem.loadSeals m7 (some committedSeals) = some H.CommittedSeals := by
    rw [e67.loadSeals _ z6]
    exact r6
  have q7 : Mem.loadSeals m7 (some pastCommittedSeals) = some H.PastCommittedSeals := r7
  have hH : H = { H with
      ParentHash := h.ParentHash, UncleHash := h.UncleHash, Coinbase := h.Coinbase,
      Root := h.Root, TxHash := h.TxHash, ReceiptHash := h.ReceiptHash, Bloom := h.Bloom,
      GasLimit := h.GasLimit, GasUsed := h.GasUsed, Time := h.Time,
      MixDigest := h.MixDigest, Nonce := h.Nonce, Round := h.Round } := by
    unfold Mem.load at hload
    split at hload
    · simp only [Option.some.injEq] at hload
      rw [← hload]
    · cases hload
  refine ⟨m7,
    { ParentHash := h.ParentHash, UncleHash := h.UncleHash, Coinbase := h.Coinbase,
      Root := h.Root, TxHash := h.TxHash, ReceiptHash := h.ReceiptHash, Bloom := h.Bloom,
      Difficulty := some m.length, Number := some m1.length, GasLimit := h.GasLimit,
      GasUsed := h.GasUsed, Time := h.Time, Extra := some extra, MixDigest := h.MixDigest,
      Nonce := h.Nonce, Committee := some committee, ProposerSeal := some proposerSeal,
      Round := h.Round, CommittedSeals := some committedSeals,
      PastCommittedSeals := some pastCommittedSeals }, ?_, ?_, ?_⟩
  · simp only [Mem.CopyHeader, c1, c2, c3, c4, c5, c6, c7]
  · simp only [Mem.load, q1, q2, q3, q4, q5, q6, q7]
    simp only [CopyHeader, copyCommittee_field H.Committee hpow, copyBytes_field,
      copySeals_field]
    rw [hH]
    cases H.Difficulty <;> cases H.Number <;> rfl
  · rw [← hload]
    apply Mem.load_congr
    intro a ha
    have hlive : a < m.length := by
      simp only [Mem.reach, List.mem_append] at ha
      rcases ha with (((((ha | ha) | ha) | ha) | ha) | ha) | ha
      · exact l1 a ha
      · exact l2 a ha
      · exact l3 a ha
      · exact l4 a ha
      · exact l5 a ha
      · exact l6 a ha
      · exact l7 a ha
    exact e07.2 a hlive

/-! # Legacy headers on the wire -/

/-- C11, counterexample: the mix digest of `exampleNilLegacyHeader` is not the BFT
digest and its difficulty is nil; its encoding decodes into a fresh header with
success, and the difficulty of the decoded header is 0, not nil. -/
theorem Header.decode_encode_legacy_nil :
    exampleNilLegacyHeader.MixDigest ≠ exampleDigest ∧
    exampleNilLegacyHeader.Difficulty = none ∧
    ∃ bs, exampleNilLegacyHeader.EncodeRLP exampleDigest = some bs ∧
      (Header.DecodeRLP exampleDigest Header.zeroValue bs).2 = some [] ∧
      (Header.DecodeRLP exampleDigest Header.zeroValue bs).1.Difficulty = some 0 :=
  ⟨by decide, rfl, _, rfl, by decide, by decide⟩

/-- C11: for a header `H` whose mix digest is not the BFT digest and whose encoding
`bs` exists and is shorter than 2^64 bytes, decoding `bs` into a fresh header consumes
all of it and gives the 15 legacy fields of `H`, `Extra` included, a nil difficulty or
number being read as 0, and BFT fields that are all empty, whatever they are in `H`. -/
theorem Header.decode_encode_legacy (BFTDigest : common.Hash) (H : Header) (bs : Bytes)
    (hmix : H.MixDigest ≠ BFTDigest) (henc : H.EncodeRLP BFTDigest = some bs)
    (hsz : bs.length < 2 ^ 64) :
    Header.DecodeRLP BFTDigest Header.zeroValue bs
      = ({ ParentHash := H.ParentHash, UncleHash := H.UncleHash, Coinbase := H.Coinbase,
           Root := H.Root, TxHash := H.TxHash, ReceiptHash := H.ReceiptHash,
           Bloom := H.Bloom, Difficulty := some (H.Difficulty.getD 0),
           Number := some (H.Number.getD 0), GasLimit := H.GasLimit, GasUsed := H.GasUsed,
           Time := H.Time, Extra := H.Extra, MixDigest := H.MixDigest, Nonce := H.Nonce,
           Committee := [], ProposerSeal := [], Round := 0, CommittedSeals := [],
           PastCommittedSeals := [] },
         some []) := by
  have h := Header.DecodeRLP_EncodeRLP_legacy BFTDigest Header.zeroValue H bs [] hmix henc hsz
  rw [List.append_nil] at h
  rw [h]
  rfl

/-- C11, an instance: `exampleLegacyHeader`, whose BFT fields are set, with the digest
`exampleDigest`. -/
theorem Header.decode_encode_legacy_witness :
    exampleLegacyHeader.ProposerSeal ≠ [] ∧
    ∃ bs, exampleLegacyHeader.EncodeRLP exampleDigest = some bs ∧
      Header.DecodeRLP exampleDigest Header.zeroValue bs
        = ({ exampleLegacyHeader with
              ProposerSeal := [], Round := 0, CommittedSeals := [] }, some []) :=
  ⟨by decide, _, rfl,
    Header.decode_encode_legacy exampleDigest exampleLegacyHeader _ (by decide) rfl
      (by decide)⟩

/-! # The hash cache of a block -/

/-- A call of `Block.Hash` leaves the returned hash in the cache. -/
theorem Block.Hash_cached {Tx : Type} (d : common.Hash) (k : Bytes → common.Hash)
    (b : Block Tx) : (b.Hash d k).2.hash = some (b.Hash d k).1 := by
  unfold Block.Hash
  cases h : b.hash <;> simp [h]

/-- On a block whose cache holds `v`, `Block.Hash` returns `v` and changes nothing. -/
theorem Block.Hash_of_cached {Tx : Type} (d : common.Hash) (k : Bytes → common.Hash)
    (b : Block Tx) (v : common.Hash) (h : b.hash = some v) : b.Hash d k = (v, b) := by
  unfold Block.Hash
  simp [h]

/-- On a block whose cache is empty, `Block.Hash` returns the hash of the header and
stores it. -/
theorem Block.Hash_of_empty {Tx : Type} (d : common.Hash) (k : Bytes → common.Hash)
    (b : Block Tx) (h : b.hash = none) :
    b.Hash d k = (b.header.Hash d k, { b with hash := some (b.header.Hash d k) }) := by
  unfold Block.Hash
  simp [h]

/-- On a block whose cache holds `v`, every one of `n` calls returns `v` and the block
is the same after them. -/
theorem Block.hashCalls_of_cached {Tx : Type} (d : common.Hash) (k : Bytes → common.Hash)
    (n : Nat) (b : Block Tx) (v : common.Hash) (h : b.hash = some v) :
    Block.hashCalls d k n b = (List.replicate n v, b) := by
  induction n with
  | zero => rfl
  | succ n ih =>
    simp only [Block.hashCalls, Block.Hash_of_cached d k b v h, ih, List.replicate_succ]

/-- C12: on a block whose cache holds a hash `v`, whatever the header of the block,
`Block.Hash` returns `v` and leaves the block as it is, so the stored hash is not
computed again and not overwritten; on a block whose cache is empty it returns
`Header.Hash` of the header of the block and stores it, changing nothing else; in both
cases the hash returned is in the cache after the call, and any `n` calls made after the
first one all return the hash the first one returned and leave the block as the first
call left it. -/
theorem Block.Hash_memoised {Tx : Type} (BFTDigest : common.Hash)
    (keccak256 : Bytes → common.Hash) (b : Block Tx) :
    (∀ v : common.Hash, b.hash = some v → b.Hash BFTDigest keccak256 = (v, b)) ∧
    (b.hash = none →
      (b.Hash BFTDigest keccak256).1 = b.header.Hash BFTDigest keccak256 ∧
      (b.Hash BFTDigest keccak256).2
        = { b with hash := some (b.header.Hash BFTDigest keccak256) }) ∧
    (b.Hash BFTDigest keccak256).2.hash = some (b.Hash BFTDigest keccak256).1 ∧
    ∀ n : Nat,
      Block.hashCalls BFTDigest keccak256 n (b.Hash BFTDigest keccak256).2
        = (List.replicate n (b.Hash BFTDigest keccak256).1,
            (b.Hash BFTDigest keccak256).2) := by
  refine ⟨fun v hv => Block.Hash_of_cached _ _ b v hv, fun h => ?_,
    Block.Hash_cached _ _ b, fun n => ?_⟩
  · rw [Block.Hash_of_empty _ _ b h]
    exact ⟨rfl, rfl⟩
  · exact Block.hashCalls_of_cached _ _ n _ _ (Block.Hash_cached _ _ b)

/-- C12, an instance: the cache of `exampleStaleBlock` holds a hash that is not the hash
of its header; `Block.Hash` returns the hash in the cache and leaves the block as it
is, and so do three calls one after the other. -/
theorem Block.Hash_memoised_witness :
    exampleStaleBlock.hash = some (exampleLegacyHeader.Hash exampleDigest exampleKeccak) ∧
    exampleLegacyHeader.Hash exampleDigest exampleKeccak
      ≠ exampleStaleBlock.header.Hash exampleDigest exampleKeccak ∧
    exampleStaleBlock.Hash exampleDigest exampleKeccak
      = (exampleLegacyHeader.Hash exampleDigest exampleKeccak, exampleStaleBlock) ∧
    Block.hashCalls exampleDigest exampleKeccak 3
        (exampleStaleBlock.Hash exampleDigest exampleKeccak).2
      = (List.replicate 3 (exampleStaleBlock.Hash exampleDigest exampleKeccak).1,
          (exampleStaleBlock.Hash exampleDigest exampleKeccak).2) :=
  ⟨rfl, by decide,
    (Block.Hash_memoised exampleDigest exampleKeccak exampleStaleBlock).1 _ rfl,
    (Block.Hash_memoised exampleDigest exampleKeccak exampleStaleBlock).2.2.2 3⟩

/-- C13: `b.WithSeal h` has the header `h`, the transactions and the uncles of `b` and
empty hash and size caches, and its `Hash` is `Header.Hash` of `h`, whatever the cache
of `b` holds. -/
theorem Block.WithSeal_spec {Tx : Type} (BFTDigest : common.Hash)
    (keccak256 : Bytes → common.Hash) (b : Block Tx) (h : Header) :
    (b.WithSeal h).header = h ∧
    (b.WithSeal h).transactions = b.transactions ∧
    (b.WithSeal h).uncles = b.uncles ∧
    (b.WithSeal h).hash = none ∧
    (b.WithSeal h).size = none ∧
    ((b.WithSeal h).Hash BFTDigest keccak256).1 = h.Hash BFTDigest keccak256 :=
  ⟨rfl, rfl, rfl, rfl, rfl, rfl⟩

/-- The block `exampleCachedBlock` has the hash of its header in the cache; sealed with
`exampleFullHeader`, whose hash is another one, its hash is that of the new header. -/
theorem Block.WithSeal_example :
    (exampleCachedBlock.Hash exampleDigest exampleKeccak).1
      = exampleLegacyHeader.Hash exampleDigest exampleKeccak ∧
    exampleFullHeader.Hash exampleDigest exampleKeccak
      ≠ exampleLegacyHeader.Hash exampleDigest exampleKeccak ∧
    ((exampleCachedBlock.WithSeal exampleFullHeader).Hash exampleDigest exampleKeccak).1
      = exampleFullHeader.Hash exampleDigest exampleKeccak := by
  refine ⟨rfl, by decide, rfl⟩

/-! # The decoder accepts canonical encodings only -/

theorem foldl_be_ge (bs : Bytes) (acc : Nat) :
    acc ≤ bs.foldl (fun a (b : Byte) => a * 256 + b.val) acc := by
  induction bs generalizing acc with
  | nil => exact Nat.le_refl _
  | cons b bs ih =>
    simp only [List.foldl_cons]
    exact Nat.le_trans (by omega) (ih _)

theorem beVal_cons_pos (b : Byte) (bs : Bytes) (h : b.val ≠ 0) : 0 < beVal (b :: bs) := by
  have := foldl_be_ge bs (0 * 256 + b.val)
  simp only [beVal, List.foldl_cons]
  omega

theorem leBytesAux_beVal (l : Bytes) :
    (∀ b bs, l = b :: bs → b.val ≠ 0) → ∀ fuel, beVal l ≤ fuel →
      leBytesAux fuel (beVal l) = l.reverse := by
  induction l using List.reverseRecOn with
  | nil =>
    intro _ fuel _
    rw [beVal_nil, leBytesAux_zero]
    rfl
  | append_singleton l x ih =>
    intro hhead fuel hfuel
    rw [beVal_append_singleton] at hfuel ⊢
    rw [List.reverse_append, List.reverse_singleton, List.singleton_append]
    have hpos : beVal l * 256 + x.val ≠ 0 := by
      cases l with
      | nil =>
        have := hhead x [] rfl
        simp only [beVal_nil]
        omega
      | cons c cs =>
        have := beVal_cons_pos c cs (hhead c (cs ++ [x]) rfl)
        omega
    cases fuel with
    | zero => omega
    | succ f =>
      simp only [leBytesAux, hpos, if_false]
      have hx : byteOfNat (beVal l * 256 + x.val) = x := by
        apply Fin.ext
        rw [byteOfNat_val]
        have := x.isLt
        omega
      have hdiv : (beVal l * 256 + x.val) / 256 = beVal l := by
        have := x.isLt
        omega
      rw [hx, hdiv]
      congr 1
      apply ih
      · intro b bs hl
        exact hhead b (bs ++ [x]) (by rw [hl]; rfl)
      · have : beVal l ≤ beVal l * 256 := by omega
        omega

/-- A byte string without a leading zero is the minimal big-endian form of its value. -/
theorem beBytes_beVal (b : Byte) (bs : Bytes) (h : b.val ≠ 0) :
    beBytes (beVal (b :: bs)) = b :: bs := by
  unfold beBytes
  rw [leBytesAux_beVal (b :: bs) (fun c cs hc => by cases hc; exact h) _ (Nat.le_refl _)]
  exact List.reverse_reverse _

namespace rlp

theorem takePayload_eq (k : Kind) (size : Nat) (r : Bytes) (k1 : Kind) (p r1 : Bytes)
    (h : takePayload k size r = some (k1, p, r1)) :
    k1 = k ∧ r = p ++ r1 ∧ p.length = size ∧
      (k = .String → ∀ x, p = [x] → 128 ≤ x.val) := by
  unfold takePayload at h
  split at h
  · cases h
  · rename_i hlen
    have hlen2 : (r.take size).length = size := by
      rw [List.length_take]
      omega
    split at h
    · rename_i x htake
      split at h
      · cases h
      · rename_i hx
        simp only [Option.some.injEq, Prod.mk.injEq] at h
        obtain ⟨hk, hp, hr⟩ := h
        subst hk hp hr
        refine ⟨rfl, ?_, ?_, ?_⟩
        · rw [← htake]
          exact (List.take_append_drop size r).symm
        · rw [← htake]
          exact hlen2
        · intro _ y hy
          cases hy
          omega
    · rename_i hne
      simp only [Option.some.injEq, Prod.mk.injEq] at h
      obtain ⟨hk, hp, hr⟩ := h
      subst hk hp hr
      refine ⟨rfl, (List.take_append_drop size r).symm, hlen2, ?_⟩
      intro hk y hy
      subst hk
      exact absurd hy (hne y rfl)

theorem readSize_eq (n : Nat) (r : Bytes) (size : Nat) (r1 : Bytes)
    (h : readSize n r = some (size, r1)) (h56 : 56 ≤ size) :
    r = beBytes size ++ r1 ∧ (beBytes size).length = n := by
  unfold readSize at h
  split at h
  · cases h
  · rename_i hlen
    have hlen2 : (r.take n).length = n := by
      rw [List.length_take]
      omega
    split at h
    · simp only [Option.some.injEq, Prod.mk.injEq] at h
      omega
    · rename_i b bs htake
      split at h
      · cases h
      · rename_i hz
        simp only [Option.some.injEq, Prod.mk.injEq] at h
        obtain ⟨hs, hr⟩ := h
        have hb : b.val ≠ 0 := by
          intro hb0
          by_cases hn : 1 < n
          · exact hz ⟨hn, hb0⟩
          · rw [htake, List.length_cons] at hlen2
            have hbs : bs = [] := by
              cases bs with
              | nil => rfl
              | cons c cs =>
                simp only [List.length_cons] at hlen2
                omega
            subst hbs
            simp only [beVal, List.foldl_cons, List.foldl_nil] at hs
            omega
        rw [← hs, beBytes_beVal b bs hb, ← htake, ← hr]
        exact ⟨(List.take_append_drop n r).symm, hlen2⟩

/-- The head of a value in the long form is the head the encoder writes for the size
read. -/
theorem long_head_eq (b : Byte) (base small : Nat) (r : Bytes) (size : Nat) (r1 : Bytes)
    (hb : base < b.val) (h : readSize (b.val - base) r = some (size, r1))
    (h56 : ¬ size < 56) : b :: r = puthead small base size ++ r1 := by
  obtain ⟨hr, hlen⟩ := readSize_eq _ _ _ _ h (by omega)
  unfold puthead
  rw [if_neg h56, hlen, List.cons_append, ← hr]
  congr 1
  apply Fin.ext
  rw [byteOfNat_val]
  have := b.isLt
  omega

/-- The input of a string that the decoder reads is the encoding of its payload,
followed by the rest. -/
theorem splitItem_string_eq (bs p r : Bytes) (h : splitItem bs = some (.String, p, r)) :
    bs = encodeBytes p ++ r := by
  cases bs with
  | nil => simp [splitItem] at h
  | cons b rest =>
    simp only [splitItem] at h
    have hblt := b.isLt
    split at h
    · rename_i hb
      simp only [Option.some.injEq, Prod.mk.injEq, true_and] at h
      obtain ⟨hp, hr⟩ := h
      subst hp hr
      have : b.val ≤ 0x7F := by omega
      simp [encodeBytes, this]
    · split at h
      · rename_i hb1 hb2
        obtain ⟨_, hr, hlen, hcanon⟩ := takePayload_eq _ _ _ _ _ _ h
        have hhead : b = byteOfNat (0x80 + p.length) := by
          apply Fin.ext
          rw [byteOfNat_val]
          omega
        have hsmall : p.length < 56 := by omega
        rw [hr]
        unfold encodeBytes
        split
        · rename_i x
          have hx := hcanon rfl x rfl
          have hx2 : ¬ x.val ≤ 0x7F := by omega
          simp only [hx2, if_false, puthead, List.length_singleton] at hhead ⊢
          rw [hhead]
          rfl
        · simp only [puthead, hsmall, if_true]
          rw [hhead]
          rfl
      · split at h
        · rename_i hb1 hb2 hb3
          split at h
          · cases h
          · rename_i size r1 hrs
            split at h
            · cases h
            · rename_i h56
              obtain ⟨_, hr, hlen, hcanon⟩ := takePayload_eq _ _ _ _ _ _ h
              have hhd := long_head_eq b 0xB7 0x80 rest size r1 (by omega) hrs h56
              rw [hhd, hr, ← hlen]
              unfold encodeBytes
              split
              · rename_i x
                simp only [List.length_singleton] at hlen
                omega
              · simp only [List.append_assoc]
        · split at h
          · have := (takePayload_eq _ _ _ _ _ _ h).1
            cases this
          · split at h
            · cases h
            · split at h
              · cases h
              · have := (takePayload_eq _ _ _ _ _ _ h).1
                cases this

/-- The input of a list that the decoder reads is the list head for the size of its
payload, the payload and the rest. -/
theorem splitItem_list_eq (bs p r : Bytes) (h : splitItem bs = some (.List, p, r)) :
    bs = encodeListOf p ++ r := by
  cases bs with
  | nil => simp [splitItem] at h
  | cons b rest =>
    simp only [splitItem] at h
    have hblt := b.isLt
    split at h
    · simp at h
    · split at h
      · have := (takePayload_eq _ _ _ _ _ _ h).1
        cases this
      · split at h
        · split at h
          · cases h
          · split at h
            · cases h
            · have := (takePayload_eq _ _ _ _ _ _ h).1
              cases this
        · split at h
          · rename_i hb1 hb2 hb3 hb4
            obtain ⟨_, hr, hlen, _⟩ := takePayload_eq _ _ _ _ _ _ h
            have hhead : b = byteOfNat (0xC0 + p.length) := by
              apply Fin.ext
              rw [byteOfNat_val]
              omega
            have hsmall : p.length < 56 := by omega
            rw [hr]
            simp only [encodeListOf, puthead, hsmall, if_true]
            rw [hhead]
            rfl
          · rename_i hb1 hb2 hb3 hb4
            split at h
            · cases h
            · rename_i size r1 hrs
              split at h
              · cases h
              · rename_i h56
                obtain ⟨_, hr, hlen, _⟩ := takePayload_eq _ _ _ _ _ _ h
                have hhd := long_head_eq b 0xF7 0xC0 rest size r1 (by omega) hrs h56
                rw [hhd, hr, ← hlen]
                simp only [encodeListOf, List.append_assoc]

/-- The decoder accepts canonical encodings only: the input of a value it reads is the
encoding of that value, followed by the rest of the input. -/
theorem decodeAux_canonical (fuel : Nat) :
    (∀ bs t r, decodeAux fuel bs = some (t, r) → bs = t.encode ++ r) ∧
    (∀ p xs, decodeListAux fuel p = some xs → p = Item.encodeList xs) := by
  induction fuel with
  | zero =>
    constructor
    · intro bs t r h
      simp [decodeAux] at h
    · intro p xs h
      simp [decodeListAux] at h
  | succ f ih =>
    obtain ⟨ih1, ih2⟩ := ih
    constructor
    · intro bs t r h
      simp only [decodeAux] at h
      split at h
      · cases h
      · rename_i p r1 hsp
        simp only [Option.some.injEq, Prod.mk.injEq] at h
        obtain ⟨ht, hr⟩ := h
        subst ht hr
        simpa [Item.encode] using splitItem_string_eq _ _ _ hsp
      · rename_i p r1 hsp
        split at h
        · cases h
        · rename_i xs hxs
          simp only [Option.some.injEq, Prod.mk.injEq] at h
          obtain ⟨ht, hr⟩ := h
          subst ht hr
          have hp := ih2 _ _ hxs
          have := splitItem_list_eq _ _ _ hsp
          rw [this, Item.encode, encodeListOf, hp]
    · intro p xs h
      cases p with
      | nil =>
        simp only [decodeListAux, Option.some.injEq] at h
        subst h
        simp [Item.encodeList]
      | cons c cs =>
        simp only [decodeListAux] at h
        split at h
        · cases h
        · rename_i x r hx
          split at h
          · cases h
          · rename_i ys hys
            simp only [Option.some.injEq] at h
            subst h
            rw [Item.encodeList, ← ih2 _ _ hys]
            exact ih1 _ _ _ hx

theorem decode_canonical (bs : Bytes) (t : Item) (r : Bytes) (h : decode bs = some (t, r)) :
    bs = t.encode ++ r :=
  (decodeAux_canonical _).1 bs t r h

theorem DecodeBytes_canonical (bs : Bytes) (t : Item) (h : DecodeBytes bs = some t) :
    bs = t.encode := by
  unfold DecodeBytes at h
  split at h
  · rename_i x hx
    simp only [Option.some.injEq] at h
    subst h
    simpa using decode_canonical _ _ _ hx
  · cases h

end rlp

/-! # Typed values read back to the value they were read from -/

namespace rlp

theorem encodeUint_decodeUint64 (it : Item) (u : U64) (h : decodeUint64 it = some u) :
    encodeUint u = it := by
  unfold decodeUint64 at h
  split at h
  · simp only [Option.some.injEq] at h
    subst h
    rfl
  · rename_i b bs
    split at h
    · cases h
    · rename_i hb
      split at h
      · cases h
      · rename_i hlen
        simp only [Option.some.injEq] at h
        subst h
        have hlt : beVal (b :: bs) < 2 ^ 64 := by
          have h1 := beVal_lt (b :: bs)
          have h2 : (256 : Nat) ^ (b :: bs).length ≤ 256 ^ 8 :=
            Nat.pow_le_pow_right (by decide) (by omega)
          have h3 : (256 : Nat) ^ 8 = 2 ^ 64 := by decide
          omega
        simp only [encodeUint, Nat.mod_eq_of_lt hlt, beBytes_beVal b bs hb]
  · cases h

theorem encodeBigInt_decodeBigInt (it : Item) (v : Int) (h : decodeBigInt it = some v) :
    encodeBigInt (some v) = some it := by
  unfold decodeBigInt at h
  split at h
  · simp only [Option.some.injEq] at h
    subst h
    rfl
  · rename_i b bs
    split at h
    · cases h
    · rename_i hb
      simp only [Option.some.injEq] at h
      subst h
      have hnn : ¬ (Int.ofNat (beVal (b :: bs)) < 0) :=
        Int.not_lt.mpr (Int.ofNat_nonneg _)
      simp only [encodeBigInt, hnn, if_false]
      show some (Item.str (beBytes (beVal (b :: bs)))) = _
      rw [beBytes_beVal b bs hb]
  · cases h

theorem str_decodeByteArray (n : Nat) (it : Item) (x : FixedBytes n)
    (h : decodeByteArray n it = some x) : Item.str x.val = it := by
  unfold decodeByteArray at h
  split at h
  · split at h
    · simp only [Option.some.injEq] at h
      subst h
      rfl
    · cases h
  · cases h

theorem str_decodeByteSlice (it : Item) (p : Bytes) (h : decodeByteSlice it = some p) :
    Item.str p = it := by
  unfold decodeByteSlice at h
  split at h
  · simp only [Option.some.injEq] at h
    subst h
    rfl
  · cases h

theorem encodeElems_decodeElems {α : Type} (f : Item → Option α) (g : α → Option Item)
    (hfg : ∀ x a, f x = some a → g a = some x) (xs : List Item) (as : List α)
    (h : decodeElems f xs = some as) : encodeElems g as = some xs := by
  induction xs generalizing as with
  | nil =>
    simp only [decodeElems, Option.some.injEq] at h
    subst h
    rfl
  | cons x xs ih =>
    simp only [decodeElems] at h
    split at h
    · cases h
    · rename_i a ha
      split at h
      · cases h
      · rename_i as1 has
        simp only [Option.some.injEq] at h
        subst h
        simp only [encodeElems, hfg x a ha, ih as1 has]

theorem encodeSeals_decodeListSlice (it : Item) (ss : List Bytes)
    (h : decodeListSlice decodeByteSlice it = some ss) : encodeSeals ss = it := by
  unfold decodeListSlice at h
  split at h
  · cases h
  · rename_i xs
    unfold encodeSeals
    congr 1
    induction xs generalizing ss with
    | nil =>
      simp only [decodeElems, Option.some.injEq] at h
      subst h
      rfl
    | cons x xs ih =>
      simp only [decodeElems] at h
      split at h
      · cases h
      · rename_i a ha
        split at h
        · cases h
        · rename_i as1 has
          simp only [Option.some.injEq] at h
          subst h
          rw [List.map_cons, str_decodeByteSlice x a ha, ih as1 has]

end rlp

theorem CommitteeMember.toItem_fromItem_member (it : rlp.Item) (m : CommitteeMember)
    (h : CommitteeMember.fromItem it = some m) : m.toItem = some it := by
  unfold CommitteeMember.fromItem at h
  split at h
  · rename_i a v
    split at h
    · rename_i addr power ha hv
      simp only [Option.some.injEq] at h
      subst h
      simp only [CommitteeMember.toItem, rlp.encodeBigInt_decodeBigInt v power hv,
        rlp.str_decodeByteArray 20 a addr ha]
    · cases h
  · cases h

theorem headerExtra.toItem_fromItem_extra (it : rlp.Item) (e : headerExtra)
    (h : headerExtra.fromItem it = some e) : e.toItem = some it := by
  unfold headerExtra.fromItem at h
  split at h
  · rename_i c ps r cs pcs
    split at h
    · rename_i c1 ps1 r1 cs1 pcs1 hc hps hr hcs hpcs
      simp only [Option.some.injEq] at h
      subst h
      have hc2 : ∃ xs, c = .list xs ∧
          rlp.encodeElems CommitteeMember.toItem c1 = some xs := by
        unfold rlp.decodeListSlice at hc
        split at hc
        · cases hc
        · rename_i xs
          exact ⟨xs, rfl, rlp.encodeElems_decodeElems _ _
            CommitteeMember.toItem_fromItem_member xs c1 hc⟩
      obtain ⟨xs, hxs, henc⟩ := hc2
      simp only [headerExtra.toItem, henc, hxs, rlp.str_decodeByteSlice ps ps1 hps,
        rlp.encodeUint_decodeUint64 r r1 hr, rlp.encodeSeals_decodeListSlice cs cs1 hcs,
        rlp.encodeSeals_decodeListSlice pcs pcs1 hpcs]
    · cases h
  · cases h

theorem originalHeader.toItem_fromItem_original (it : rlp.Item) (o : originalHeader)
    (h : originalHeader.fromItem it = some o) : o.toItem = some it := by
  unfold originalHeader.fromItem at h
  split at h
  · rename_i ph uh cb rt th rh bl d n gl gu tm ex md nc
    split at h
    · rename_i ph1 uh1 cb1 rt1 th1 rh1 bl1 d1 n1 gl1 gu1 tm1 ex1 md1 nc1
        hph huh hcb hrt hth hrh hbl hd hn hgl hgu htm hex hmd hnc
      simp only [Option.some.injEq] at h
      subst h
      simp only [originalHeader.toItem, rlp.encodeBigInt_decodeBigInt d d1 hd,
        rlp.encodeBigInt_decodeBigInt n n1 hn, rlp.str_decodeByteArray 32 ph ph1 hph,
        rlp.str_decodeByteArray 32 uh uh1 huh, rlp.str_decodeByteArray 20 cb cb1 hcb,
        rlp.str_decodeByteArray 32 rt rt1 hrt, rlp.str_decodeByteArray 32 th th1 hth,
        rlp.str_decodeByteArray 32 rh rh1 hrh, rlp.str_decodeByteArray 256 bl bl1 hbl,
        rlp.encodeUint_decodeUint64 gl gl1 hgl, rlp.encodeUint_decodeUint64 gu gu1 hgu,
        rlp.encodeUint_decodeUint64 tm tm1 htm, rlp.str_decodeByteSlice ex ex1 hex,
        rlp.str_decodeByteArray 32 md md1 hmd, rlp.str_decodeByteArray 8 nc nc1 hnc]
    · cases h
  · cases h

/-- A header that `Header.DecodeRLP` read off a stream encodes to the bytes that were
read: the stream is the encoding of the header followed by the rest of the stream. -/
theorem Header.EncodeRLP_DecodeRLP (BFTDigest : common.Hash) (h0 h : Header) (s rest : Bytes)
    (hdec : Header.DecodeRLP BFTDigest h0 s = (h, some rest)) :
    ∃ bs, h.EncodeRLP BFTDigest = some bs ∧ s = bs ++ rest := by
  unfold Header.DecodeRLP at hdec
  split at hdec
  · cases hdec
  · rename_i item r1 hitem
    have hs := rlp.decode_canonical s item r1 hitem
    split at hdec
    · cases hdec
    · rename_i origin horigin
      have hto := originalHeader.toItem_fromItem_original item origin horigin
      split at hdec
      · rename_i hmix
        split at hdec
        · cases hdec
        · rename_i hExtra hex
          simp only [Prod.mk.injEq, Option.some.injEq] at hdec
          obtain ⟨hh, hr⟩ := hdec
          subst hh hr
          cases hdb : rlp.DecodeBytes origin.Extra with
          | none => simp [hdb] at hex
          | some eItem =>
            rw [hdb, Option.some_bind] at hex
            have hextra := rlp.DecodeBytes_canonical _ _ hdb
            have heto := headerExtra.toItem_fromItem_extra eItem hExtra hex
            refine ⟨item.encode, ?_, hs⟩
            have hE : (⟨hExtra.Committee, hExtra.ProposerSeal, hExtra.Round,
                hExtra.CommittedSeals, hExtra.PastCommittedSeals⟩ : headerExtra) = hExtra :=
              rfl
            subst hmix
            simp only [Header.EncodeRLP, if_true, hE, headerExtra.encode, heto,
              Option.map_some', ← hextra, Header.original]
            have ho : (⟨origin.ParentHash, origin.UncleHash, origin.Coinbase, origin.Root,
                origin.TxHash, origin.ReceiptHash, origin.Bloom, origin.Difficulty,
                origin.Number, origin.GasLimit, origin.GasUsed, origin.Time, origin.Extra,
                origin.MixDigest, origin.Nonce⟩ : originalHeader) = origin := rfl
            rw [ho, originalHeader.encode, hto]
            rfl
      · rename_i hmix
        simp only [Prod.mk.injEq, Option.some.injEq] at hdec
        obtain ⟨hh, hr⟩ := hdec
        subst hh hr
        refine ⟨item.encode, ?_, hs⟩
        simp only [Header.EncodeRLP, hmix, if_false, Header.original]
        have ho : (⟨origin.ParentHash, origin.UncleHash, origin.Coinbase, origin.Root,
            origin.TxHash, origin.ReceiptHash, origin.Bloom, origin.Difficulty,
            origin.Number, origin.GasLimit, origin.GasUsed, origin.Time, origin.Extra,
            origin.MixDigest, origin.Nonce⟩ : originalHeader) = origin := rfl
        rw [ho, originalHeader.encode, hto]
        rfl

/-! # The size of a block -/

namespace rlp

theorem encodeEach_decodeEach {α : Type} (f : Bytes → Option (α × Bytes))
    (g : α → Option Bytes)
    (hfg : ∀ s a r, f s = some (a, r) → ∃ bs, g a = some bs ∧ s = bs ++ r) :
    ∀ (fuel : Nat) (p : Bytes) (xs : List α),
      decodeEach f fuel p = some xs → encodeEach g xs = some p := by
  intro fuel
  induction fuel with
  | zero =>
    intro p xs h
    simp [decodeEach] at h
  | succ n ih =>
    intro p xs h
    cases p with
    | nil =>
      simp only [decodeEach, Option.some.injEq] at h
      subst h
      rfl
    | cons b bs =>
      simp only [decodeEach] at h
      split at h
      · cases h
      · rename_i a r ha
        split at h
        · cases h
        · rename_i as has
          simp only [Option.some.injEq] at h
          subst h
          obtain ⟨e, he, hs⟩ := hfg _ _ _ ha
          simp only [encodeEach, he, ih r as has, hs]

theorem encodeSlice_decodeSlice {α : Type} (f : Bytes → Option (α × Bytes))
    (g : α → Option Bytes)
    (hfg : ∀ s a r, f s = some (a, r) → ∃ bs, g a = some bs ∧ s = bs ++ r)
    (s : Bytes) (xs : List α) (rest : Bytes) (h : decodeSlice f s = some (xs, rest)) :
    ∃ bs, encodeSlice g xs = some bs ∧ s = bs ++ rest := by
  unfold decodeSlice at h
  split at h
  · rename_i p r hsp
    split at h
    · cases h
    · rename_i ys hys
      simp only [Option.some.injEq, Prod.mk.injEq] at h
      obtain ⟨h1, h2⟩ := h
      subst h1 h2
      refine ⟨encodeListOf p, ?_, splitItem_list_eq _ _ _ hsp⟩
      simp only [encodeSlice, encodeEach_decodeEach f g hfg _ _ _ hys, Option.map_some']
  · cases h

/-- The size `ListSize` gives for the payload of a list is the length of the encoded
list, when that fits a `uint64`. -/
theorem ListSize_eq (p : Bytes) (h : (encodeListOf p).length < 2 ^ 64) :
    ListSize p.length = (encodeListOf p).length := by
  unfold ListSize
  unfold encodeListOf at h ⊢
  rw [List.length_append] at h ⊢
  exact Nat.mod_eq_of_lt h

end rlp

theorem decodeHeaderPtr_canonical (BFTDigest : common.Hash) (s : Bytes) (h : Header)
    (rest : Bytes) (hdec : decodeHeaderPtr BFTDigest s = some (h, rest)) :
    ∃ bs, h.EncodeRLP BFTDigest = some bs ∧ s = bs ++ rest := by
  unfold decodeHeaderPtr at hdec
  split at hdec
  · rename_i h1 r1 heq
    simp only [Option.some.injEq, Prod.mk.injEq] at hdec
    obtain ⟨hh, hr⟩ := hdec
    subst hh hr
    exact Header.EncodeRLP_DecodeRLP BFTDigest _ _ _ _ heq
  · cases hdec

/-- An `extblock` read off a stream encodes to the bytes that were read; the payload
of the list read is `p`. -/
theorem extblock.encode_decode {Tx : Type} (codec : TxCodec Tx) (hc : codec.Canonical)
    (BFTDigest : common.Hash) (s : Bytes) (eb : extblock Tx) (rest : Bytes)
    (h : extblock.decode codec BFTDigest s = some (eb, rest)) :
    ∃ p, rlp.splitItem s = some (.List, p, rest) ∧
      extblock.encode codec BFTDigest eb = some (rlp.encodeListOf p) ∧
      s = rlp.encodeListOf p ++ rest := by
  unfold extblock.decode at h
  split at h
  · rename_i p r hsp
    split at h
    · cases h
    · rename_i hd r1 hhd
      split at h
      · cases h
      · rename_i txs r2 htxs
        split at h
        · rename_i uncles huncles
          simp only [Option.some.injEq, Prod.mk.injEq] at h
          obtain ⟨h1, h2⟩ := h
          subst h1 h2
          obtain ⟨hb, hhb, hp⟩ := decodeHeaderPtr_canonical _ _ _ _ hhd
          obtain ⟨tb, htb, hr1⟩ := rlp.encodeSlice_decodeSlice codec.DecodeRLP
            codec.EncodeRLP hc _ _ _ htxs
          obtain ⟨ub, hub, hr2⟩ := rlp.encodeSlice_decodeSlice (decodeHeaderPtr BFTDigest)
            (Header.EncodeRLP BFTDigest) (decodeHeaderPtr_canonical BFTDigest) _ _ _ huncles
          refine ⟨p, hsp, ?_, rlp.splitItem_list_eq _ _ _ hsp⟩
          simp only [extblock.encode, hhb, htb, hub]
          rw [hp, hr1, hr2, List.append_nil, List.append_assoc]
        · cases h
  · cases h

/-- On a block with an empty size cache whose encoding is `bs`, `Block.Size` returns the
length of `bs` and stores it. -/
theorem Block.Size_of_empty {Tx : Type} (codec : TxCodec Tx) (d : common.Hash)
    (b : Block Tx) (bs : Bytes) (hsize : b.size = none)
    (henc : b.EncodeRLP codec d = some bs) :
    b.Size codec d = (bs.length, { b with size := some bs.length }) := by
  unfold Block.Size
  simp [hsize, henc, writeCounter.Write]

/-- On a block whose size cache holds `n`, `Block.Size` returns `n` and changes
nothing. -/
theorem Block.Size_of_cached {Tx : Type} (codec : TxCodec Tx) (d : common.Hash)
    (b : Block Tx) (n : Nat) (hsize : b.size = some n) : b.Size codec d = (n, b) := by
  unfold Block.Size
  simp [hsize]

/-- A block that `Block.DecodeRLP` read off a stream of less than 2^64 bytes encodes
to the bytes that were read, and the size stored is their number. -/
theorem Block.EncodeRLP_DecodeRLP_block {Tx : Type} (codec : TxCodec Tx) (hc : codec.Canonical)
    (d : common.Hash) (b0 b : Block Tx) (s rest : Bytes) (hlen : s.length < 2 ^ 64)
    (hdec : Block.DecodeRLP codec d b0 s = (b, some rest)) :
    ∃ bs, s = bs ++ rest ∧ b.size = some bs.length ∧ b.EncodeRLP codec d = some bs := by
  unfold Block.DecodeRLP at hdec
  simp only at hdec
  split at hdec
  · cases hdec
  · rename_i eb r heb
    simp only [Prod.mk.injEq, Option.some.injEq] at hdec
    obtain ⟨hb, hr⟩ := hdec
    subst hb hr
    obtain ⟨p, hsp, henc, hs⟩ := extblock.encode_decode codec hc d s eb r heb
    refine ⟨rlp.encodeListOf p, hs, ?_, henc⟩
    have hl : (rlp.encodeListOf p).length < 2 ^ 64 := by
      have := congrArg List.length hs
      rw [List.length_append] at this
      omega
    simp only [rlp.kindSize, hsp, rlp.ListSize_eq p hl]

/-- The codec `exampleTxCodec` is canonical. -/
theorem exampleTxCodec_canonical : exampleTxCodec.Canonical := by
  intro s tx rest h
  simp only [exampleTxCodec] at h
  split at h
  · rename_i p r hsp
    simp only [Option.some.injEq, Prod.mk.injEq] at h
    obtain ⟨h1, h2⟩ := h
    subst h1 h2
    exact ⟨rlp.encodeBytes p, rfl, rlp.splitItem_string_eq _ _ _ hsp⟩
  · cases h

/-- C14: with a codec for transactions and the digest of BFT headers given: on a block
with no size stored whose encoding by `Block.EncodeRLP` is `bs`, `Block.Size` returns
the number of bytes of `bs` and stores it, and the next call returns it again; and when
the decoder of transactions accepts canonical encodings only, a block that
`Block.DecodeRLP` read off a stream `s` of less than 2^53 bytes, `rest` being what is
left of the stream, holds as its size the number of bytes read, which are the
encoding of the block by `Block.EncodeRLP`, and `Block.Size` returns that number. -/
theorem Block.Size_exact {Tx : Type} (codec : TxCodec Tx) (BFTDigest : common.Hash) :
    (∀ (b : Block Tx) (bs : Bytes), b.size = none →
      b.EncodeRLP codec BFTDigest = some bs →
        (b.Size codec BFTDigest).1 = bs.length ∧
        (b.Size codec BFTDigest).2 = { b with size := some bs.length } ∧
        ((b.Size codec BFTDigest).2.Size codec BFTDigest).1 = bs.length) ∧
    (codec.Canonical → ∀ (b0 b : Block Tx) (s rest : Bytes), s.length < 2 ^ 53 →
      Block.DecodeRLP codec BFTDigest b0 s = (b, some rest) →
        ∃ bs, s = bs ++ rest ∧ b.size = some bs.length ∧
          b.EncodeRLP codec BFTDigest = some bs ∧
          (b.Size codec BFTDigest).1 = bs.length) := by
  constructor
  · intro b bs hsize henc
    rw [Block.Size_of_empty codec BFTDigest b bs hsize henc]
    exact ⟨rfl, rfl, by rw [Block.Size_of_cached codec BFTDigest _ bs.length rfl]⟩
  · intro hc b0 b s rest hlen hdec
    have hlen2 : s.length < 2 ^ 64 :=
      Nat.lt_of_lt_of_le hlen (Nat.pow_le_pow_right (by decide) (by decide))
    obtain ⟨bs, hs, hsize, henc⟩ :=
      Block.EncodeRLP_DecodeRLP_block codec hc BFTDigest b0 b s rest hlen2 hdec
    exact ⟨bs, hs, hsize, henc, by rw [Block.Size_of_cached codec BFTDigest b _ hsize]⟩

/-- C14, an instance: the stream `exampleWire`, the encoding of `exampleWireBlock`
followed by the bytes 7 and 7, read into a new block with `exampleTxCodec`: 1039 bytes
are read. -/
theorem Block.Size_exact_witness :
    exampleTxCodec.Canonical ∧ exampleWire.length < 2 ^ 53 ∧
    (Block.DecodeRLP exampleTxCodec exampleDigest (Block.zeroValue Bytes) exampleWire).2
      = some [7, 7] ∧
    (Block.DecodeRLP exampleTxCodec exampleDigest (Block.zeroValue Bytes) exampleWire).1.size
      = some 1039 ∧
    ∃ bs, exampleWire = bs ++ [7, 7] ∧
      (Block.DecodeRLP exampleTxCodec exampleDigest (Block.zeroValue Bytes) exampleWire).1.size
        = some bs.length ∧
      (Block.DecodeRLP exampleTxCodec exampleDigest (Block.zeroValue Bytes)
          exampleWire).1.EncodeRLP exampleTxCodec exampleDigest = some bs ∧
      ((Block.DecodeRLP exampleTxCodec exampleDigest (Block.zeroValue Bytes)
          exampleWire).1.Size exampleTxCodec exampleDigest).1 = bs.length :=
  ⟨exampleTxCodec_canonical, by decide, by decide, by decide,
    (Block.Size_exact exampleTxCodec exampleDigest).2 exampleTxCodec_canonical
      (Block.zeroValue Bytes) _ exampleWire [7, 7] (by decide)
      (Prod.ext rfl (by decide))⟩

/-! # The handler of consensus messages -/

namespace tendermint

theorem mem_insertBacklog (m : Message) (q : List Message) : m ∈ insertBacklog m q := by
  induction q with
  | nil => simp [insertBacklog]
  | cons x xs ih =>
    unfold insertBacklog
    split
    · exact List.mem_cons_self _ _
    · exact List.mem_cons_of_mem _ ih

theorem Engine.storeBacklog_backlogs (c : Engine) (msg : Message) :
    (c.storeBacklog msg).backlogs msg.Address = insertBacklog msg (c.backlogs msg.Address) := by
  simp [Engine.storeBacklog]

theorem Engine.roundSkip_backlogs (c : Engine) (msg : Message) :
    (c.roundSkip msg).backlogs = c.backlogs ∧
    (c.roundSkip msg).backlogUnchecked = c.backlogUnchecked ∧
    (c.roundSkip msg).height = c.height := by
  unfold Engine.roundSkip
  simp only
  split <;> exact ⟨rfl, rfl, rfl⟩

theorem Engine.checkMessage_future_height (c : Engine) (round : Int) (height : Nat)
    (step : Step) (h : c.height < height) :
    c.checkMessage round height step = some .errFutureHeightMessage := by
  simp [Engine.checkMessage, h]

theorem Engine.checkMessage_same_height (c : Engine) (round : Int) (step : Step) :
    c.checkMessage round c.height step =
      if c.round < round then some .errFutureRoundMessage
      else if round < c.round then some .errOldRoundMessage
      else if c.step.rank < step.rank then some .errFutureStepMessage
      else none := by
  simp [Engine.checkMessage]

/-- The error `handleCheckedMsg` returns after the check found a message of a later
round or step is the one the check gave, and the message is stashed. -/
theorem Engine.handleCheckedMsg_stash (v : Verifier) (c : Engine) (m : Message)
    (h : (c.handleCheckedMsg v m).err = some (some .errFutureRoundMessage) ∨
      (c.handleCheckedMsg v m).err = some (some .errFutureStepMessage)) :
    ∃ c1, (c.handleCheckedMsg v m).engine = some c1 ∧
      c1.backlogs m.Address = insertBacklog m (c.backlogs m.Address) := by
  unfold Engine.handleCheckedMsg at h ⊢
  split at h
  · rename_i hchk
    simp only [Outcome.err, Option.some.injEq] at h
    simp only [Engine.process] at h
    rcases h with h | h
    · split at h
      · split at h <;> simp at h
      · simp at h
      · split at h <;> simp at h
    · split at h
      · split at h <;> simp at h
      · simp at h
      · split at h <;> simp at h
  · simp [Outcome.err] at h
  · refine ⟨_, rfl, ?_⟩
    rw [(Engine.roundSkip_backlogs _ _).1, Engine.storeBacklog_backlogs]
  · exact ⟨_, rfl, Engine.storeBacklog_backlogs _ _⟩
  · split at h <;> simp [Outcome.err] at h
  · rename_i e hne1 hne2 hne3 hne4 hchk
    simp only [Outcome.err, Option.some.injEq] at h
    rcases h with h | h
    · exact absurd h hne2
    · exact absurd h hne3


/-- C15: for an engine `c` and a message `m` of the height of `c`, whoever sent it:
`handleCheckedMsg` returns `errFutureRoundMessage` when the round of `m` is greater
than that of `c`; it returns `errFutureStepMessage` when the rounds are equal, `c` is at
the step propose and `m` is a prevote or a precommit; and it returns no error when the
rounds are equal and `m` is a prevote with `c` at the step prevote, or a precommit whose
committed seal is valid with `c` at the step precommit. -/
theorem Engine.handleCheckedMsg_gating (v : Verifier) (c : Engine) (m : Message)
    (hh : m.Height = c.height) :
    (c.round < m.Round →
      (c.handleCheckedMsg v m).err = some (some .errFutureRoundMessage)) ∧
    (m.Round = c.round → c.step = .propose →
      (m.Code = .msgPrevote ∨ m.Code = .msgPrecommit) →
      (c.handleCheckedMsg v m).err = some (some .errFutureStepMessage)) ∧
    (m.Round = c.round → c.step = .prevote → m.Code = .msgPrevote →
      (c.handleCheckedMsg v m).err = some none) ∧
    (m.Round = c.round → c.step = .precommit → m.Code = .msgPrecommit →
      v.verifyCommittedSeal m = true →
      (c.handleCheckedMsg v m).err = some none) := by
  refine ⟨fun hr => ?_, fun hr hs hm => ?_, fun hr hs hm => ?_, fun hr hs hm hv => ?_⟩
  · simp only [Engine.handleCheckedMsg, hh, Engine.checkMessage_same_height, hr, if_true,
      Outcome.err]
  · have hrank : c.step.rank < m.Code.step.rank := by
      rw [hs]
      rcases hm with hm | hm <;> rw [hm] <;> decide
    simp only [Engine.handleCheckedMsg, hh, Engine.checkMessage_same_height, hr,
      lt_self_iff_false, if_false, hrank, if_true, Outcome.err]
  · have hrank : ¬ c.step.rank < m.Code.step.rank := by
      rw [hs, hm]
      decide
    have hchk : c.checkMessage m.Round m.Height m.Code.step = none := by
      simp only [hh, Engine.checkMessage_same_height, hr, lt_self_iff_false, if_false, hrank]
    unfold Engine.handleCheckedMsg
    rw [hchk]
    simp only [Outcome.err, Engine.process, hm]
  · have hrank : ¬ c.step.rank < m.Code.step.rank := by
      rw [hs, hm]
      decide
    have hchk : c.checkMessage m.Round m.Height m.Code.step = none := by
      simp only [hh, Engine.checkMessage_same_height, hr, lt_self_iff_false, if_false, hrank]
    unfold Engine.handleCheckedMsg
    rw [hchk]
    simp only [Outcome.err, Engine.process, hm, hv, if_true]

/-- C15, the cases of `TestHandleCheckedMessage` that return: a prevote of round 2 and one
of round 1 to the engine at round 1 and step propose, a precommit of round 20 to the
engine at round 5, a prevote to the engine at step prevote and a precommit with a valid
seal to the engine at step precommit. -/
theorem Engine.handleCheckedMsg_gating_witness :
    ((testEngine 1 2 .propose).handleCheckedMsg testVerifier (createPrevote 2 2)).err
      = some (some .errFutureRoundMessage) ∧
    ((testEngine 1 2 .propose).handleCheckedMsg testVerifier (createPrevote 1 2)).err
      = some (some .errFutureStepMessage) ∧
    ((testEngine 5 2 .precommit).handleCheckedMsg testVerifier (createPrecommit 20 2)).err
      = some (some .errFutureRoundMessage) ∧
    ((testEngine 0 2 .prevote).handleCheckedMsg testVerifier (createPrevote 0 2)).err
      = some none ∧
    ((testEngine 0 2 .precommit).handleCheckedMsg testVerifier (createPrecommit 0 2)).err
      = some none :=
  ⟨(Engine.handleCheckedMsg_gating testVerifier (testEngine 1 2 .propose)
      (createPrevote 2 2) rfl).1 (by decide),
    (Engine.handleCheckedMsg_gating testVerifier (testEngine 1 2 .propose)
      (createPrevote 1 2) rfl).2.1 rfl rfl (Or.inl rfl),
    (Engine.handleCheckedMsg_gating testVerifier (testEngine 5 2 .precommit)
      (createPrecommit 20 2) rfl).1 (by decide),
    (Engine.handleCheckedMsg_gating testVerifier (testEngine 0 2 .prevote)
      (createPrevote 0 2) rfl).2.2.1 rfl rfl rfl,
    (Engine.handleCheckedMsg_gating testVerifier (testEngine 0 2 .precommit)
      (createPrecommit 0 2) rfl).2.2.2 rfl rfl rfl (by decide)⟩

/-- C16: when `handleCheckedMsg` returns `errFutureRoundMessage` or
`errFutureStepMessage` for a message `m`, then in the engine after the call `m` is an
element of the backlog of its sender, and when that backlog was empty before the call
`m` is its first and only entry. -/
theorem Engine.handleCheckedMsg_backlog (v : Verifier) (c : Engine) (m : Message)
    (h : (c.handleCheckedMsg v m).err = some (some .errFutureRoundMessage) ∨
      (c.handleCheckedMsg v m).err = some (some .errFutureStepMessage)) :
    ∃ c1, (c.handleCheckedMsg v m).engine = some c1 ∧
      m ∈ c1.backlogs m.Address ∧
      (c.backlogs m.Address = [] →
        c1.backlogs m.Address = [m] ∧ (c1.backlogs m.Address).head? = some m) := by
  obtain ⟨c1, hc1, hb⟩ := Engine.handleCheckedMsg_stash v c m h
  refine ⟨c1, hc1, ?_, ?_⟩
  · rw [hb]
    exact mem_insertBacklog _ _
  · intro hempty
    rw [hb, hempty]
    exact ⟨rfl, rfl⟩

/-- C16, a case of `TestHandleCheckedMessage`: the prevote of round 1 to the engine at
round 1 and step propose, whose backlogs are empty. -/
theorem Engine.handleCheckedMsg_backlog_witness :
    ((testEngine 1 2 .propose).handleCheckedMsg testVerifier (createPrevote 1 2)).err
      = some (some .errFutureStepMessage) ∧
    ∃ c1, ((testEngine 1 2 .propose).handleCheckedMsg testVerifier
        (createPrevote 1 2)).engine = some c1 ∧
      createPrevote 1 2 ∈ c1.backlogs (createPrevote 1 2).Address ∧
      ((testEngine 1 2 .propose).backlogs (createPrevote 1 2).Address = [] →
        c1.backlogs (createPrevote 1 2).Address = [createPrevote 1 2] ∧
        (c1.backlogs (createPrevote 1 2).Address).head? = some (createPrevote 1 2)) :=
  ⟨rfl, Engine.handleCheckedMsg_backlog testVerifier (testEngine 1 2 .propose)
    (createPrevote 1 2) (Or.inr rfl)⟩

/-- C17: for an engine `c` and a message `m` of a height greater than that of `c`,
`handleMsg` returns `errFutureHeightMessage`, and in the engine after the call `m` is at
the end of `backlogUnchecked` for its height, so an element of it and the first one when
nothing was buffered for that height, and `backlogs` is what it was. -/
theorem Engine.handleMsg_future_height (v : Verifier) (c : Engine) (m : Message)
    (h : c.height < m.Height) :
    ∃ c1, c.handleMsg v m = .returned c1 (some .errFutureHeightMessage) ∧
      c1.backlogUnchecked m.Height = c.backlogUnchecked m.Height ++ [m] ∧
      m ∈ c1.backlogUnchecked m.Height ∧
      (c.backlogUnchecked m.Height = [] → (c1.backlogUnchecked m.Height).head? = some m) ∧
      c1.backlogs = c.backlogs := by
  refine ⟨c.storeUncheckedBacklog m, ?_, ?_, ?_, ?_, rfl⟩
  · simp [Engine.handleMsg, h]
  · simp [Engine.storeUncheckedBacklog]
  · simp [Engine.storeUncheckedBacklog]
  · intro hempty
    simp [Engine.storeUncheckedBacklog, hempty]

/-- C17, the subtest of `TestHandleMsg`: a prevote of height 3 to the engine at height 2
is the first entry of `backlogUnchecked[3]` afterwards. -/
theorem Engine.handleMsg_future_height_witness :
    ∃ c1, testCore.handleMsg testVerifier (testVote 3)
        = .returned c1 (some .errFutureHeightMessage) ∧
      c1.backlogUnchecked 3 = testCore.backlogUnchecked 3 ++ [testVote 3] ∧
      testVote 3 ∈ c1.backlogUnchecked 3 ∧
      (testCore.backlogUnchecked 3 = [] → (c1.backlogUnchecked 3).head? = some (testVote 3)) ∧
      c1.backlogs = testCore.backlogs :=
  Engine.handleMsg_future_height testVerifier testCore (testVote 3) (by decide)

/-- C18: for an engine `c` and a message `m` of a height less than that of `c`,
whatever its round, `handleMsg` returns `errOldHeightMessage` and the engine after the
call is `c`: `backlogs` and `backlogUnchecked` are what they were. -/
theorem Engine.handleMsg_old_height (v : Verifier) (c : Engine) (m : Message)
    (h : m.Height < c.height) :
    c.handleMsg v m = .returned c (some .errOldHeightMessage) ∧
    ∃ c1, (c.handleMsg v m).engine = some c1 ∧ c1.backlogs = c.backlogs ∧
      c1.backlogUnchecked = c.backlogUnchecked := by
  have hn : ¬ c.height < m.Height := by omega
  have : c.handleMsg v m = .returned c (some .errOldHeightMessage) := by
    simp [Engine.handleMsg, h, hn]
  rw [this]
  exact ⟨rfl, c, rfl, rfl, rfl⟩

/-- C18, the subtest of `TestHandleMsg`: a prevote of round 2 and height 1 to the engine
at round 1 and height 2. -/
theorem Engine.handleMsg_old_height_witness :
    testCore.handleMsg testVerifier (testVote 1)
      = .returned testCore (some .errOldHeightMessage) ∧
    ∃ c1, (testCore.handleMsg testVerifier (testVote 1)).engine = some c1 ∧
      c1.backlogs = testCore.backlogs ∧ c1.backlogUnchecked = testCore.backlogUnchecked :=
  Engine.handleMsg_old_height testVerifier testCore (testVote 1) (by decide)

/-- C19: for an engine `c` and a message `m` of a height greater than that of `c`,
`handleCheckedMsg` panics: it returns no error value. -/
theorem Engine.handleCheckedMsg_panics (v : Verifier) (c : Engine) (m : Message)
    (h : c.height < m.Height) :
    c.handleCheckedMsg v m = .panicked ∧ (c.handleCheckedMsg v m).err = none := by
  have : c.handleCheckedMsg v m = .panicked := by
    simp only [Engine.handleCheckedMsg, Engine.checkMessage_future_height c _ _ _ h]
  rw [this]
  exact ⟨rfl, rfl⟩

/-- C19, the two cases of `TestHandleCheckedMessage` that panic: a prevote of height 3
to the engine at height 2 and a precommit of height 10 to the engine at height 5. -/
theorem Engine.handleCheckedMsg_panics_witness :
    ((testEngine 0 2 .propose).handleCheckedMsg testVerifier (createPrevote 0 3) = .panicked ∧
      ((testEngine 0 2 .propose).handleCheckedMsg testVerifier (createPrevote 0 3)).err
        = none) ∧
    ((testEngine 0 5 .precommit).handleCheckedMsg testVerifier (createPrecommit 0 10)
        = .panicked ∧
      ((testEngine 0 5 .precommit).handleCheckedMsg testVerifier (createPrecommit 0 10)).err
        = none) :=
  ⟨Engine.handleCheckedMsg_panics testVerifier (testEngine 0 2 .propose) (createPrevote 0 3)
      (by decide),
    Engine.handleCheckedMsg_panics testVerifier (testEngine 0 5 .precommit)
      (createPrecommit 0 10) (by decide)⟩

end tendermint

/-! # The hash of the uncles -/

/-- The legacy part of a header does not hold its BFT fields. -/
theorem original_bft_fields (h : Header) (committee : Committee)
    (proposerSeal : Bytes) (round : U64) (committedSeals pastCommittedSeals : List Bytes) :
    Header.original
        { h with
            Committee := committee
            ProposerSeal := proposerSeal
            Round := round
            CommittedSeals := committedSeals
            PastCommittedSeals := pastCommittedSeals }
      = h.original := rfl

/-- The hash `CalcUncleHash` is `rlpHash` of the list of the legacy headers, for the
empty list too. -/
theorem CalcUncleHash_eq (keccak256 : Bytes → common.Hash) (uncles : List Header) :
    CalcUncleHash keccak256 uncles
      = rlpHash keccak256 (encodeOriginalHeaders (uncles.map Header.original)) := by
  unfold CalcUncleHash
  split
  · rename_i h
    have : uncles = [] := List.eq_nil_of_length_eq_zero h
    subst this
    rfl
  · rfl

/-- C21: `CalcUncleHash` returns `EmptyUncleHash` for the empty list; for every list it
returns `rlpHash` of the RLP list of the legacy headers `Header.original` of the uncles,
which is keccak256 of the bytes of that list when the list can be encoded;
`EmptyUncleHash` is that formula on the empty list; and two lists of uncles with the
same legacy headers have the same hash, so that setting the committee, the proposer
seal, the round, the committed seals and the past committed seals of an uncle to any
values leaves the hash as it is, whatever the mix digest of the uncle. -/
theorem CalcUncleHash_spec (keccak256 : Bytes → common.Hash) :
    CalcUncleHash keccak256 [] = EmptyUncleHash keccak256 ∧
    (∀ uncles : List Header,
      CalcUncleHash keccak256 uncles
        = rlpHash keccak256 (encodeOriginalHeaders (uncles.map Header.original))) ∧
    (∀ (uncles : List Header) (bs : Bytes),
      encodeOriginalHeaders (uncles.map Header.original) = some bs →
      CalcUncleHash keccak256 uncles = keccak256 bs) ∧
    EmptyUncleHash keccak256
      = rlpHash keccak256 (encodeOriginalHeaders (([] : List Header).map Header.original)) ∧
    (∀ us vs : List Header, us.map Header.original = vs.map Header.original →
      CalcUncleHash keccak256 us = CalcUncleHash keccak256 vs) ∧
    (∀ (before after : List Header) (u : Header) (committee : Committee)
      (proposerSeal : Bytes) (round : U64) (committedSeals pastCommittedSeals : List Bytes),
      CalcUncleHash keccak256
          (before ++
            { u with
                Committee := committee
                ProposerSeal := proposerSeal
                Round := round
                CommittedSeals := committedSeals
                PastCommittedSeals := pastCommittedSeals } :: after)
        = CalcUncleHash keccak256 (before ++ u :: after)) := by
  refine ⟨rfl, CalcUncleHash_eq keccak256, ?_, rfl, ?_, ?_⟩
  · intro uncles bs h
    rw [CalcUncleHash_eq, h]
    rfl
  · intro us vs h
    rw [CalcUncleHash_eq, CalcUncleHash_eq, h]
  · intro before after u committee proposerSeal round committedSeals pastCommittedSeals
    rw [CalcUncleHash_eq, CalcUncleHash_eq]
    simp only [List.map_append, List.map_cons, original_bft_fields]

/-- The uncle `exampleFullHeader`, whose mix digest is the BFT digest, and the same
header with its BFT fields emptied have two different hashes and one uncle hash. -/
theorem CalcUncleHash_example :
    exampleFullHeader.MixDigest = exampleDigest ∧
    Header.Hash exampleDigest exampleKeccak exampleFullHeader
      ≠ Header.Hash exampleDigest exampleKeccak
          { exampleFullHeader with
              Committee := [], ProposerSeal := [], Round := 0, CommittedSeals := [],
              PastCommittedSeals := [] } ∧
    CalcUncleHash exampleKeccak [exampleFullHeader]
      = CalcUncleHash exampleKeccak
          [{ exampleFullHeader with
              Committee := [], ProposerSeal := [], Round := 0, CommittedSeals := [],
              PastCommittedSeals := [] }] := by
  refine ⟨rfl, by decide, rfl⟩

/-! # A copy on the wire -/

theorem copyCommittee_some (c ms : Committee) (h : copyCommittee c = some ms) :
    ∀ m ∈ c, m.VotingPower ≠ none := by
  induction c generalizing ms with
  | nil =>
    intro m hm
    cases hm
  | cons x xs ih =>
    simp only [copyCommittee] at h
    split at h
    · cases h
    · rename_i power hpower
      split at h
      · cases h
      · rename_i members hmembers
        intro m hm
        rcases List.mem_cons.mp hm with hm | hm
        · rw [hm, hpower]
          exact Option.some_ne_none _
        · exact ih members hmembers m hm

/-- When `CopyHeader` returns, every member of the committee has a voting power. -/
theorem CopyHeader_some_power (H c : Header) (h : CopyHeader H = some c) :
    ∀ m ∈ H.Committee, m.VotingPower ≠ none := by
  by_cases hl : H.Committee.length > 0
  · cases hcc : copyCommittee H.Committee with
    | none =>
      simp only [CopyHeader, hl, if_true, hcc] at h
      cases h
    | some ms => exact copyCommittee_some _ ms hcc
  · have : H.Committee = [] := List.eq_nil_of_length_eq_zero (by omega)
    rw [this]
    intro m hm
    cases hm

/-- The header that `CopyHeader` returns: the header itself, with 0 for a nil
difficulty and for a nil number. -/
theorem CopyHeader_value (H c : Header) (h : CopyHeader H = some c) :
    c = { H with
            Difficulty := some (H.Difficulty.getD 0)
            Number := some (H.Number.getD 0) } := by
  have hvp := CopyHeader_some_power H c h
  simp only [CopyHeader, copyCommittee_field H.Committee hvp, copyBytes_field,
    copySeals_field, Option.some.injEq] at h
  rw [← h]
  cases H.Difficulty <;> cases H.Number <;> rfl

/-- With a voting power for every member of the committee `CopyHeader` returns. -/
theorem CopyHeader_of_power (H : Header) (hvp : ∀ m ∈ H.Committee, m.VotingPower ≠ none) :
    CopyHeader H
      = some { H with
                Difficulty := some (H.Difficulty.getD 0)
                Number := some (H.Number.getD 0) } := by
  simp only [CopyHeader, copyCommittee_field H.Committee hvp, copyBytes_field,
    copySeals_field]
  cases H.Difficulty <;> cases H.Number <;> rfl

/-- The encoding of a header does not tell a nil difficulty or number from 0. -/
theorem Header.EncodeRLP_nil_zero (BFTDigest : common.Hash) (H : Header) :
    Header.EncodeRLP BFTDigest
        { H with
            Difficulty := some (H.Difficulty.getD 0)
            Number := some (H.Number.getD 0) }
      = H.EncodeRLP BFTDigest := by
  simp only [Header.EncodeRLP, Header.original, originalHeader.encode, originalHeader.toItem,
    rlp.encodeBigInt_getD]

/-- The hash of a header does not tell a nil difficulty or number from 0. -/
theorem Header.Hash_nil_zero (BFTDigest : common.Hash) (keccak256 : Bytes → common.Hash)
    (H : Header) :
    Header.Hash BFTDigest keccak256
        { H with
            Difficulty := some (H.Difficulty.getD 0)
            Number := some (H.Number.getD 0) }
      = H.Hash BFTDigest keccak256 := by
  by_cases hmix : H.MixDigest = BFTDigest
  · simp only [Header.Hash, hmix, if_true, BFTFilteredHeader]
    have := Header.EncodeRLP_nil_zero BFTDigest { H with CommittedSeals := [] }
    simp only at this
    rw [hmix] at this
    rw [this]
  · simp only [Header.Hash, hmix, if_false]
    have := originalHeader.encode_norm H.original
    simp only [Header.original] at this ⊢
    rw [this]

/-- C22: for a header `H` on which `CopyHeader` returns the header `c`, whatever in `H`
is nil or empty, `c` has the encoding of `H` and the hash of `H`; and for a block whose
header is `H`, the hash of the header that `Block.Header` returns, `HeaderCopy` here,
is the hash of the header of the block. -/
theorem CopyHeader_wire {Tx : Type} (BFTDigest : common.Hash)
    (keccak256 : Bytes → common.Hash) (H c : Header) (hc : CopyHeader H = some c) :
    c.EncodeRLP BFTDigest = H.EncodeRLP BFTDigest ∧
    c.Hash BFTDigest keccak256 = H.Hash BFTDigest keccak256 ∧
    ∀ b : Block Tx, b.header = H →
      b.HeaderCopy.map (Header.Hash BFTDigest keccak256)
        = some (b.header.Hash BFTDigest keccak256) := by
  have hv := CopyHeader_value H c hc
  refine ⟨?_, ?_, ?_⟩
  · rw [hv]
    exact Header.EncodeRLP_nil_zero BFTDigest H
  · rw [hv]
    exact Header.Hash_nil_zero BFTDigest keccak256 H
  · intro b hb
    rw [Block.HeaderCopy, hb, hc, Option.map_some', hv]
    exact congrArg some (Header.Hash_nil_zero BFTDigest keccak256 H)

/-- C22, an instance: the BFT header `exampleNilBFTHeader`, whose difficulty and number
are nil and whose past committed seals are empty, and a block with that header. -/
theorem CopyHeader_wire_witness :
    exampleNilBFTHeader.Difficulty = none ∧
    CopyHeader exampleNilBFTHeader
      = some { exampleNilBFTHeader with Difficulty := some 0, Number := some 0 } ∧
    (exampleNilBFTHeader.EncodeRLP exampleDigest).isSome = true ∧
    Header.EncodeRLP exampleDigest
        { exampleNilBFTHeader with Difficulty := some 0, Number := some 0 }
      = exampleNilBFTHeader.EncodeRLP exampleDigest ∧
    Header.Hash exampleDigest exampleKeccak
        { exampleNilBFTHeader with Difficulty := some 0, Number := some 0 }
      = exampleNilBFTHeader.Hash exampleDigest exampleKeccak ∧
    ∀ b : Block Unit, b.header = exampleNilBFTHeader →
      b.HeaderCopy.map (Header.Hash exampleDigest exampleKeccak)
        = some (b.header.Hash exampleDigest exampleKeccak) :=
  ⟨rfl, by decide, by decide,
    @CopyHeader_wire Unit exampleDigest exampleKeccak exampleNilBFTHeader _
      (by decide)⟩

/-! # What decoding writes to the receiving header -/

/-- C23: for a receiving header `h` and a stream `s`. When `Header.DecodeRLP` succeeds
with the header `h1`, the input holds a legacy header `origin`, the 14 legacy fields of
`h1` other than `Extra` are those of `origin`, and either the mix digest of `origin` is
the BFT digest, `Extra` of `h1` is that of `h` and the five BFT fields of `h1` are read
from the extra data of `origin`, or the mix digest is another one, `Extra` of `h1` is
that of `origin` and the five BFT fields of `h1` are those of `h`; so a BFT header
decoded into a fresh header has an empty `Extra`. When `Header.DecodeRLP` returns an
error, as it does when the outer list cannot be decoded, the receiving header is as it
was. -/
theorem Header.DecodeRLP_frame (BFTDigest : common.Hash) (h : Header) (s : Bytes) :
    (∀ (h1 : Header) (rest : Bytes), Header.DecodeRLP BFTDigest h s = (h1, some rest) →
      ∃ item origin, rlp.decode s = some (item, rest) ∧
        originalHeader.fromItem item = some origin ∧
        (h1.ParentHash = origin.ParentHash ∧ h1.UncleHash = origin.UncleHash ∧
          h1.Coinbase = origin.Coinbase ∧ h1.Root = origin.Root ∧
          h1.TxHash = origin.TxHash ∧ h1.ReceiptHash = origin.ReceiptHash ∧
          h1.Bloom = origin.Bloom ∧ h1.Difficulty = origin.Difficulty ∧
          h1.Number = origin.Number ∧ h1.GasLimit = origin.GasLimit ∧
          h1.GasUsed = origin.GasUsed ∧ h1.Time = origin.Time ∧
          h1.MixDigest = origin.MixDigest ∧ h1.Nonce = origin.Nonce) ∧
        (origin.MixDigest = BFTDigest →
          h1.Extra = h.Extra ∧
          ∃ hExtra, (rlp.DecodeBytes origin.Extra).bind headerExtra.fromItem = some hExtra ∧
            h1.Committee = hExtra.Committee ∧ h1.ProposerSeal = hExtra.ProposerSeal ∧
            h1.Round = hExtra.Round ∧ h1.CommittedSeals = hExtra.CommittedSeals ∧
            h1.PastCommittedSeals = hExtra.PastCommittedSeals) ∧
        (origin.MixDigest ≠ BFTDigest →
          h1.Extra = origin.Extra ∧ h1.Committee = h.Committee ∧
          h1.ProposerSeal = h.ProposerSeal ∧ h1.Round = h.Round ∧
          h1.CommittedSeals = h.CommittedSeals ∧
          h1.PastCommittedSeals = h.PastCommittedSeals)) ∧
    (∀ (h1 : Header) (rest : Bytes), h = Header.zeroValue →
      Header.DecodeRLP BFTDigest h s = (h1, some rest) → h1.MixDigest = BFTDigest →
      h1.Extra = []) ∧
    ((Header.DecodeRLP BFTDigest h s).2 = none → (Header.DecodeRLP BFTDigest h s).1 = h) ∧
    ((rlp.decode s).bind (fun x => originalHeader.fromItem x.1) = none →
      Header.DecodeRLP BFTDigest h s = (h, none)) := by
  have main : ∀ (h1 : Header) (rest : Bytes),
      Header.DecodeRLP BFTDigest h s = (h1, some rest) →
      ∃ item origin, rlp.decode s = some (item, rest) ∧
        originalHeader.fromItem item = some origin ∧
        (h1.ParentHash = origin.ParentHash ∧ h1.UncleHash = origin.UncleHash ∧
          h1.Coinbase = origin.Coinbase ∧ h1.Root = origin.Root ∧
          h1.TxHash = origin.TxHash ∧ h1.ReceiptHash = origin.ReceiptHash ∧
          h1.Bloom = origin.Bloom ∧ h1.Difficulty = origin.Difficulty ∧
          h1.Number = origin.Number ∧ h1.GasLimit = origin.GasLimit ∧
          h1.GasUsed = origin.GasUsed ∧ h1.Time = origin.Time ∧
          h1.MixDigest = origin.MixDigest ∧ h1.Nonce = origin.Nonce) ∧
        (origin.MixDigest = BFTDigest →
          h1.Extra = h.Extra ∧
          ∃ hExtra, (rlp.DecodeBytes origin.Extra).bind headerExtra.fromItem = some hExtra ∧
            h1.Committee = hExtra.Committee ∧ h1.ProposerSeal = hExtra.ProposerSeal ∧
            h1.Round = hExtra.Round ∧ h1.CommittedSeals = hExtra.CommittedSeals ∧
            h1.PastCommittedSeals = hExtra.PastCommittedSeals) ∧
        (origin.MixDigest ≠ BFTDigest →
          h1.Extra = origin.Extra ∧ h1.Committee = h.Committee ∧
          h1.ProposerSeal = h.ProposerSeal ∧ h1.Round = h.Round ∧
          h1.CommittedSeals = h.CommittedSeals ∧
          h1.PastCommittedSeals = h.PastCommittedSeals) := by
    intro h1 rest hdec
    unfold Header.DecodeRLP at hdec
    split at hdec
    · cases hdec
    · rename_i item r hitem
      split at hdec
      · cases hdec
      · rename_i origin horigin
        split at hdec
        · rename_i hmix
          split at hdec
          · cases hdec
          · rename_i hExtra hex
            simp only [Prod.mk.injEq, Option.some.injEq] at hdec
            obtain ⟨hh, hr⟩ := hdec
            subst hh hr
            refine ⟨item, origin, hitem, horigin,
              ⟨rfl, rfl, rfl, rfl, rfl, rfl, rfl, rfl, rfl, rfl, rfl, rfl, rfl, rfl⟩, ?_, ?_⟩
            · intro _
              exact ⟨rfl, hExtra, hex, rfl, rfl, rfl, rfl, rfl⟩
            · intro hne
              exact absurd hmix hne
        · rename_i hmix
          simp only [Prod.mk.injEq, Option.some.injEq] at hdec
          obtain ⟨hh, hr⟩ := hdec
          subst hh hr
          refine ⟨item, origin, hitem, horigin,
            ⟨rfl, rfl, rfl, rfl, rfl, rfl, rfl, rfl, rfl, rfl, rfl, rfl, rfl, rfl⟩, ?_, ?_⟩
          · intro he
            exact absurd he hmix
          · intro _
            exact ⟨rfl, rfl, rfl, rfl, rfl, rfl⟩
  refine ⟨main, ?_, ?_, ?_⟩
  · intro h1 rest hz hdec hmix
    obtain ⟨item, origin, _, _, hf, hbft, _⟩ := main h1 rest hdec
    have hm : origin.MixDigest = BFTDigest := by
      rw [← hf.2.2.2.2.2.2.2.2.2.2.2.2.1]
      exact hmix
    rw [(hbft hm).1, hz]
    rfl
  · intro herr
    unfold Header.DecodeRLP at herr ⊢
    split
    · rfl
    · split
      · rfl
      · rename_i item r hitem _ origin horigin
        simp only [hitem, horigin] at herr
        split
        · rename_i hmix
          simp only [hmix, if_true] at herr
          split
          · rfl
          · rename_i hExtra hex
            simp only [hex] at herr
            cases herr
        · rename_i hmix
          simp only [hmix, if_false] at herr
          cases herr
  · intro herr
    unfold Header.DecodeRLP
    split
    · rfl
    · rename_i item r hitem
      rw [hitem, Option.some_bind] at herr
      simp only at herr
      rw [herr]

/-- C23, instances: the encoding of the legacy header `exampleLegacyHeader` decoded into
`exampleFullHeader` leaves the BFT fields of the receiving header; the encoding of the
BFT header `exampleFullHeader` decoded into `exampleLegacyHeader` leaves its `Extra`
and into a fresh header gives an empty `Extra`; and on the input of one byte, which is
no list, the receiving header `exampleFullHeader` is as it was. -/
theorem Header.DecodeRLP_frame_witness :
    ((exampleLegacyHeader.EncodeRLP exampleDigest).map fun bs =>
        Header.DecodeRLP exampleDigest exampleFullHeader bs)
      = some ({ exampleFullHeader with
                  MixDigest := exampleLegacyHeader.MixDigest
                  Extra := exampleLegacyHeader.Extra }, some []) ∧
    ((exampleFullHeader.EncodeRLP exampleDigest).map fun bs =>
        Header.DecodeRLP exampleDigest exampleLegacyHeader bs)
      = some ({ exampleFullHeader with Extra := exampleLegacyHeader.Extra }, some []) ∧
    ((exampleFullHeader.EncodeRLP exampleDigest).map fun bs =>
        (Header.DecodeRLP exampleDigest Header.zeroValue bs).1.Extra) = some [] ∧
    (Header.DecodeRLP exampleDigest exampleFullHeader [1]).2 = none ∧
    (Header.DecodeRLP exampleDigest exampleFullHeader [1]).1 = exampleFullHeader :=
  ⟨by decide, by decide, by decide, by decide,
    (Header.DecodeRLP_frame exampleDigest exampleFullHeader [1]).2.2.1 (by decide)⟩

/-! # CopyHeader returns, and returns no nil -/

/-- The header that `Mem.CopyHeader` returns has no nil pointer and no nil slice. -/
theorem CopyHeader_store_fields (m m1 : Mem.Heap) (h c : Mem.HeaderRef)
    (hc : Mem.CopyHeader m h = some (m1, c)) :
    c.Difficulty ≠ none ∧ c.Number ≠ none ∧ c.Extra ≠ none ∧ c.Committee ≠ none ∧
      c.ProposerSeal ≠ none ∧ c.CommittedSeals ≠ none ∧ c.PastCommittedSeals ≠ none := by
  unfold Mem.CopyHeader at hc
  repeat' (split at hc; try cases hc)
  simp only [Option.some.injEq, Prod.mk.injEq] at hc
  rw [← hc.2]
  simp

/-- C24: for a header in memory that reads as `H`, with a voting power for every member
of the committee of `H`, whatever else in it is nil or empty: `CopyHeader` returns; the
header it returns has a pointer that is not nil for the difficulty and for the number
and a slice that is not nil for the extra data, the committee, the proposer seal, the
committed seals and the past committed seals; and it reads as `H` with 0 for a nil
difficulty and for a nil number, which is what `CopyHeader` by value returns. -/
theorem CopyHeader_total (m : Mem.Heap) (h : Mem.HeaderRef) (H : Header)
    (hload : Mem.load m h = some H) (hpow : ∀ x ∈ H.Committee, x.VotingPower ≠ none) :
    ∃ m1 c, Mem.CopyHeader m h = some (m1, c) ∧
      (c.Difficulty ≠ none ∧ c.Number ≠ none ∧ c.Extra ≠ none ∧ c.Committee ≠ none ∧
        c.ProposerSeal ≠ none ∧ c.CommittedSeals ≠ none ∧ c.PastCommittedSeals ≠ none) ∧
      Mem.load m1 c
        = some { H with
                  Difficulty := some (H.Difficulty.getD 0)
                  Number := some (H.Number.getD 0) } ∧
      CopyHeader H
        = some { H with
                  Difficulty := some (H.Difficulty.getD 0)
                  Number := some (H.Number.getD 0) } := by
  obtain ⟨m1, c, hc, hl, _⟩ := CopyHeader_store_refines m h H hload hpow
  have hv := CopyHeader_of_power H hpow
  exact ⟨m1, c, hc, CopyHeader_store_fields m m1 h c hc, by rw [hl, hv], hv⟩

/-- C24, an instance: the header `exampleNilHeaderRef`, whose pointers and slices are
all nil, in the empty store. -/
theorem CopyHeader_total_witness :
    Mem.load [] exampleNilHeaderRef = some Header.zeroValue ∧
    ∃ m1 c, Mem.CopyHeader [] exampleNilHeaderRef = some (m1, c) ∧
      (c.Difficulty ≠ none ∧ c.Number ≠ none ∧ c.Extra ≠ none ∧ c.Committee ≠ none ∧
        c.ProposerSeal ≠ none ∧ c.CommittedSeals ≠ none ∧ c.PastCommittedSeals ≠ none) ∧
      Mem.load m1 c
        = some { Header.zeroValue with
                  Difficulty := some (Header.zeroValue.Difficulty.getD 0)
                  Number := some (Header.zeroValue.Number.getD 0) } ∧
      CopyHeader Header.zeroValue
        = some { Header.zeroValue with
                  Difficulty := some (Header.zeroValue.Difficulty.getD 0)
                  Number := some (Header.zeroValue.Number.getD 0) } :=
  ⟨by decide,
    CopyHeader_total [] exampleNilHeaderRef Header.zeroValue (by decide)
      (fun x hx => (by cases hx))⟩

/-! # A block with an empty body -/

/-- C25, counterexample: for the header `exampleNilPowerHeader`, which has a committee
member whose voting power is nil, `NewBlock` with no transactions, uncles and receipts
yields no block: the `CopyHeader` in it panics. -/
theorem NewBlock_empty_nil_power :
    exampleNilPowerHeader.Committee
      = [{ Address := exampleAddress, VotingPower := none }] ∧
    NewBlock exampleKeccak exampleDeriver exampleNilPowerHeader [] [] [] ()
      = (none : Option (Block Unit)) :=
  ⟨rfl, rfl⟩

/-- C25: for a header whose committee members all have a voting power, `CopyHeader`
returns a header `cpy` and `NewBlock` with no transactions, uncles and receipts yields a
block whose header is `cpy` with `TxHash` and `ReceiptHash` set to `EmptyRootHash` and
`UncleHash` to `EmptyUncleHash`, on which `EmptyBody` and `EmptyReceipts` are true, and
whose lists of transactions and of uncles are empty. -/
theorem NewBlock_empty {Tx Receipt Hasher : Type} (keccak256 : Bytes → common.Hash)
    (ext : Deriver Tx Receipt Hasher) (hasher : Hasher) (header : Header)
    (hvp : ∀ m ∈ header.Committee, m.VotingPower ≠ none) :
    ∃ (cpy : Header) (b : Block Tx), CopyHeader header = some cpy ∧
      NewBlock keccak256 ext header [] [] [] hasher = some b ∧
      b.header
        = { cpy with
              TxHash := EmptyRootHash
              ReceiptHash := EmptyRootHash
              UncleHash := EmptyUncleHash keccak256 } ∧
      b.header.EmptyBody keccak256 = true ∧ b.header.EmptyReceipts = true ∧
      b.transactions = [] ∧ b.uncles = [] := by
  have hcpy := CopyHeader_of_power header hvp
  refine ⟨_, ⟨{ ({ header with
                    Difficulty := some (header.Difficulty.getD 0)
                    Number := some (header.Number.getD 0) } : Header) with
                TxHash := EmptyRootHash
                ReceiptHash := EmptyRootHash
                UncleHash := EmptyUncleHash keccak256 }, [], [], none, none, some 0⟩,
    hcpy, ?_, rfl, ?_, ?_, rfl, rfl⟩
  · simp only [NewBlock, hcpy, List.length_nil, if_true]
  · simp [Header.EmptyBody]
  · simp [Header.EmptyReceipts]

/-- C25, an instance: the header `exampleNilBFTHeader`, whose difficulty and number are
nil and whose committee has one member with a voting power. -/
theorem NewBlock_empty_witness :
    (∀ m ∈ exampleNilBFTHeader.Committee, m.VotingPower ≠ none) ∧
    ∃ (cpy : Header) (b : Block Unit), CopyHeader exampleNilBFTHeader = some cpy ∧
      NewBlock exampleKeccak exampleDeriver exampleNilBFTHeader [] [] [] () = some b ∧
      b.header
        = { cpy with
              TxHash := EmptyRootHash
              ReceiptHash := EmptyRootHash
              UncleHash := EmptyUncleHash exampleKeccak } ∧
      b.header.EmptyBody exampleKeccak = true ∧ b.header.EmptyReceipts = true ∧
      b.transactions = [] ∧ b.uncles = [] :=
  ⟨by decide,
    NewBlock_empty exampleKeccak exampleDeriver () exampleNilBFTHeader (by decide)⟩

/-! # Nonces -/

/-- A shifted value joined to a value below the shift is their sum. -/
theorem or_shiftLeft_eq_add (acc x k : Nat) (h : acc < 2 ^ k) :
    acc ||| x <<< k = acc + x * 2 ^ k := by
  rw [Nat.shiftLeft_eq, Nat.lor_comm, Nat.mul_comm, ← Nat.mul_add_lt_is_or h, Nat.add_comm]

/-- The value `binary.BigEndian.Uint64` reads from eight bytes, the first one the most
significant. -/
theorem Uint64_val (b0 b1 b2 b3 b4 b5 b6 b7 : Byte) (rest : Bytes) :
    (binary.BigEndian.Uint64 (b0 :: b1 :: b2 :: b3 :: b4 :: b5 :: b6 :: b7 :: rest)).val
      = b7.val + b6.val * 2 ^ 8 + b5.val * 2 ^ 16 + b4.val * 2 ^ 24 + b3.val * 2 ^ 32 +
        b2.val * 2 ^ 40 + b1.val * 2 ^ 48 + b0.val * 2 ^ 56 := by
  have h0 := b0.isLt
  have h1 := b1.isLt
  have h2 := b2.isLt
  have h3 := b3.isLt
  have h4 := b4.isLt
  have h5 := b5.isLt
  have h6 := b6.isLt
  have h7 := b7.isLt
  simp only [binary.BigEndian.Uint64, uint64, List.getD_cons_zero, List.getD_cons_succ]
  rw [or_shiftLeft_eq_add _ _ 8 (by omega)]
  rw [or_shiftLeft_eq_add _ _ 16 (by omega)]
  rw [or_shiftLeft_eq_add _ _ 24 (by omega)]
  rw [or_shiftLeft_eq_add _ _ 32 (by omega)]
  rw [or_shiftLeft_eq_add _ _ 40 (by omega)]
  rw [or_shiftLeft_eq_add _ _ 48 (by omega)]
  rw [or_shiftLeft_eq_add _ _ 56 (by omega)]
  apply Nat.mod_eq_of_lt
  omega

/-- The eight bytes of `EncodeNonce`. -/
theorem EncodeNonce_val (i : U64) :
    (EncodeNonce i).val
      = [byteOfNat (i.val / 2 ^ 56), byteOfNat (i.val / 2 ^ 48), byteOfNat (i.val / 2 ^ 40),
          byteOfNat (i.val / 2 ^ 32), byteOfNat (i.val / 2 ^ 24), byteOfNat (i.val / 2 ^ 16),
          byteOfNat (i.val / 2 ^ 8), byteOfNat i.val] := by
  simp only [EncodeNonce, binary.BigEndian.PutUint64, Nat.shiftRight_eq_div_pow]
  rfl

/-- A nonce is a list of eight bytes. -/
theorem BlockNonce_eq_bytes (n : BlockNonce) :
    ∃ b0 b1 b2 b3 b4 b5 b6 b7 : Byte, n.val = [b0, b1, b2, b3, b4, b5, b6, b7] := by
  obtain ⟨l, hl⟩ := n
  match l, hl with
  | [b0, b1, b2, b3, b4, b5, b6, b7], _ => exact ⟨b0, b1, b2, b3, b4, b5, b6, b7, rfl⟩

theorem EncodeNonce_Uint64 (i : U64) : (EncodeNonce i).Uint64 = i := by
  apply Fin.ext
  have hi := i.isLt
  rw [BlockNonce.Uint64, EncodeNonce_val, Uint64_val]
  simp only [byteOfNat_val]
  omega

theorem Uint64_EncodeNonce (n : BlockNonce) : EncodeNonce n.Uint64 = n := by
  obtain ⟨b0, b1, b2, b3, b4, b5, b6, b7, hn⟩ := BlockNonce_eq_bytes n
  apply Subtype.ext
  have hv := Uint64_val b0 b1 b2 b3 b4 b5 b6 b7 []
  have h0 := b0.isLt
  have h1 := b1.isLt
  have h2 := b2.isLt
  have h3 := b3.isLt
  have h4 := b4.isLt
  have h5 := b5.isLt
  have h6 := b6.isLt
  have h7 := b7.isLt
  rw [EncodeNonce_val, BlockNonce.Uint64, hn, hv]
  have e : ∀ (x : Nat) (b : Byte), x % 256 = b.val → byteOfNat x = b := by
    intro x b hx
    apply Fin.ext
    rw [byteOfNat_val, hx]
  rw [e _ b0 (by omega), e _ b1 (by omega), e _ b2 (by omega), e _ b3 (by omega),
    e _ b4 (by omega), e _ b5 (by omega), e _ b6 (by omega), e _ b7 (by omega)]

/-- The value of a nonce is the big-endian value of its bytes. -/
theorem Uint64_beVal (n : BlockNonce) : n.Uint64.val = beVal n.val := by
  obtain ⟨b0, b1, b2, b3, b4, b5, b6, b7, hn⟩ := BlockNonce_eq_bytes n
  rw [BlockNonce.Uint64, hn, Uint64_val]
  simp only [beVal, List.foldl_cons, List.foldl_nil]
  omega

/-- C26: `EncodeNonce` and `BlockNonce.Uint64` are inverse to each other; the encoding is
big-endian: the bytes of `EncodeNonce i` are `i` shifted right by 56, 48, ... and 0
bits, the first byte the most significant, and the value of a nonce is the big-endian
value of its bytes; and `Block.Nonce` is `Uint64` of the nonce of the header. -/
theorem EncodeNonce_inverse :
    (∀ i : U64, (EncodeNonce i).Uint64 = i) ∧
    (∀ n : BlockNonce, EncodeNonce n.Uint64 = n) ∧
    (∀ i : U64,
      (EncodeNonce i).val
        = [byteOfNat (i.val / 2 ^ 56), byteOfNat (i.val / 2 ^ 48),
            byteOfNat (i.val / 2 ^ 40), byteOfNat (i.val / 2 ^ 32),
            byteOfNat (i.val / 2 ^ 24), byteOfNat (i.val / 2 ^ 16),
            byteOfNat (i.val / 2 ^ 8), byteOfNat i.val]) ∧
    (∀ n : BlockNonce, n.Uint64.val = beVal n.val) ∧
    (∀ i : U64, beVal (EncodeNonce i).val = i.val) ∧
    (∀ (Tx : Type) (b : Block Tx), b.Nonce = b.header.Nonce.Uint64) := by
  refine ⟨EncodeNonce_Uint64, Uint64_EncodeNonce, EncodeNonce_val, Uint64_beVal, ?_,
    fun _ _ => rfl⟩
  intro i
  rw [← Uint64_beVal, EncodeNonce_Uint64]

/-- The nonce of the bytes 1 to 8 is 0x0102030405060708. -/
theorem EncodeNonce_example :
    EncodeNonce (uint64 0x0102030405060708) = exampleNonce ∧
    exampleNonce.Uint64 = uint64 0x0102030405060708 := by
  decide

